import Mathlib

/-!
# KinKal: loop helix, material effect, hits, time range and closest approach

A shallow embedding of parts of the KinKal kinematic Kalman fitter.
Doubles are idealised as real numbers, with division by zero giving zero; a
C++ exception is a value of `Except Exn`.

* Sections 1-2 embed `LHelix` (`BTrk/KinKal/LHelix.cc`): the two constructors,
  `position`, `momentum`, `direction`, `dirVector` and `momDeriv`.  The inline
  accessors of the absent header `LHelix.hh` are modelled from the specification.
* Section 3 embeds `ElementXing::materialEffects` (`Detector/ElementXing.hh`) and
  `Material::process`, `updateCache` and `update` (`Fit/Material.hh`).  The fit
  state and the trajectory are type parameters with the operations the code calls.
* Sections 3a-3d embed `TRange` (`BTrk/KinKal/TRange.hh`), `Material::append`,
  `Measurement::process` (`Fit/Measurement.hh`) and `ScintHit::update`
  (`Detector/ScintHit.hh`).
* Sections 3e-3g embed the constructor of `POCAUtil` (`Trajectory/POCAUtil.cc`),
  the inline methods of `CentralHelix` (`Trajectory/CentralHelix.hh`) and the
  line built by the closest-approach test (`Tests/ClosestApproachTest.hh`).
* Section 3h embeds the kinematic accessors of `CentralHelix` once more, on
  doubles that may be infinite or not a number.
* Section 4 holds the definitions the statements need, among them the bodies of
  the `LHelix` methods with the angular frequency as a parameter and the
  frequency `copysign(c, mbar)/ebar`; section 5 holds the lemmas,
  sections 6-14 the settled properties.
-/

set_option genSizeOf false
set_option genSizeOfSpec false
set_option genInjectivity false

namespace KinKal

/-! ## 1. Vectors and C library helpers -/

/-- Exceptions thrown by the embedded code. -/
inductive Exn
  | invalid_argument (msg : String)
  | runtime_error (msg : String)
  deriving DecidableEq, Repr

/-- A Cartesian 3-vector (ROOT `XYZVector`). -/
@[ext] structure Vec3 where
  X : ℝ
  Y : ℝ
  Z : ℝ

/-- A space-time 4-vector (ROOT `XYZTVector`). -/
@[ext] structure Vec4 where
  X : ℝ
  Y : ℝ
  Z : ℝ
  T : ℝ

/-- A momentum 4-vector stored as three momentum components and the mass
(ROOT `PxPyPzMVector`). -/
@[ext] structure Mom4 where
  Px : ℝ
  Py : ℝ
  Pz : ℝ
  M : ℝ

namespace Vec3

/-- Scalar product, `Dot`. -/
def Dot (a b : Vec3) : ℝ := a.X * b.X + a.Y * b.Y + a.Z * b.Z

/-- Vector product, `Cross`. -/
def Cross (a b : Vec3) : Vec3 :=
  ⟨a.Y * b.Z - a.Z * b.Y, a.Z * b.X - a.X * b.Z, a.X * b.Y - a.Y * b.X⟩

/-- Euclidean length, `R`. -/
noncomputable def R (a : Vec3) : ℝ := Real.sqrt (a.X * a.X + a.Y * a.Y + a.Z * a.Z)

/-- Multiplication by a scalar, `operator*`. -/
def scale (k : ℝ) (a : Vec3) : Vec3 := ⟨k * a.X, k * a.Y, k * a.Z⟩

/-- ROOT `Unit()`: the vector divided by its length, the null vector being
returned as it is. -/
noncomputable def Unit (a : Vec3) : Vec3 :=
  if a.R = 0 then a else ⟨a.X / a.R, a.Y / a.R, a.Z / a.R⟩

end Vec3

namespace Mom4

/-- Transverse momentum, `Pt()`. -/
noncomputable def Pt (m : Mom4) : ℝ := Real.sqrt (m.Px * m.Px + m.Py * m.Py)

/-- Azimuth of the momentum, `Phi()`, which is `atan2(Py, Px)`. -/
noncomputable def Phi (m : Mom4) : ℝ := Complex.arg ⟨m.Px, m.Py⟩

/-- Spatial part, `Vect()`. -/
def Vect (m : Mom4) : Vec3 := ⟨m.Px, m.Py, m.Pz⟩

end Mom4

/-- C `copysign(x, y)`: the magnitude of `x` with the sign of `y`.  A real
zero stands for the double `+0.0`. -/
noncomputable def copysign (x y : ℝ) : ℝ := if 0 ≤ y then |x| else -|x|

/-- C `rint(x)` in the default rounding mode: the nearest integer, a tie
going to the even neighbour. -/
noncomputable def rint (x : ℝ) : ℤ :=
  if x - ⌊x⌋ < 1 / 2 then ⌊x⌋
  else if 1 / 2 < x - ⌊x⌋ then ⌊x⌋ + 1
  else if ⌊x⌋ % 2 = 0 then ⌊x⌋ else ⌊x⌋ + 1

/-- C `M_PI`. -/
noncomputable def M_PI : ℝ := Real.pi

/-! ## 2. The loop helix -/

/-- Modelled from the spec: the constant `c_` of the absent header `LHelix.hh`,
the speed of light `c = 299.792458 mm/ns`. -/
def c_ : ℝ := 299.792458

/-- Indices of the six helix parameters, in the order of `paramNames_`. -/
inductive paramIndex
  | rad_ | lam_ | cx_ | cy_ | phi0_ | t0_
  deriving DecidableEq, Repr

/-- A parameter vector `PDATA::DVec`, also the one column of a `PDer`. -/
abbrev DVec := paramIndex → ℝ

/-- A parameter covariance matrix `PDATA::DMat`. -/
abbrev DMat := paramIndex → paramIndex → ℝ

/-- The directions of the local momentum basis.  A C++ enumeration can hold
a value that is none of its enumerators; `other raw` stands for such a
value. -/
inductive trajdir
  | theta1 | theta2 | momdir
  | other (raw : ℤ)
  deriving DecidableEq, Repr

/-- A time range `TRange`, the pair `range_`. -/
@[ext] structure TRange where
  low : ℝ
  high : ℝ

/-- The state of an `LHelix`: the range of `TTraj`, mass and charge of
`KTraj`, the parameters with their covariance, and the reduced mass. -/
structure LHelix where
  range : TRange
  mass_ : ℝ
  charge_ : ℤ
  pvec : DVec
  pcov : DMat
  mbar_ : ℝ

namespace LHelix

open paramIndex

/-- Accessor `param(index)`. -/
def param (h : LHelix) (i : paramIndex) : ℝ := h.pvec i

def rad (h : LHelix) : ℝ := h.param rad_
def lam (h : LHelix) : ℝ := h.param lam_
def cx (h : LHelix) : ℝ := h.param cx_
def cy (h : LHelix) : ℝ := h.param cy_
def phi0 (h : LHelix) : ℝ := h.param phi0_
def t0 (h : LHelix) : ℝ := h.param t0_

/-- Modelled from the spec: `pbar()` of the absent header `LHelix.hh`,
`pbar = sqrt(rad² + lam²)`, the momentum in mm. -/
noncomputable def pbar (h : LHelix) : ℝ := Real.sqrt (h.rad * h.rad + h.lam * h.lam)

/-- Modelled from the spec: `ebar()` of the absent header `LHelix.hh`,
`ebar = sqrt(pbar² + mbar²)`, the energy in mm. -/
noncomputable def ebar (h : LHelix) : ℝ := Real.sqrt (h.pbar * h.pbar + h.mbar_ * h.mbar_)

/-- Modelled from the spec: `omega()` of the absent header `LHelix.hh`,
`omega = copysign(c, mbar) / sqrt(rad² + lam²)`, the signed angular frequency. -/
noncomputable def omega (h : LHelix) : ℝ :=
  copysign c_ h.mbar_ / Real.sqrt (h.rad * h.rad + h.lam * h.lam)

/-- Modelled from the spec: `beta()` of the absent header `LHelix.hh`,
`beta = |pbar/ebar|`. -/
noncomputable def beta (h : LHelix) : ℝ := |h.pbar / h.ebar|

/-- Modelled from the spec: `dphi(t)` of the absent header `LHelix.hh`,
`dphi(t) = omega · (t − t0)`. -/
noncomputable def dphi (h : LHelix) (t : ℝ) : ℝ := h.omega * (t - h.t0)

/-- Modelled from the spec: `phi(t)` of the absent header `LHelix.hh`,
`phi(t) = dphi(t) + phi0`. -/
noncomputable def phi (h : LHelix) (t : ℝ) : ℝ := h.dphi t + h.phi0

/-- The parameter vector left by the kinematic constructor
`LHelix(Vec4, Mom4, charge, context, range)` (LHelix.cc 23-48), the nominal
field `context.bNom()` being `bNom`.  The parameters are assigned in the
source order: `rad`, `lam`, then `t0` (which reads `omega()` and `lam()`),
`phi0` (which reads `t0()`), `cx`, `cy`.  The covariance is left as the
default constructor of `pars_` makes it, taken to be null. -/
noncomputable def kinematicHelix (pos : Vec4) (mom : Mom4) (charge : ℤ) (bNom : ℝ)
    (range : TRange) : LHelix :=
  let twopi : ℝ := 2 * M_PI
  let pt := mom.Pt
  let phibar := mom.Phi
  let momToRad : ℝ := 1000.0 / ((charge : ℝ) * bNom * c_)
  let mbar : ℝ := -mom.M * momToRad
  let radv : ℝ := -pt * momToRad
  let lamv : ℝ := -mom.Pz * momToRad
  -- the helix as it stands when `omega()` is called: only rad and lam are set
  let h0 : LHelix :=
    { range := range, mass_ := mom.M, charge_ := charge, mbar_ := mbar, pcov := fun _ _ => 0,
      pvec := fun i => match i with
        | rad_ => radv
        | lam_ => lamv
        | _ => 0 }
  let om := h0.omega
  let t0v : ℝ := pos.T - pos.Z / (om * lamv)
  let nwind : ℝ := (rint ((pos.Z / lamv - phibar) / twopi) : ℝ)
  let phi0v : ℝ := phibar - om * (pos.T - t0v) + twopi * nwind
  let cxv : ℝ := pos.X + mom.Py * momToRad
  let cyv : ℝ := pos.Y - mom.Px * momToRad
  { h0 with
    pvec := fun i => match i with
      | rad_ => radv
      | lam_ => lamv
      | cx_ => cxv
      | cy_ => cyv
      | phi0_ => phi0v
      | t0_ => t0v }

/-- The kinematic constructor `LHelix(Vec4, Mom4, charge, context, range)`
(LHelix.cc 23-48) as a fallible operation: its body holds no `throw`, so it
returns the helix for every input. -/
noncomputable def ofKinematics (pos : Vec4) (mom : Mom4) (charge : ℤ) (bNom : ℝ)
    (range : TRange) : Except Exn LHelix :=
  pure (kinematicHelix pos mom charge bNom range)

/-- The parametric constructor `LHelix(pvec, pcov, mass, charge, context, range)`
(LHelix.cc 50-54). -/
noncomputable def ofParameters (pvec : DVec) (pcov : DMat) (mass : ℝ) (charge : ℤ) (bNom : ℝ)
    (range : TRange) : LHelix :=
  let momToRad : ℝ := 1000.0 / ((charge : ℝ) * bNom * c_)
  { range := range, mass_ := mass, charge_ := charge, pvec := pvec, pcov := pcov,
    mbar_ := -mass * momToRad }

/-- Method `position(double t, Vec3& pos)` (LHelix.cc 66-74). -/
noncomputable def position (h : LHelix) (t : ℝ) : Vec3 :=
  let df := h.dphi t
  let phival := df + h.phi0
  ⟨h.cx + h.rad * Real.sin phival, h.cy - h.rad * Real.cos phival, df * h.lam⟩

/-- Method `momentum(double tval, Mom4& mom)` (LHelix.cc 76-83). -/
noncomputable def momentum (h : LHelix) (tval : ℝ) : Mom4 :=
  let phival := h.phi tval
  let factor := h.mass_ / h.mbar_
  ⟨factor * h.rad * Real.cos phival, factor * h.rad * Real.sin phival, factor * h.lam, h.mass_⟩

/-- Method `direction(double tval, Vec3& dir)` (LHelix.cc 91-95). -/
noncomputable def direction (h : LHelix) (tval : ℝ) : Vec3 :=
  (h.momentum tval).Vect.Unit

/-- Method `dirVector(trajdir dir, double tval, Vec3& unit)` (LHelix.cc 97-119). -/
noncomputable def dirVector (h : LHelix) (dir : trajdir) (tval : ℝ) : Except Exn Vec3 :=
  let phival := h.phi tval
  let norm := 1.0 / copysign h.pbar h.mbar_
  match dir with
  | trajdir.theta1 =>
    pure (Vec3.scale norm ⟨h.lam * Real.cos phival, h.lam * Real.sin phival, -h.rad⟩)
  | trajdir.theta2 =>
    pure ⟨-Real.sin phival, Real.cos phival, 0.0⟩
  | trajdir.momdir =>
    pure (h.direction tval)
  | trajdir.other _ =>
    throw (Exn.invalid_argument "Invalid direction")

/-- Method `momDeriv(trajdir dir, double time, PDer& dermat)` (LHelix.cc 121-159):
the column written into `dermat`. -/
noncomputable def momDeriv (h : LHelix) (dir : trajdir) (time : ℝ) : Except Exn DVec :=
  let bval := h.beta
  let omval := h.omega
  let pb := h.pbar
  let phival := omval * (time - h.t0) + h.phi0
  match dir with
  | trajdir.theta1 =>
    pure fun i => match i with
      | rad_ => h.lam
      | lam_ => -h.rad
      | t0_ => -(time - h.t0) * h.rad / h.lam
      | phi0_ => -omval * (time - h.t0) * h.rad / h.lam
      | cx_ => -h.lam * Real.sin phival
      | cy_ => h.lam * Real.cos phival
  | trajdir.theta2 =>
    pure fun i => match i with
      | rad_ => 0.0
      | lam_ => 0.0
      | t0_ => 0.0
      | phi0_ => copysign 1.0 omval * pb / h.rad
      | cx_ => -copysign 1.0 omval * pb * Real.cos phival
      | cy_ => -copysign 1.0 omval * pb * Real.sin phival
  | trajdir.momdir =>
    pure fun i => match i with
      | rad_ => h.rad
      | lam_ => h.lam
      | t0_ => (time - h.t0) * (1.0 - bval * bval)
      | phi0_ => omval * (time - h.t0)
      | cx_ => -h.rad * Real.sin phival
      | cy_ => h.rad * Real.cos phival
  | trajdir.other _ =>
    throw (Exn.invalid_argument "Invalid direction")

end LHelix

end KinKal
namespace KinKal

/-! ## 3. Material effect -/

/-- Direction of time in a Kalman sweep (`TimeDir`). -/
inductive TimeDir
  | forwards | backwards
  deriving DecidableEq, Repr

namespace MomBasis

/-- The local momentum basis `MomBasis::Direction`; `ndir` is 3. -/
inductive Direction
  | momdir_ | perpdir_ | phidir_
  deriving DecidableEq, Repr

end MomBasis

/-- Modelled from the spec: the absent class `Parameters`, "a 6-vector `P`
plus a symmetric 6×6 covariance `C`". -/
@[ext] structure Parameters where
  parameters : DVec
  covariance : DMat

/-- The default-constructed `Parameters()`: null vector and matrix. -/
def Parameters.empty : Parameters := ⟨fun _ => 0, fun _ _ => 0⟩

/-- Modelled from the spec: the absent class `Weights`, the information form
which "stores `W = C⁻¹` and `w = W·P`": a weight vector and a weight matrix. -/
@[ext] structure Weights where
  weightVec : DVec
  weightMat : DMat

/-- The default-constructed `Weights()`: null vector and matrix. -/
def Weights.empty : Weights := ⟨fun _ => 0, fun _ _ => 0⟩

/-- `Weights::operator+=`: the sum of the vectors and of the matrices. -/
def Weights.add (a b : Weights) : Weights :=
  ⟨fun i => a.weightVec i + b.weightVec i, fun i j => a.weightMat i j + b.weightMat i j⟩

instance : Add Weights := ⟨Weights.add⟩

/-- The part of the absent class `FitState` that `Material::process` calls, for
a fit state of type `FS`: `append(Parameters, TimeDir)` and the accessor `wData()`. -/
structure FitStateOps (FS : Type) where
  append : FS → Parameters → TimeDir → FS
  wData : FS → Weights

/-- A 6×3 matrix `DPDV`, one 3-vector a row. -/
abbrev DPDV := paramIndex → Vec3

/-- The part of the trajectory type `KTRAJ` that the material code calls:
scalar `momentum(time)`, `mass()`, `dPardM(time)` and `direction(time, mdir)`. -/
structure KTrajOps (KT : Type) where
  momentum : KT → ℝ → ℝ
  mass : KT → ℝ
  dPardM : KT → ℝ → DPDV
  direction : KT → ℝ → MomBasis.Direction → Vec3

/-- The part of the absent class `DetMaterial` that the crossing code calls,
each a function of momentum, path length and mass. -/
structure DetMaterial where
  energyLoss : ℝ → ℝ → ℝ → ℝ
  energyLossVar : ℝ → ℝ → ℝ → ℝ
  scatterAngleVar : ℝ → ℝ → ℝ → ℝ

/-- One material crossing `MaterialXing`: the material and the path length in it. -/
structure MaterialXing where
  dmat_ : DetMaterial
  plen_ : ℝ

/-- An element crossing `ElementXing` (ElementXing.hh): its material crossings,
and the value of the pure virtual `time()`. -/
structure ElementXing where
  mxings_ : List MaterialXing
  time : ℝ

namespace ElementXing

/-- Method `active()` (ElementXing.hh 31): crossings without material are inactive. -/
def active (x : ElementXing) : Bool := decide (x.mxings_.length > 0)

/-- Method `materialEffects(pktraj, tdir, dmom, momvar)` (ElementXing.hh 44-60):
the arrays `dmom` and `momvar` after the call. -/
noncomputable def materialEffects {KT : Type} (K : KTrajOps KT) (x : ElementXing) (pktraj : KT)
    (tdir : TimeDir) (dmom momvar : MomBasis.Direction → ℝ) :
    (MomBasis.Direction → ℝ) × (MomBasis.Direction → ℝ) :=
  let mom := K.momentum pktraj x.time
  let mass := K.mass pktraj
  let dmFdE0 := Real.sqrt (mom * mom + mass * mass) / (mom * mom)
  let dmFdE := if tdir = TimeDir.backwards then dmFdE0 * (-1.0) else dmFdE0
  x.mxings_.foldl (fun (acc : (MomBasis.Direction → ℝ) × (MomBasis.Direction → ℝ)) mxing =>
    let dm := acc.1
    let mv := acc.2
    let mv1 := Function.update mv MomBasis.Direction.momdir_
      (mv MomBasis.Direction.momdir_
        + mxing.dmat_.energyLossVar mom mxing.plen_ mass * dmFdE * dmFdE)
    let dm1 := Function.update dm MomBasis.Direction.momdir_
      (dm MomBasis.Direction.momdir_ + mxing.dmat_.energyLoss mom mxing.plen_ mass * dmFdE)
    let scatvar := mxing.dmat_.scatterAngleVar mom mxing.plen_ mass
    let mv2 := Function.update mv1 MomBasis.Direction.perpdir_
      (mv1 MomBasis.Direction.perpdir_ + scatvar)
    let mv3 := Function.update mv2 MomBasis.Direction.phidir_
      (mv2 MomBasis.Direction.phidir_ + scatvar)
    (dm1, mv3)) (dmom, momvar)

end ElementXing

/-- Modelled from the spec: the processing state of the absent base class
`Effect`, `processedState ∈ {Unprocessed, Forward, Backward, Both}`. -/
inductive ProcessedState
  | unprocessed | forward | backward | both
  deriving DecidableEq, Repr

namespace ProcessedState

/-- Modelled from the spec: `KKEFF::setState(tdir, KKEFF::processed)` of the
absent base class `Effect`, which marks the effect processed in direction `tdir`. -/
def setProcessed : ProcessedState → TimeDir → ProcessedState
  | unprocessed, TimeDir.forwards => forward
  | unprocessed, TimeDir.backwards => backward
  | forward, TimeDir.forwards => forward
  | forward, TimeDir.backwards => both
  | backward, TimeDir.forwards => both
  | backward, TimeDir.backwards => backward
  | both, _ => both

/-- The effect has been processed in direction `tdir`. -/
def isProcessed : ProcessedState → TimeDir → Bool
  | forward, TimeDir.forwards => true
  | backward, TimeDir.backwards => true
  | both, _ => true
  | _, _ => false

end ProcessedState

/-- The state of a `Material` effect (Material.hh 42-47) for a trajectory type
`KT`, with the processing state of its base class `Effect`. -/
structure Material (KT : Type) where
  exing_ : ElementXing
  ref_ : KT
  mateff_ : Parameters
  cache_ : Weights
  vscale_ : ℝ
  state : ProcessedState

/-- What `Material::update` needs from outside: the trajectory interface, the
piecewise trajectory's `nearestPiece`, the crossing's own `update(ref)` and the
base class's `updateState()`, for a piecewise trajectory type `PK`. -/
structure MaterialEnv (PK KT : Type) where
  ktraj : KTrajOps KT
  nearestPiece : PK → ℝ → KT
  xingUpdate : ElementXing → PK → ElementXing
  updateState : ProcessedState → ProcessedState

namespace Material

variable {KT PK FS : Type}

/-- Static member `tbuff_` (Material.hh 50). -/
def tbuff_ : ℝ := 1.0e-6

/-- Method `time()` (Material.hh 22). -/
def time (m : Material KT) : ℝ := m.exing_.time + tbuff_

/-- Method `active()` (Material.hh 23). -/
def active (m : Material KT) : Bool := m.exing_.active

/-- Method `process(kkdata, tdir)` (Material.hh 58-71): the effect and the fit
state after the call. -/
def process (F : FitStateOps FS) (m : Material KT) (kkdata : FS) (tdir : TimeDir) :
    Material KT × FS :=
  let r : Material KT × FS :=
    if m.exing_.active then
      if tdir = TimeDir.forwards then
        let kkdata1 := F.append kkdata m.mateff_ tdir
        ({ m with cache_ := m.cache_ + F.wData kkdata1 }, kkdata1)
      else
        let m1 := { m with cache_ := m.cache_ + F.wData kkdata }
        (m1, F.append kkdata m1.mateff_ tdir)
    else (m, kkdata)
  ({ r.1 with state := r.1.state.setProcessed tdir }, r.2)

/-- Method `updateCache()` (Material.hh 86-111). -/
noncomputable def updateCache (K : KTrajOps KT) (m : Material KT) : Material KT :=
  let m0 := { m with mateff_ := Parameters.empty }
  if m0.exing_.active then
    let dm := m0.exing_.materialEffects K m0.ref_ TimeDir.forwards (fun _ => 0.0) (fun _ => 0.0)
    let dmom := dm.1
    let momvar := dm.2
    let dPdM := K.dPardM m0.ref_ m0.time
    let mommag := K.momentum m0.ref_ m0.time
    let step (mateff : Parameters) (mdir : MomBasis.Direction) : Parameters :=
      let dir := K.direction m0.ref_ m0.time mdir
      let pder : DVec := fun i => mommag * (dPdM i).Dot ⟨dir.X, dir.Y, dir.Z⟩
      let MVar := momvar mdir * m0.vscale_
      { parameters := fun i => mateff.parameters i + pder i * dmom mdir,
        covariance := fun i j => mateff.covariance i j + pder i * MVar * pder j }
    { m0 with mateff_ :=
        [MomBasis.Direction.momdir_, MomBasis.Direction.perpdir_,
          MomBasis.Direction.phidir_].foldl step m0.mateff_ }
  else m0

/-- Method `update(ref)` (Material.hh 73-79). -/
noncomputable def update (E : MaterialEnv PK KT) (m : Material KT) (ref : PK) : Material KT :=
  let m1 := { m with exing_ := E.xingUpdate m.exing_ ref }
  let m2 := { m1 with cache_ := Weights.empty }
  let m3 := { m2 with ref_ := E.nearestPiece ref m2.exing_.time }
  let m4 := updateCache E.ktraj m3
  { m4 with state := E.updateState m4.state }

/-- Method `update(ref, miconfig)` (Material.hh 81-84), `varianceScale` being
`miconfig.varianceScale()`. -/
noncomputable def updateWithConfig (E : MaterialEnv PK KT) (m : Material KT) (ref : PK)
    (varianceScale : ℝ) : Material KT :=
  update E { m with vscale_ := varianceScale } ref

end Material

end KinKal

namespace KinKal

/-! ## 3a. Time range -/

namespace TRange

/-- The default constructor `TRange()` (TRange.hh 8): the pair (1, −1), "to
have infinite range". -/
def default : TRange := ⟨1.0, -1.0⟩

/-- Method `inRange(t)` (TRange.hh 10-11). -/
noncomputable def inRange (r : TRange) (t : ℝ) : Bool :=
  decide (r.low > r.high) || (decide (t ≥ r.low) && decide (t < r.high))

/-- Method `overlaps(other)` (TRange.hh 16-17). -/
noncomputable def overlaps (r other : TRange) : Bool :=
  decide (r.high > other.low) || decide (r.low < other.high)

/-- Method `contains(other)` (TRange.hh 18-19). -/
noncomputable def contains (r other : TRange) : Bool :=
  decide (r.low < other.low) && decide (r.high > other.high)

/-- Method `forceRange(time)` (TRange.hh 21): the value left in `time`. -/
noncomputable def forceRange (r : TRange) (time : ℝ) : ℝ :=
  min (max time r.low) r.high

/-- Method `atLimit(time)` (TRange.hh 23). -/
noncomputable def atLimit (r : TRange) (time : ℝ) : Bool :=
  decide (time ≥ r.high) || decide (time ≤ r.low)

end TRange

/-! ## 3b. Appending a material effect to the fit trajectory -/

/-- The part of the trajectory type `KTRAJ` that `Material::append` calls:
the accessors `range()` and `params()`, and the assignments to them
(`setRange`, `params() = ...`), each assignment changing what its accessor
returns and nothing else.  A time range `TimeRange(begin, end)` is the pair
`TRange` with `begin = low` and `end = high`. -/
structure KTrajRangeOps (KT : Type) where
  range : KT → TRange
  params : KT → Parameters
  setRange : KT → TRange → KT
  setParams : KT → Parameters → KT
  range_setRange : ∀ k r, range (setRange k r) = r
  params_setRange : ∀ k r, params (setRange k r) = params k
  range_setParams : ∀ k p, range (setParams k p) = range k
  params_setParams : ∀ k p, params (setParams k p) = p

/-- Modelled from the spec: the absent class `ParticleTrajectory`, "an ordered,
contiguous sequence of pieces", here never empty: the first piece and the
ones after it. -/
structure ParticleTrajectory (KT : Type) where
  first : KT
  later : List KT

namespace ParticleTrajectory

variable {KT : Type}

/-- Accessor `pieces()`. -/
def pieces (fit : ParticleTrajectory KT) : List KT := fit.first :: fit.later

/-- Accessor `front()`. -/
def front (fit : ParticleTrajectory KT) : KT := fit.first

/-- Accessor `back()`. -/
def back (fit : ParticleTrajectory KT) : KT :=
  (fit.first :: fit.later).getLast (List.cons_ne_nil _ _)

/-- The trajectory after an assignment to `front()`. -/
def setFront (fit : ParticleTrajectory KT) (k : KT) : ParticleTrajectory KT :=
  { fit with first := k }

/-- Modelled from the spec: "`range()` returns `[first.begin, last.end)`". -/
def range (T : KTrajRangeOps KT) (fit : ParticleTrajectory KT) : TRange :=
  ⟨(T.range fit.front).low, (T.range fit.back).high⟩

end ParticleTrajectory

namespace Material

variable {KT : Type}

/-- The first part of `append(fit)` (Material.hh 113-131), for an active
crossing: the trajectory as it stands when `fit.append` is called and the
piece handed to it; `none` for an inactive crossing, where nothing is done.
`toParameters` is the conversion `Parameters(cache_)` of the absent class
`Parameters`. -/
noncomputable def appendCall (T : KTrajRangeOps KT) (toParameters : Weights → Parameters)
    (m : Material KT) (fit : ParticleTrajectory KT) : Option (ParticleTrajectory KT × KT) :=
  if m.exing_.active then
    let time := m.time
    let newpiece0 := m.ref_
    let newpiece1 := T.setParams newpiece0 (toParameters m.cache_)
    let newpiece2 := T.setRange newpiece1 ⟨time, max (time + tbuff_) (fit.range T).high⟩
    if time < (T.range fit.back).low then
      if fit.pieces.length = 1 then
        some (fit.setFront (T.setRange fit.front
          ⟨(T.range newpiece2).low - tbuff_, (fit.range T).high⟩), newpiece2)
      else
        some (fit, T.setRange newpiece2 ⟨(T.range fit.back).low + tbuff_, (fit.range T).high⟩)
    else some (fit, newpiece2)
  else none

/-- Method `append(fit)` (Material.hh 113-134), `pkAppend` being the absent
`ParticleTrajectory::append`. -/
noncomputable def append (T : KTrajRangeOps KT) (toParameters : Weights → Parameters)
    (pkAppend : ParticleTrajectory KT → KT → ParticleTrajectory KT)
    (m : Material KT) (fit : ParticleTrajectory KT) : ParticleTrajectory KT :=
  match appendCall T toParameters m fit with
  | some (fit1, newpiece) => pkAppend fit1 newpiece
  | none => fit

end Material

/-! ## 3c. Measurement effect -/

/-- The part of the absent class `Hit` that `Measurement` calls, for a hit of
type `H`: `active()` and `weight()`. -/
structure HitOps (H : Type) where
  active : H → Bool
  weight : H → Weights

/-- The state of a `Measurement` effect (Measurement.hh 37): its hit. -/
structure Measurement (H : Type) where
  hit_ : H

namespace Measurement

variable {H FS : Type}

/-- Method `active()` (Measurement.hh 22). -/
def active (O : HitOps H) (m : Measurement H) : Bool := O.active m.hit_

/-- Method `weight()` (Measurement.hh 35). -/
def weight (O : HitOps H) (m : Measurement H) : Weights := O.weight m.hit_

/-- Method `process(kkdata, tdir)` (Measurement.hh 42-45): the fit state after
the call, `appendWeights` being the overload `FitState::append(Weights)`.  The
effect itself is not changed. -/
def process (O : HitOps H) (appendWeights : FS → Weights → FS) (m : Measurement H) (kkdata : FS)
    (_tdir : TimeDir) : FS :=
  if m.active O then appendWeights kkdata (m.weight O) else kkdata

end Measurement

/-! ## 3d. Scintillator hit -/

/-- Modelled from the spec: the absent class `Line`, "anchor point `p0`,
direction `d̂` (unit), speed `v`, reference time `t0`, half-length `L/2`". -/
structure Line where
  p0 : Vec3
  dir : Vec3
  speed : ℝ
  t0 : ℝ
  halfLength : ℝ

/-- The hint `CAHint(particleToca, sensorToca)` given to the closest-approach
computation. -/
structure CAHint where
  particleToca : ℝ
  sensorToca : ℝ

/-- What `ScintHit::update` reads from a closest-approach object
`ClosestApproach<KTRAJ,Line>`: `usable()`, `tpData()`, `dirDot()`, `deltaT()`
and `dTdP()`, the data `ClosestApproachData` being of type `CAD`. -/
structure ClosestApproach (CAD : Type) where
  usable : Bool
  tpData : CAD
  dirDot : ℝ
  deltaT : ℝ
  dTdP : DVec

/-- Modelled from the spec: the absent class `Residual`, "`(value, variance,
dRdP)` where `dRdP` is a 6-vector". -/
@[ext] structure Residual where
  value : ℝ
  variance : ℝ
  dRdP : DVec

/-- The state of a `ScintHit` (ScintHit.hh 38-45), with the state `base` of
its base classes. -/
structure ScintHit (CAD HB : Type) where
  saxis_ : Line
  tvar_ : ℝ
  wvar_ : ℝ
  active_ : Bool
  tpdata_ : CAD
  rresid_ : Residual
  precision_ : ℝ
  base : HB

/-- What `ScintHit::update` needs from outside: the closest-approach
computation `CA(ktrajptr, saxis, hint, precision)` and the base class's
`HIT::update(ktrajptr)`. -/
structure ScintHitEnv (CAD HB KT : Type) where
  closestApproach : KT → Line → CAHint → ℝ → ClosestApproach CAD
  hitUpdate : HB → KT → HB

namespace ScintHit

variable {CAD HB KT : Type}

/-- Method `update(ktrajptr)` (ScintHit.hh 66-83): the hit after the call and
the outcome of the call, the `runtime_error` being thrown before any member is
assigned. -/
noncomputable def update (E : ScintHitEnv CAD HB KT) (h : ScintHit CAD HB) (ktrajptr : KT) :
    ScintHit CAD HB × Except Exn Unit :=
  let tphint : CAHint := ⟨h.saxis_.t0, h.saxis_.t0⟩
  let tpoca := E.closestApproach ktrajptr h.saxis_ tphint h.precision_
  if tpoca.usable then
    let dd2 := tpoca.dirDot * tpoca.dirDot
    let totvar := h.tvar_ + h.wvar_ * dd2 / (h.saxis_.speed * h.saxis_.speed * (1.0 - dd2))
    ({ h with
        tpdata_ := tpoca.tpData,
        rresid_ := ⟨tpoca.deltaT, totvar, fun i => -tpoca.dTdP i⟩,
        base := E.hitUpdate h.base ktrajptr }, Except.ok ())
  else
    (h, Except.error (Exn.runtime_error "PCA failure"))

end ScintHit

end KinKal

namespace KinKal

/-! ## 3e. Two-line closest approach -/

namespace Vec3

/-- Sum of two vectors, `operator+`. -/
def add (a b : Vec3) : Vec3 := ⟨a.X + b.X, a.Y + b.Y, a.Z + b.Z⟩

/-- Difference of two vectors, `operator-`. -/
def sub (a b : Vec3) : Vec3 := ⟨a.X - b.X, a.Y - b.Y, a.Z - b.Z⟩

/-- Squared length, `Mag2`. -/
def Mag2 (a : Vec3) : ℝ := a.X * a.X + a.Y * a.Y + a.Z * a.Z

/-- Squared transverse length, `Perp2`. -/
def Perp2 (a : Vec3) : ℝ := a.X * a.X + a.Y * a.Y

end Vec3

/-- The members of a `POCAUtil` (POCAUtil.cc 23-31 and the two points of
closest approach). -/
structure POCAUtil where
  _p1 : Vec3
  _t1 : Vec3
  _p2 : Vec3
  _t2 : Vec3
  _s1 : ℝ
  _s2 : ℝ
  _dca : ℝ
  _dca2d : ℝ
  _closeToParallel : Bool
  _pca1 : Vec3
  _pca2 : Vec3

namespace POCAUtil

/-- The constructor `POCAUtil(p1, t1, p2, t2, cut)` (POCAUtil.cc 22-61); `unit()`
divides a vector by its length and leaves the null vector as it is. -/
noncomputable def ofLines (p1 t1 p2 t2 : Vec3) (cut : ℝ) : POCAUtil :=
  let u1 := t1.Unit
  let u2 := t2.Unit
  let c := u1.Dot u2
  let sinsq := 1.0 - c * c
  if sinsq < cut then
    let diff := Vec3.sub p1 p2
    { _p1 := p1, _t1 := u1, _p2 := p2, _t2 := u2, _s1 := 0.0, _s2 := 0.0,
      _closeToParallel := true, _pca1 := p1, _pca2 := p2,
      _dca := Real.sqrt diff.Mag2, _dca2d := Real.sqrt diff.Perp2 }
  else
    let delta := Vec3.sub p1 p2
    let dDotT1 := delta.Dot u1
    let dDotT2 := delta.Dot u2
    let s1 := (dDotT2 * c - dDotT1) / sinsq
    let s2 := -(dDotT1 * c - dDotT2) / sinsq
    let pca1 := Vec3.add p1 (Vec3.scale s1 u1)
    let pca2 := Vec3.add p2 (Vec3.scale s2 u2)
    let diff := Vec3.sub pca1 pca2
    { _p1 := p1, _t1 := u1, _p2 := p2, _t2 := u2, _s1 := s1, _s2 := s2,
      _closeToParallel := false, _pca1 := pca1, _pca2 := pca2,
      _dca := Real.sqrt diff.Mag2, _dca2d := Real.sqrt diff.Perp2 }

end POCAUtil

/-! ## 3f. The central helix -/

/-- The enumeration `CentralHelix::ParamIndex` (CentralHelix.hh 29), without the
count `npars_`. -/
inductive CentralHelix.ParamIndex
  | d0_ | phi0_ | omega_ | z0_ | tanDip_ | t0_
  deriving DecidableEq, Repr

/-- The members of a `CentralHelix` (CentralHelix.hh 147-153): `pars_` is the
parameter vector with its covariance, both over `ParamIndex`; the time range is
its two ends and a `Rotation3D` is its 3×3 matrix. -/
structure CentralHelix where
  trange_ : TRange
  pars_ : CentralHelix.ParamIndex → ℝ
  pcov_ : CentralHelix.ParamIndex → CentralHelix.ParamIndex → ℝ
  mass_ : ℝ
  charge_ : ℤ
  mbar_ : ℝ
  bnom_ : Vec3
  l2g_ : Fin 3 → Fin 3 → ℝ
  g2l_ : Fin 3 → Fin 3 → ℝ

namespace CentralHelix

/-- Accessor `paramVal(index)` (CentralHelix.hh 82). -/
def paramVal (h : CentralHelix) (index : ParamIndex) : ℝ := h.pars_ index

/-- Accessor `d0()` (CentralHelix.hh 86). -/
def d0 (h : CentralHelix) : ℝ := h.paramVal .d0_

/-- Accessor `phi0()` (CentralHelix.hh 87). -/
def phi0 (h : CentralHelix) : ℝ := h.paramVal .phi0_

/-- Accessor `omega()` (CentralHelix.hh 88). -/
def omega (h : CentralHelix) : ℝ := h.paramVal .omega_

/-- Accessor `z0()` (CentralHelix.hh 89). -/
def z0 (h : CentralHelix) : ℝ := h.paramVal .z0_

/-- Accessor `tanDip()` (CentralHelix.hh 90). -/
def tanDip (h : CentralHelix) : ℝ := h.paramVal .tanDip_

/-- Accessor `t0()` (CentralHelix.hh 91). -/
def t0 (h : CentralHelix) : ℝ := h.paramVal .t0_

/-- Accessor `charge()` (CentralHelix.hh 79). -/
def charge (h : CentralHelix) : ℤ := h.charge_

/-- Accessor `mass()` (CentralHelix.hh 78). -/
def mass (h : CentralHelix) : ℝ := h.mass_

/-- Method `cosDip()` (CentralHelix.hh 103). -/
noncomputable def cosDip (h : CentralHelix) : ℝ := 1.0 / Real.sqrt (1.0 + h.tanDip * h.tanDip)

/-- Method `sinDip()` (CentralHelix.hh 104). -/
noncomputable def sinDip (h : CentralHelix) : ℝ := h.tanDip * h.cosDip

/-- Method `pbar()` (CentralHelix.hh 101) as a real number: the value of the
double for `omega ≠ 0`.  For `omega = 0` the double is infinite, which
`Doubles.pbar` gives. -/
noncomputable def pbar (h : CentralHelix) : ℝ := 1.0 / (h.omega * h.cosDip)

/-- Method `ebar()` (CentralHelix.hh 102). -/
noncomputable def ebar (h : CentralHelix) : ℝ := Real.sqrt (h.pbar * h.pbar + h.mbar_ * h.mbar_)

/-- Method `mbar()` (CentralHelix.hh 105). -/
def mbar (h : CentralHelix) : ℝ := h.mbar_

/-- Method `Q()` (CentralHelix.hh 106). -/
noncomputable def Q (h : CentralHelix) : ℝ := h.mass_ / h.mbar_

/-- Method `beta()` (CentralHelix.hh 107). -/
noncomputable def beta (h : CentralHelix) : ℝ := |h.pbar / h.ebar|

/-- Method `momentum(time)` (CentralHelix.hh 63), which does not read the time. -/
noncomputable def momentum (h : CentralHelix) : ℝ := |h.mass_ * h.pbar / h.mbar_|

/-- Method `energy(time)` (CentralHelix.hh 65), which does not read the time. -/
noncomputable def energy (h : CentralHelix) : ℝ := |h.mass_ * h.ebar / h.mbar_|

/-- Method `rc()` (CentralHelix.hh 113). -/
noncomputable def rc (h : CentralHelix) : ℝ := -1.0 / h.omega - h.d0

/-- Method `bendRadius()` (CentralHelix.hh 114). -/
noncomputable def bendRadius (h : CentralHelix) : ℝ := |1.0 / h.omega|

/-- Method `center()` (CentralHelix.hh 115). -/
noncomputable def center (h : CentralHelix) : Vec3 :=
  ⟨h.rc * Real.sin h.phi0, -h.rc * Real.cos h.phi0, 0.0⟩

/-- Method `invertCT()` (CentralHelix.hh 130-138): the seven assignments in the
order of the source. -/
noncomputable def invertCT (h : CentralHelix) : CentralHelix :=
  let p1 := Function.update h.pars_ .omega_ (h.pars_ .omega_ * (-1.0))
  let p2 := Function.update p1 .tanDip_ (p1 .tanDip_ * (-1.0))
  let p3 := Function.update p2 .d0_ (p2 .d0_ * (-1.0))
  let p4 := Function.update p3 .phi0_ (p3 .phi0_ + M_PI)
  let p5 := Function.update p4 .t0_ (p4 .t0_ * (-1.0))
  { h with mbar_ := h.mbar_ * (-1.0), charge_ := h.charge_ * (-1), pars_ := p5 }

end CentralHelix

end KinKal

namespace KinKal

/-! ## 3g. The line built by the closest-approach test -/

/-- The direction of the offset, `docadir = cos(eta)*perp1 + sin(eta)*perp2`
(ClosestApproachTest.hh 130). -/
noncomputable def docadir (eta : ℝ) (perp1 perp2 : Vec3) : Vec3 :=
  Vec3.add (Vec3.scale (Real.cos eta) perp1) (Vec3.scale (Real.sin eta) perp2)

/-- The direction of the line, `pdir = sin(eta)*perp1 - cos(eta)*perp2`
(ClosestApproachTest.hh 131). -/
noncomputable def pdir (eta : ℝ) (perp1 perp2 : Vec3) : Vec3 :=
  Vec3.sub (Vec3.scale (Real.sin eta) perp1) (Vec3.scale (Real.cos eta) perp2)

/-- The point the line goes through, `ppos = pos + gap*docadir`
(ClosestApproachTest.hh 135). -/
def ppos (pos : Vec3) (gap : ℝ) (docadir : Vec3) : Vec3 :=
  Vec3.add pos (Vec3.scale gap docadir)

end KinKal

namespace KinKal

/-! ## 3h. The central helix in doubles that need not be finite -/

/-- A C double: a finite value, idealised as a real number (a real zero standing
for `+0.0`), one of the two infinities, or the not-a-number. -/
inductive Dbl
  | fin (x : ℝ)
  | pinf
  | ninf
  | nan

namespace Dbl

/-- The product of two doubles (IEEE 754): zero times an infinity is not a
number. -/
noncomputable def mul : Dbl → Dbl → Dbl
  | fin a, fin b => fin (a * b)
  | fin a, pinf => if a = 0 then nan else if 0 < a then pinf else ninf
  | fin a, ninf => if a = 0 then nan else if 0 < a then ninf else pinf
  | pinf, fin b => if b = 0 then nan else if 0 < b then pinf else ninf
  | ninf, fin b => if b = 0 then nan else if 0 < b then ninf else pinf
  | pinf, pinf => pinf
  | ninf, ninf => pinf
  | pinf, ninf => ninf
  | ninf, pinf => ninf
  | nan, _ => nan
  | _, nan => nan

/-- The sum of two doubles (IEEE 754): the sum of opposite infinities is not a
number. -/
noncomputable def add : Dbl → Dbl → Dbl
  | fin a, fin b => fin (a + b)
  | fin _, pinf => pinf
  | pinf, fin _ => pinf
  | pinf, pinf => pinf
  | fin _, ninf => ninf
  | ninf, fin _ => ninf
  | ninf, ninf => ninf
  | pinf, ninf => nan
  | ninf, pinf => nan
  | nan, _ => nan
  | _, nan => nan

/-- The quotient of two doubles (IEEE 754): a nonzero value divided by `+0.0` is
the infinity of its sign, and `0/0` and the quotient of two infinities are not
numbers. -/
noncomputable def div : Dbl → Dbl → Dbl
  | fin a, fin b =>
    if b = 0 then (if a = 0 then nan else if 0 < a then pinf else ninf) else fin (a / b)
  | fin _, pinf => fin 0
  | fin _, ninf => fin 0
  | pinf, fin b => if 0 ≤ b then pinf else ninf
  | ninf, fin b => if 0 ≤ b then ninf else pinf
  | pinf, pinf => nan
  | pinf, ninf => nan
  | ninf, pinf => nan
  | ninf, ninf => nan
  | nan, _ => nan
  | _, nan => nan

/-- C `sqrt` on doubles. -/
noncomputable def sqrt : Dbl → Dbl
  | fin a => if a < 0 then nan else fin (Real.sqrt a)
  | pinf => pinf
  | ninf => nan
  | nan => nan

/-- C `fabs` on doubles. -/
noncomputable def fabs : Dbl → Dbl
  | fin a => fin |a|
  | pinf => pinf
  | ninf => pinf
  | nan => nan

/-- The comparison `x <= y` of two doubles: false when either is not a number. -/
def le : Dbl → Dbl → Prop
  | fin a, fin b => a ≤ b
  | fin _, pinf => True
  | ninf, fin _ => True
  | ninf, ninf => True
  | ninf, pinf => True
  | pinf, pinf => True
  | _, _ => False

end Dbl

namespace CentralHelix

namespace Doubles

/-- Method `cosDip()` (CentralHelix.hh 103) in doubles. -/
noncomputable def cosDip (h : CentralHelix) : Dbl :=
  Dbl.div (Dbl.fin 1.0)
    (Dbl.sqrt (Dbl.add (Dbl.fin 1.0) (Dbl.mul (Dbl.fin h.tanDip) (Dbl.fin h.tanDip))))

/-- Method `pbar()` (CentralHelix.hh 101) in doubles. -/
noncomputable def pbar (h : CentralHelix) : Dbl :=
  Dbl.div (Dbl.fin 1.0) (Dbl.mul (Dbl.fin h.omega) (cosDip h))

/-- Method `ebar()` (CentralHelix.hh 102) in doubles. -/
noncomputable def ebar (h : CentralHelix) : Dbl :=
  Dbl.sqrt (Dbl.add (Dbl.mul (pbar h) (pbar h)) (Dbl.mul (Dbl.fin h.mbar_) (Dbl.fin h.mbar_)))

/-- Method `beta()` (CentralHelix.hh 107) in doubles. -/
noncomputable def beta (h : CentralHelix) : Dbl := Dbl.fabs (Dbl.div (pbar h) (ebar h))

/-- Method `momentum(time)` (CentralHelix.hh 63) in doubles. -/
noncomputable def momentum (h : CentralHelix) : Dbl :=
  Dbl.fabs (Dbl.div (Dbl.mul (Dbl.fin h.mass_) (pbar h)) (Dbl.fin h.mbar_))

/-- Method `energy(time)` (CentralHelix.hh 65) in doubles. -/
noncomputable def energy (h : CentralHelix) : Dbl :=
  Dbl.fabs (Dbl.div (Dbl.mul (Dbl.fin h.mass_) (ebar h)) (Dbl.fin h.mbar_))

end Doubles

end CentralHelix

end KinKal

/-! ## 4. Definitions used to state the properties -/

namespace KinKal
namespace LHelix
open paramIndex

/-- The bending sign of a helix: the sign of the reduced mass. -/
noncomputable def bendSign (h : LHelix) : ℝ := if 0 ≤ h.mbar_ then 1 else -1

/-- The helix with its parameter vector moved by `ε · v`; mass, charge,
reduced mass, covariance and range are kept. -/
def shift (h : LHelix) (v : DVec) (ε : ℝ) : LHelix :=
  { h with pvec := fun i => h.pvec i + ε * v i }

/-- First-order change of `omega()` when the parameters move along `v`. -/
noncomputable def dOmega (h : LHelix) (v : DVec) : ℝ :=
  -(h.omega * (h.rad * v rad_ + h.lam * v lam_) / (h.pbar * h.pbar))

/-- The curve `f` of 3-vectors has derivative `d` at `ε = 0`, component by
component.  With `f ε` a quantity of the helix whose parameters are moved by
`ε · v`, `d` is the Jacobian of that quantity with respect to the six
parameters applied to `v`. -/
def HasParamDeriv (f : ℝ → Vec3) (d : Vec3) : Prop :=
  HasDerivAt (fun ε => (f ε).X) d.X 0 ∧ HasDerivAt (fun ε => (f ε).Y) d.Y 0 ∧
    HasDerivAt (fun ε => (f ε).Z) d.Z 0

/-- The column `momDeriv` writes for `theta1`. -/
noncomputable def momDerivTheta1 (h : LHelix) (time : ℝ) : DVec := fun i => match i with
  | rad_ => h.lam
  | lam_ => -h.rad
  | t0_ => -(time - h.t0) * h.rad / h.lam
  | phi0_ => -h.omega * (time - h.t0) * h.rad / h.lam
  | cx_ => -h.lam * Real.sin (h.phi time)
  | cy_ => h.lam * Real.cos (h.phi time)

/-- The column `momDeriv` writes for `theta2`. -/
noncomputable def momDerivTheta2 (h : LHelix) (time : ℝ) : DVec := fun i => match i with
  | rad_ => 0
  | lam_ => 0
  | t0_ => 0
  | phi0_ => copysign 1 h.omega * h.pbar / h.rad
  | cx_ => -copysign 1 h.omega * h.pbar * Real.cos (h.phi time)
  | cy_ => -copysign 1 h.omega * h.pbar * Real.sin (h.phi time)

/-- The column `momDeriv` writes for `momdir`. -/
noncomputable def momDerivMomdir (h : LHelix) (time : ℝ) : DVec := fun i => match i with
  | rad_ => h.rad
  | lam_ => h.lam
  | t0_ => (time - h.t0) * (1 - h.beta * h.beta)
  | phi0_ => h.omega * (time - h.t0)
  | cx_ => -h.rad * Real.sin (h.phi time)
  | cy_ => h.rad * Real.cos (h.phi time)

/-- The body of `position(t)` with the angular frequency read from `om`
instead of `omega()`; `positionWith omega` is `position`. -/
noncomputable def positionWith (om : LHelix → ℝ) (h : LHelix) (t : ℝ) : Vec3 :=
  let df := om h * (t - h.t0)
  let phival := df + h.phi0
  ⟨h.cx + h.rad * Real.sin phival, h.cy - h.rad * Real.cos phival, df * h.lam⟩

/-- A helix with `rad = 3`, `lam = 4` and all other parameters zero, of mass 1
and charge -1 in a unit field, built by the parametric constructor. -/
noncomputable def helix345 : LHelix :=
  ofParameters (fun i => match i with
    | rad_ => 3
    | lam_ => 4
    | _ => 0) (fun _ _ => 0) 1 (-1) 1 ⟨1, -1⟩

/-- The same parameters for a neutral particle: charge 0. -/
noncomputable def neutral345 : LHelix :=
  ofParameters (fun i => match i with
    | rad_ => 3
    | lam_ => 4
    | _ => 0) (fun _ _ => 0) 1 0 1 ⟨1, -1⟩

end LHelix

namespace Material

/-- A material whose three functions are constant 1. -/
def unitMaterial : DetMaterial := ⟨fun _ _ _ => 1, fun _ _ _ => 1, fun _ _ _ => 1⟩

/-- A fit state that is a `Weights`: `append` adds the parameter vector of the
effect to the weight vector, with the sign of the time direction. -/
def sampleFitState : FitStateOps Weights where
  append s p tdir :=
    ⟨fun i => if tdir = TimeDir.forwards then s.weightVec i + p.parameters i
      else s.weightVec i - p.parameters i, s.weightMat⟩
  wData s := s

/-- A trajectory interface over the one-point type: unit momentum and mass. -/
def sampleEnv : MaterialEnv Unit Unit where
  ktraj := ⟨fun _ _ => 1, fun _ => 1, fun _ _ _ => ⟨1, 0, 0⟩, fun _ _ _ => ⟨1, 0, 0⟩⟩
  nearestPiece _ _ := ()
  xingUpdate x _ := x
  updateState _ := ProcessedState.unprocessed

/-- An active material effect: one crossing of `unitMaterial`, path length 1. -/
def sampleMaterial : Material Unit where
  exing_ := ⟨[⟨unitMaterial, 1⟩], 0⟩
  ref_ := ()
  mateff_ := ⟨fun _ => 1, fun _ _ => 0⟩
  cache_ := Weights.empty
  vscale_ := 1
  state := ProcessedState.unprocessed

end Material
end KinKal

namespace KinKal

namespace ScintHit

/-- A closest-approach computation that always succeeds with the same answer:
data 2, direction cosine 1/2, time difference 3, unit derivatives. -/
noncomputable def sampleScintEnv : ScintHitEnv ℝ Unit Unit where
  closestApproach _ _ _ _ := ⟨true, 2, 1 / 2, 3, fun _ => 1⟩
  hitUpdate _ _ := ()

/-- A scintillator hit with time variance 1, width variance 3, sensor speed 2
and a null residual. -/
def sampleHit : ScintHit ℝ Unit where
  saxis_ := ⟨⟨0, 0, 0⟩, ⟨0, 0, 1⟩, 2, 0, 1⟩
  tvar_ := 1
  wvar_ := 3
  active_ := true
  tpdata_ := 0
  rresid_ := ⟨0, 0, fun _ => 0⟩
  precision_ := 1
  base := ()

end ScintHit

end KinKal

namespace KinKal

namespace ElementXing

/-- The factor `dmFdE` of `materialEffects` for momentum `p`, mass `m` and a
time direction: `sqrt(p² + m²)/p²`, negated when the direction is backwards. -/
noncomputable def dmFdE (p m : ℝ) (tdir : TimeDir) : ℝ :=
  if tdir = TimeDir.backwards then -(Real.sqrt (p * p + m * m) / (p * p))
  else Real.sqrt (p * p + m * m) / (p * p)

/-- The sum of `g` over the material crossings of an element crossing. -/
def sumOver (x : ElementXing) (g : MaterialXing → ℝ) : ℝ := (x.mxings_.map g).sum

/-- An element crossing at time 0 with two crossings of `unitMaterial`, of
path lengths 1 and 2. -/
def sampleXing : ElementXing := ⟨[⟨⟨fun _ _ _ => 1, fun _ _ _ => 1, fun _ _ _ => 1⟩, 1⟩,
  ⟨⟨fun _ _ _ => 1, fun _ _ _ => 1, fun _ _ _ => 1⟩, 2⟩], 0⟩

/-- A trajectory interface over the one-point type: momentum 3 and mass 4. -/
def sampleTraj : KTrajOps Unit :=
  ⟨fun _ _ => 3, fun _ => 4, fun _ _ _ => ⟨1, 0, 0⟩, fun _ _ _ => ⟨1, 0, 0⟩⟩

end ElementXing

end KinKal

namespace KinKal

namespace Material

variable {KT : Type}

/-- The vector `v_i = |p|·dPdM·direction(i)` of `updateCache` for the basis
direction `mdir`, taken at the effect time. -/
def momVector (K : KTrajOps KT) (m : Material KT) (mdir : MomBasis.Direction) : DVec :=
  fun i => K.momentum m.ref_ m.time * (K.dPardM m.ref_ m.time i).Dot (K.direction m.ref_ m.time mdir)

/-- The same effect with another annealing scale `vscale_`. -/
def withScale (m : Material KT) (vscale : ℝ) : Material KT := { m with vscale_ := vscale }

end Material

end KinKal

namespace KinKal

namespace Material

/-- A trajectory piece that is nothing but its parameters and its range. -/
structure SamplePiece where
  params : Parameters
  range : TRange

/-- The accessors and assignments of `SamplePiece`. -/
def sampleRangeOps : KTrajRangeOps SamplePiece where
  range k := k.range
  params k := k.params
  setRange k r := { k with range := r }
  setParams k p := { k with params := p }
  range_setRange _ _ := rfl
  params_setRange _ _ := rfl
  range_setParams _ _ := rfl
  params_setParams _ _ := rfl

/-- A conversion from weights to parameters that copies the vector and the matrix. -/
def sampleToParameters (w : Weights) : Parameters := ⟨w.weightVec, w.weightMat⟩

/-- An active material effect over `SamplePiece` whose crossing is at time 1,
so that the effect time is `1 + tbuff_`. -/
def pieceMaterial : Material SamplePiece where
  exing_ := ⟨[⟨unitMaterial, 1⟩], 1⟩
  ref_ := ⟨Parameters.empty, ⟨0, 10⟩⟩
  mateff_ := Parameters.empty
  cache_ := Weights.empty
  vscale_ := 1
  state := ProcessedState.unprocessed

/-- A one-piece trajectory over the range (0, 10): the effect time is later
than the begin of its back piece. -/
def fitEarly : ParticleTrajectory SamplePiece := ⟨⟨Parameters.empty, ⟨0, 10⟩⟩, []⟩

/-- A one-piece trajectory whose piece begins exactly at the effect time of
`pieceMaterial`. -/
def fitEqual : ParticleTrajectory SamplePiece :=
  ⟨⟨Parameters.empty, ⟨1 + tbuff_, 10⟩⟩, []⟩

/-- A one-piece trajectory over the range (5, 10): the effect time is earlier
than the begin of its back piece. -/
def fitLate : ParticleTrajectory SamplePiece := ⟨⟨Parameters.empty, ⟨5, 10⟩⟩, []⟩

end Material

end KinKal

namespace KinKal

namespace CentralHelix

/-- A central helix with `d0 = 1`, `phi0 = 0`, `omega = 2`, `z0 = 0`,
`tanDip = 1` and `t0 = 3`, of mass 1, charge -1 and reduced mass 1. -/
def sampleHelix : CentralHelix :=
  { trange_ := ⟨1, -1⟩
    pars_ := fun i => match i with
      | .d0_ => 1
      | .phi0_ => 0
      | .omega_ => 2
      | .z0_ => 0
      | .tanDip_ => 1
      | .t0_ => 3
    pcov_ := fun _ _ => 0
    mass_ := 1
    charge_ := -1
    mbar_ := 1
    bnom_ := ⟨0, 0, 1⟩
    l2g_ := fun i j => if i = j then 1 else 0
    g2l_ := fun i j => if i = j then 1 else 0 }

end CentralHelix

end KinKal

namespace KinKal

/-- The six parameter indices, in the order of the enumeration. -/
def paramIndex.all : List paramIndex :=
  [paramIndex.rad_, paramIndex.lam_, paramIndex.cx_, paramIndex.cy_, paramIndex.phi0_,
    paramIndex.t0_]

/-- The scalar product of two parameter vectors. -/
def paramDot (x v : DVec) : ℝ := (paramIndex.all.map fun i => x i * v i).sum

/-- The quadratic form `xᵀ·C·x` of a 6×6 matrix. -/
def quadForm (C : DMat) (x : DVec) : ℝ :=
  (paramIndex.all.map fun i => (paramIndex.all.map fun j => x i * C i j * x j).sum).sum

namespace Material

/-- An inactive material effect over `SamplePiece`: its crossing, at time 1,
has no material; the effect and the cache it holds are not null. -/
def inactiveMaterial : Material SamplePiece where
  exing_ := ⟨[], 1⟩
  ref_ := ⟨Parameters.empty, ⟨0, 10⟩⟩
  mateff_ := ⟨fun _ => 1, fun _ _ => 1⟩
  cache_ := ⟨fun _ => 2, fun _ _ => 2⟩
  vscale_ := 1
  state := ProcessedState.unprocessed

/-- A trajectory interface over `SamplePiece`: unit momentum and mass. -/
def samplePieceTraj : KTrajOps SamplePiece :=
  ⟨fun _ _ => 1, fun _ => 1, fun _ _ _ => ⟨1, 0, 0⟩, fun _ _ _ => ⟨1, 0, 0⟩⟩

/-- An `append` of the piecewise trajectory that puts the piece at the end. -/
def samplePkAppend (fit : ParticleTrajectory SamplePiece) (k : SamplePiece) :
    ParticleTrajectory SamplePiece :=
  ⟨fit.first, fit.later ++ [k]⟩

end Material

namespace ScintHit

/-- A closest-approach computation that never gives a usable answer. -/
noncomputable def failingScintEnv : ScintHitEnv ℝ Unit Unit where
  closestApproach _ _ _ _ := ⟨false, 2, 1 / 2, 3, fun _ => 1⟩
  hitUpdate _ _ := ()

/-- The sample hit with other closest-approach data stored, 5 in place of 0. -/
def sampleHitOtherData : ScintHit ℝ Unit := { sampleHit with tpdata_ := 5 }

end ScintHit

end KinKal

namespace KinKal

namespace LHelix

open paramIndex

/-- The body of `momentum(tval)` (LHelix.cc 76-83) with the angular frequency
read from `om` instead of `omega()`; `momentumWith omega` is `momentum`. -/
noncomputable def momentumWith (om : LHelix → ℝ) (h : LHelix) (tval : ℝ) : Mom4 :=
  let phival := om h * (tval - h.t0) + h.phi0
  let factor := h.mass_ / h.mbar_
  ⟨factor * h.rad * Real.cos phival, factor * h.rad * Real.sin phival, factor * h.lam, h.mass_⟩

/-- The body of `direction(tval)` (LHelix.cc 91-95) with the angular frequency
read from `om`; `directionWith omega` is `direction`. -/
noncomputable def directionWith (om : LHelix → ℝ) (h : LHelix) (tval : ℝ) : Vec3 :=
  (momentumWith om h tval).Vect.Unit

/-- The body of `dirVector(dir, tval)` (LHelix.cc 97-119) with the angular
frequency read from `om`; `dirVectorWith omega` is `dirVector`. -/
noncomputable def dirVectorWith (om : LHelix → ℝ) (h : LHelix) (dir : trajdir) (tval : ℝ) :
    Except Exn Vec3 :=
  let phival := om h * (tval - h.t0) + h.phi0
  let norm := 1.0 / copysign h.pbar h.mbar_
  match dir with
  | trajdir.theta1 =>
    pure (Vec3.scale norm ⟨h.lam * Real.cos phival, h.lam * Real.sin phival, -h.rad⟩)
  | trajdir.theta2 =>
    pure ⟨-Real.sin phival, Real.cos phival, 0.0⟩
  | trajdir.momdir =>
    pure (directionWith om h tval)
  | trajdir.other _ =>
    throw (Exn.invalid_argument "Invalid direction")

/-- The body of `momDeriv(dir, time)` (LHelix.cc 121-159) with the angular
frequency read from `om`; `momDerivWith omega` is `momDeriv`. -/
noncomputable def momDerivWith (om : LHelix → ℝ) (h : LHelix) (dir : trajdir) (time : ℝ) :
    Except Exn DVec :=
  let bval := h.beta
  let omval := om h
  let pb := h.pbar
  let phival := omval * (time - h.t0) + h.phi0
  match dir with
  | trajdir.theta1 =>
    pure fun i => match i with
      | rad_ => h.lam
      | lam_ => -h.rad
      | t0_ => -(time - h.t0) * h.rad / h.lam
      | phi0_ => -omval * (time - h.t0) * h.rad / h.lam
      | cx_ => -h.lam * Real.sin phival
      | cy_ => h.lam * Real.cos phival
  | trajdir.theta2 =>
    pure fun i => match i with
      | rad_ => 0.0
      | lam_ => 0.0
      | t0_ => 0.0
      | phi0_ => copysign 1.0 omval * pb / h.rad
      | cx_ => -copysign 1.0 omval * pb * Real.cos phival
      | cy_ => -copysign 1.0 omval * pb * Real.sin phival
  | trajdir.momdir =>
    pure fun i => match i with
      | rad_ => h.rad
      | lam_ => h.lam
      | t0_ => (time - h.t0) * (1.0 - bval * bval)
      | phi0_ => omval * (time - h.t0)
      | cx_ => -h.rad * Real.sin phival
      | cy_ => h.rad * Real.cos phival
  | trajdir.other _ =>
    throw (Exn.invalid_argument "Invalid direction")

end LHelix

end KinKal

namespace KinKal

namespace CentralHelix

end CentralHelix

end KinKal

/-! ## 5. Facts about the helpers -/

namespace KinKal

theorem copysign_ne_zero {x : ℝ} (y : ℝ) (hx : x ≠ 0) : copysign x y ≠ 0 := by
  unfold copysign
  split_ifs <;> simp [hx]

theorem lit_one : (1.0 : ℝ) = 1 := by norm_num

theorem lit_zero : (0.0 : ℝ) = 0 := by norm_num

theorem c_pos : 0 < c_ := by unfold c_; norm_num

theorem Mom4.cos_Phi (m : Mom4) (h : m.Pt ≠ 0) : Real.cos m.Phi = m.Px / m.Pt := by
  have hz : (⟨m.Px, m.Py⟩ : ℂ) ≠ 0 := by
    intro h0
    apply h
    have h1 : m.Px = 0 := by simpa using congrArg Complex.re h0
    have h2 : m.Py = 0 := by simpa using congrArg Complex.im h0
    simp [Mom4.Pt, h1, h2]
  rw [Mom4.Phi, Complex.cos_arg hz]
  simp [Mom4.Pt, Complex.abs_apply, Complex.normSq_apply]

theorem Mom4.sin_Phi (m : Mom4) : Real.sin m.Phi = m.Py / m.Pt := by
  rw [Mom4.Phi, Complex.sin_arg]
  simp [Mom4.Pt, Complex.abs_apply, Complex.normSq_apply]

theorem Weights.empty_add (w : Weights) : Weights.empty + w = w := by
  change Weights.add Weights.empty w = w
  ext <;> simp [Weights.add, Weights.empty]

namespace LHelix
open paramIndex

/-- The angular frequency read by the kinematic constructor is not zero when
the transverse momentum, the charge and the field are not. -/
theorem kinematicHelix_facts (pos : Vec4) (mom : Mom4) (charge : ℤ) (bNom : ℝ) (range : TRange)
    (hpt : mom.Pt ≠ 0) (hpz : mom.Pz ≠ 0) (hq : charge ≠ 0) (hb : bNom ≠ 0) :
    let h := kinematicHelix pos mom charge bNom range
    h.omega ≠ 0 ∧ h.lam ≠ 0 ∧ h.dphi pos.T = pos.Z / h.lam ∧
      ∃ n : ℤ, h.phi pos.T = mom.Phi + n * (2 * Real.pi) := by
  intro h
  have hk : (1000.0 : ℝ) / ((charge : ℝ) * bNom * c_) ≠ 0 := by
    have hc := c_pos.ne'
    have hq' : (charge : ℝ) ≠ 0 := by exact_mod_cast hq
    apply div_ne_zero (by norm_num)
    exact mul_ne_zero (mul_ne_zero hq' hb) hc
  have hrad : h.rad = -mom.Pt * ((1000.0 : ℝ) / ((charge : ℝ) * bNom * c_)) := rfl
  have hlam : h.lam = -mom.Pz * ((1000.0 : ℝ) / ((charge : ℝ) * bNom * c_)) := rfl
  have hlam0 : h.lam ≠ 0 := by
    rw [hlam]; exact mul_ne_zero (neg_ne_zero.mpr hpz) hk
  have hrad0 : h.rad ≠ 0 := by
    rw [hrad]; exact mul_ne_zero (neg_ne_zero.mpr hpt) hk
  have hsq : 0 < h.rad * h.rad + h.lam * h.lam := by
    have := mul_self_pos.mpr hrad0
    have := mul_self_nonneg h.lam
    linarith
  have hom : h.omega ≠ 0 := by
    unfold omega
    exact div_ne_zero (copysign_ne_zero _ c_pos.ne') (Real.sqrt_pos.mpr hsq).ne'
  have ht0 : h.t0 = pos.T - pos.Z / (h.omega * h.lam) := rfl
  have hdphi : h.dphi pos.T = pos.Z / h.lam := by
    unfold dphi
    rw [ht0]
    field_simp
    ring
  have hphi0 : h.phi0 = mom.Phi - h.omega * (pos.T - h.t0)
      + 2 * M_PI * (rint ((pos.Z / h.lam - mom.Phi) / (2 * M_PI)) : ℝ) := rfl
  refine ⟨hom, hlam0, hdphi, rint ((pos.Z / h.lam - mom.Phi) / (2 * M_PI)), ?_⟩
  unfold phi
  rw [hphi0]
  unfold dphi M_PI
  ring

theorem bendSign_sq (h : LHelix) : h.bendSign * h.bendSign = 1 := by
  unfold bendSign; split_ifs <;> norm_num

theorem bendSign_cases (h : LHelix) : h.bendSign = 1 ∨ h.bendSign = -1 := by
  unfold bendSign; split_ifs <;> simp

theorem pbar_pos (h : LHelix) (hp : 0 < h.rad * h.rad + h.lam * h.lam) : 0 < h.pbar :=
  Real.sqrt_pos.mpr hp

theorem pbar_sq (h : LHelix) : h.pbar * h.pbar = h.rad * h.rad + h.lam * h.lam :=
  Real.mul_self_sqrt (add_nonneg (mul_self_nonneg _) (mul_self_nonneg _))

theorem copysign_pbar (h : LHelix) (hp : 0 < h.rad * h.rad + h.lam * h.lam) :
    copysign h.pbar h.mbar_ = h.bendSign * h.pbar := by
  have := (pbar_pos h hp).le
  unfold copysign bendSign
  split_ifs <;> simp [abs_of_nonneg this]

/-- The polar direction written without `copysign`. -/
theorem dirVector_theta1 (h : LHelix) (t : ℝ) (hp : 0 < h.rad * h.rad + h.lam * h.lam) :
    h.dirVector trajdir.theta1 t = Except.ok
      ⟨h.bendSign * h.lam * Real.cos (h.phi t) / h.pbar,
       h.bendSign * h.lam * Real.sin (h.phi t) / h.pbar,
       -(h.bendSign * h.rad) / h.pbar⟩ := by
  have hpb := (pbar_pos h hp).ne'
  have hn : 1 / (h.bendSign * h.pbar) = h.bendSign / h.pbar := by
    rcases bendSign_cases h with hs | hs <;> rw [hs] <;> field_simp
  show Except.ok (Vec3.scale (1.0 / copysign h.pbar h.mbar_)
    ⟨h.lam * Real.cos (h.phi t), h.lam * Real.sin (h.phi t), -h.rad⟩) = _
  simp only [Vec3.scale, copysign_pbar h hp, lit_one, hn]
  congr 1
  ext <;> simp only [] <;> ring

/-- The momentum direction written without `Unit`, for a helix whose
momentum is not null. -/
theorem direction_eq (h : LHelix) (t : ℝ) (hm : 0 < h.mass_) (hmb : h.mbar_ ≠ 0)
    (hp : 0 < h.rad * h.rad + h.lam * h.lam) :
    h.direction t =
      ⟨h.bendSign * h.rad * Real.cos (h.phi t) / h.pbar,
       h.bendSign * h.rad * Real.sin (h.phi t) / h.pbar,
       h.bendSign * h.lam / h.pbar⟩ := by
  have hpb := pbar_pos h hp
  have hf : h.mass_ / h.mbar_ ≠ 0 := div_ne_zero hm.ne' hmb
  have habs : |h.mass_ / h.mbar_| = h.bendSign * (h.mass_ / h.mbar_) := by
    unfold bendSign
    split_ifs with h0
    · have : 0 < h.mbar_ := lt_of_le_of_ne h0 (Ne.symm hmb)
      rw [abs_of_pos (div_pos hm this)]; ring
    · have : h.mbar_ < 0 := not_le.mp h0
      rw [abs_of_neg (div_neg_of_pos_of_neg hm this)]; ring
  have hR : (h.momentum t).Vect.R = h.bendSign * (h.mass_ / h.mbar_) * h.pbar := by
    have h1 : (h.momentum t).Vect.R
        = Real.sqrt ((h.mass_ / h.mbar_) ^ 2 * (h.pbar * h.pbar)) := by
      unfold Vec3.R Mom4.Vect momentum
      congr 1
      rw [pbar_sq]
      simp only []
      have := Real.sin_sq_add_cos_sq (h.phi t)
      linear_combination ((h.mass_ / h.mbar_) ^ 2 * h.rad ^ 2) * this
    rw [h1, Real.sqrt_mul (sq_nonneg _), Real.sqrt_sq_eq_abs, Real.sqrt_mul_self hpb.le, habs]
  have hs := bendSign_sq h
  have hs0 : h.bendSign ≠ 0 := by intro h0; rw [h0] at hs; norm_num at hs
  have hR0 : (h.momentum t).Vect.R ≠ 0 := by
    rw [hR]; exact mul_ne_zero (mul_ne_zero hs0 hf) hpb.ne'
  unfold direction Vec3.Unit
  rw [if_neg hR0, hR]
  have hpb0 := hpb.ne'
  have hM := hm.ne'
  simp only [Mom4.Vect, momentum]
  rcases bendSign_cases h with hs1 | hs1 <;> rw [hs1] <;> ext <;> simp only [] <;> field_simp <;>
    ring

theorem dirVector_theta2 (h : LHelix) (t : ℝ) :
    h.dirVector trajdir.theta2 t = Except.ok ⟨-Real.sin (h.phi t), Real.cos (h.phi t), 0⟩ := by
  show Except.ok (⟨-Real.sin (h.phi t), Real.cos (h.phi t), 0.0⟩ : Vec3) = _
  rw [lit_zero]

theorem dirVector_momdir (h : LHelix) (t : ℝ) (hm : 0 < h.mass_) (hmb : h.mbar_ ≠ 0)
    (hp : 0 < h.rad * h.rad + h.lam * h.lam) :
    h.dirVector trajdir.momdir t = Except.ok
      ⟨h.bendSign * h.rad * Real.cos (h.phi t) / h.pbar,
       h.bendSign * h.rad * Real.sin (h.phi t) / h.pbar,
       h.bendSign * h.lam / h.pbar⟩ := by
  rw [← direction_eq h t hm hmb hp]
  rfl

theorem helix345_mbar : helix345.mbar_ = 1000 / c_ := by
  simp only [helix345, ofParameters]
  norm_num
  field_simp

theorem helix345_mbar_pos : 0 < helix345.mbar_ := by
  rw [helix345_mbar]; exact div_pos (by norm_num) c_pos

theorem helix345_pbar : helix345.pbar = 5 := by
  have : helix345.rad * helix345.rad + helix345.lam * helix345.lam = 5 * 5 := by
    simp only [helix345, ofParameters, rad, lam, param]; norm_num
  rw [pbar, this, Real.sqrt_mul_self (by norm_num)]

theorem helix345_phi : helix345.phi 0 = 0 := by
  simp [phi, dphi, t0, phi0, param, helix345, ofParameters]

theorem helix345_bendSign : helix345.bendSign = 1 := by
  simp [bendSign, helix345_mbar_pos.le]

theorem hasDerivAt_param (h : LHelix) (v : DVec) (i : paramIndex) :
    HasDerivAt (fun ε : ℝ => (h.shift v ε).param i) (v i) 0 := by
  have := ((hasDerivAt_id (0 : ℝ)).mul_const (v i)).const_add (h.pvec i)
  simpa [shift, param] using this

theorem shift_zero (h : LHelix) (v : DVec) : h.shift v 0 = h := by
  simp [shift]

theorem hasDerivAt_omega (h : LHelix) (v : DVec)
    (hp : 0 < h.rad * h.rad + h.lam * h.lam) :
    HasDerivAt (fun ε : ℝ => (h.shift v ε).omega) (dOmega h v) 0 := by
  have hr := hasDerivAt_param h v rad_
  have hl := hasDerivAt_param h v lam_
  have hsum := (hr.mul hr).add (hl.mul hl)
  have h0 : (h.shift v 0).param rad_ * (h.shift v 0).param rad_
      + (h.shift v 0).param lam_ * (h.shift v 0).param lam_ ≠ 0 := by
    rw [shift_zero]; exact hp.ne'
  have hsq := hsum.sqrt h0
  have hsq0 : Real.sqrt ((h.shift v 0).param rad_ * (h.shift v 0).param rad_
      + (h.shift v 0).param lam_ * (h.shift v 0).param lam_) ≠ 0 := by
    rw [shift_zero]; exact (pbar_pos h hp).ne'
  have hdiv := (hasDerivAt_const (0 : ℝ) (copysign c_ h.mbar_)).div hsq hsq0
  have hpb := (pbar_pos h hp).ne'
  convert hdiv using 1
  simp only [shift_zero, Pi.add_apply, Pi.mul_apply]
  unfold dOmega omega
  change _ = _ / (h.pbar) ^ 2
  have : Real.sqrt (h.param rad_ * h.param rad_ + h.param lam_ * h.param lam_) = h.pbar := rfl
  rw [this]
  change -(copysign c_ h.mbar_ / h.pbar * (h.rad * v rad_ + h.lam * v lam_) / (h.pbar * h.pbar))
      = (0 * h.pbar - copysign c_ h.mbar_
          * ((v rad_ * h.rad + h.rad * v rad_ + (v lam_ * h.lam + h.lam * v lam_)) / (2 * h.pbar)))
        / h.pbar ^ 2
  field_simp
  ring

theorem momDeriv_theta1 (h : LHelix) (t : ℝ) :
    h.momDeriv trajdir.theta1 t = Except.ok (momDerivTheta1 h t) := rfl

theorem momDeriv_theta2 (h : LHelix) (t : ℝ) :
    h.momDeriv trajdir.theta2 t = Except.ok (momDerivTheta2 h t) := by
  refine congrArg Except.ok (funext fun i => ?_)
  cases i <;> (simp only [lit_one, lit_zero]; rfl)

theorem momDeriv_momdir (h : LHelix) (t : ℝ) :
    h.momDeriv trajdir.momdir t = Except.ok (momDerivMomdir h t) := by
  refine congrArg Except.ok (funext fun i => ?_)
  cases i <;> (simp only [lit_one]; rfl)

theorem dOmega_momdir (h : LHelix) (t : ℝ) (hp : 0 < h.rad * h.rad + h.lam * h.lam) :
    dOmega h (momDerivMomdir h t) = -h.omega := by
  have hpb := (pbar_pos h hp).ne'
  show -(h.omega * (h.rad * h.rad + h.lam * h.lam) / (h.pbar * h.pbar)) = -h.omega
  rw [← pbar_sq]
  field_simp

theorem ebar_sq (h : LHelix) : h.ebar * h.ebar = h.pbar * h.pbar + h.mbar_ * h.mbar_ :=
  Real.mul_self_sqrt (add_nonneg (mul_self_nonneg _) (mul_self_nonneg _))

theorem ebar_pos (h : LHelix) (hp : 0 < h.rad * h.rad + h.lam * h.lam) : 0 < h.ebar := by
  have h1 := mul_pos (pbar_pos h hp) (pbar_pos h hp)
  have h2 := mul_self_nonneg h.mbar_
  exact Real.sqrt_pos.mpr (by linarith)

/-- The factor `1 - beta²` is `mbar²/ebar²`. -/
theorem one_sub_beta_sq (h : LHelix) (hp : 0 < h.rad * h.rad + h.lam * h.lam) :
    1 - h.beta * h.beta = h.mbar_ * h.mbar_ / (h.ebar * h.ebar) := by
  have he := (ebar_pos h hp).ne'
  have h2 := ebar_sq h
  unfold beta
  rw [abs_mul_abs_self]
  field_simp
  linear_combination h2

theorem omega_ne_zero (h : LHelix) (hp : 0 < h.rad * h.rad + h.lam * h.lam) : h.omega ≠ 0 :=
  div_ne_zero (copysign_ne_zero _ c_pos.ne') (Real.sqrt_pos.mpr hp).ne'

theorem helix345_rad : helix345.rad = 3 := rfl

theorem helix345_lam : helix345.lam = 4 := rfl

theorem helix345_t0 : helix345.t0 = 0 := rfl

theorem helix345_mass : helix345.mass_ = 1 := rfl

theorem helix345_sq_pos : 0 < helix345.rad * helix345.rad + helix345.lam * helix345.lam := by
  rw [helix345_rad, helix345_lam]; norm_num

/-- For the sample helix the azimuthal change caused by the `momdir` column
at `t = 1` is not zero. -/
theorem helix345_drift_ne_zero :
    helix345.omega * (1 - helix345.t0) * (1 - helix345.beta * helix345.beta) ≠ 0 := by
  have hp := helix345_sq_pos
  refine mul_ne_zero (mul_ne_zero (omega_ne_zero _ hp) ?_) ?_
  · rw [helix345_t0]; norm_num
  · rw [one_sub_beta_sq _ hp]
    have := helix345_mbar_pos.ne'
    exact div_ne_zero (mul_ne_zero this this) (mul_ne_zero (ebar_pos _ hp).ne' (ebar_pos _ hp).ne')

theorem copysign_one_eq_sign {x : ℝ} (hx : x ≠ 0) : copysign 1 x = Real.sign x := by
  rcases lt_or_gt_of_ne hx with h | h
  · rw [Real.sign_of_neg h]; simp [copysign, not_le.mpr h]
  · rw [Real.sign_of_pos h]; simp [copysign, h.le]

theorem copysign_one_mul_pbar (h : LHelix) :
    copysign 1 h.omega * h.pbar = Real.sign h.omega * h.pbar := by
  by_cases hp : 0 < h.rad * h.rad + h.lam * h.lam
  · rw [copysign_one_eq_sign (omega_ne_zero h hp)]
  · have : h.pbar = 0 := Real.sqrt_eq_zero'.mpr (not_lt.mp hp)
    rw [this, mul_zero, mul_zero]

theorem positionWith_omega (h : LHelix) (t : ℝ) : positionWith omega h t = h.position t := rfl

end LHelix

namespace Material

variable {KT PK FS : Type}

theorem setProcessed_isProcessed (s : ProcessedState) (tdir : TimeDir) :
    (s.setProcessed tdir).isProcessed tdir = true := by
  cases s <;> cases tdir <;> rfl

/-- What `process` does to an active effect in the forward direction. -/
theorem process_forwards_active (F : FitStateOps FS) (m : Material KT) (S : FS)
    (hact : m.exing_.active = true) :
    process F m S TimeDir.forwards =
      ({ m with
          cache_ := m.cache_ + F.wData (F.append S m.mateff_ TimeDir.forwards),
          state := m.state.setProcessed TimeDir.forwards },
        F.append S m.mateff_ TimeDir.forwards) := by
  simp [process, hact]

/-- What `process` does to an active effect in the backward direction. -/
theorem process_backwards_active (F : FitStateOps FS) (m : Material KT) (S : FS)
    (hact : m.exing_.active = true) :
    process F m S TimeDir.backwards =
      ({ m with
          cache_ := m.cache_ + F.wData S,
          state := m.state.setProcessed TimeDir.backwards },
        F.append S m.mateff_ TimeDir.backwards) := by
  simp [process, hact]

/-- The update leaves the cache empty. -/
theorem update_cache (E : MaterialEnv PK KT) (m : Material KT) (ref : PK) :
    (update E m ref).cache_ = Weights.empty := by
  simp only [update, updateCache]
  split_ifs <;> rfl

end Material
end KinKal

namespace KinKal

namespace ElementXing

variable {KT : Type}

theorem materialEffects_nil (K : KTrajOps KT) (t : ℝ) (pktraj : KT) (tdir : TimeDir)
    (dmom momvar : MomBasis.Direction → ℝ) :
    materialEffects K ⟨[], t⟩ pktraj tdir dmom momvar = (dmom, momvar) := rfl

/-- The factor used by `materialEffects` is `dmFdE`. -/
theorem dmFdE_eq (p m : ℝ) (tdir : TimeDir) :
    (if tdir = TimeDir.backwards then Real.sqrt (p * p + m * m) / (p * p) * (-1.0)
      else Real.sqrt (p * p + m * m) / (p * p)) = dmFdE p m tdir := by
  unfold dmFdE
  split_ifs
  · norm_num
  · rfl

/-- One turn of the loop of `materialEffects`. -/
theorem materialEffects_cons (K : KTrajOps KT) (a : MaterialXing) (l : List MaterialXing)
    (t : ℝ) (pktraj : KT) (tdir : TimeDir) (dmom momvar : MomBasis.Direction → ℝ) :
    materialEffects K ⟨a :: l, t⟩ pktraj tdir dmom momvar =
      materialEffects K ⟨l, t⟩ pktraj tdir
        (Function.update dmom MomBasis.Direction.momdir_
          (dmom MomBasis.Direction.momdir_
            + a.dmat_.energyLoss (K.momentum pktraj t) a.plen_ (K.mass pktraj)
              * dmFdE (K.momentum pktraj t) (K.mass pktraj) tdir))
        (Function.update
          (Function.update
            (Function.update momvar MomBasis.Direction.momdir_
              (momvar MomBasis.Direction.momdir_
                + a.dmat_.energyLossVar (K.momentum pktraj t) a.plen_ (K.mass pktraj)
                  * dmFdE (K.momentum pktraj t) (K.mass pktraj) tdir
                  * dmFdE (K.momentum pktraj t) (K.mass pktraj) tdir))
            MomBasis.Direction.perpdir_
            (momvar MomBasis.Direction.perpdir_
              + a.dmat_.scatterAngleVar (K.momentum pktraj t) a.plen_ (K.mass pktraj)))
          MomBasis.Direction.phidir_
          (momvar MomBasis.Direction.phidir_
            + a.dmat_.scatterAngleVar (K.momentum pktraj t) a.plen_ (K.mass pktraj))) := by
  simp only [materialEffects, List.foldl_cons, dmFdE_eq]
  congr 1

/-- The arrays left by `materialEffects`, entry by entry. -/
theorem materialEffects_entries (K : KTrajOps KT) (l : List MaterialXing) (t : ℝ) (pktraj : KT)
    (tdir : TimeDir) (dmom momvar : MomBasis.Direction → ℝ) :
    (materialEffects K ⟨l, t⟩ pktraj tdir dmom momvar).1 MomBasis.Direction.momdir_
      = dmom MomBasis.Direction.momdir_
        + (l.map fun a => a.dmat_.energyLoss (K.momentum pktraj t) a.plen_ (K.mass pktraj)
            * dmFdE (K.momentum pktraj t) (K.mass pktraj) tdir).sum ∧
    (materialEffects K ⟨l, t⟩ pktraj tdir dmom momvar).1 MomBasis.Direction.perpdir_
      = dmom MomBasis.Direction.perpdir_ ∧
    (materialEffects K ⟨l, t⟩ pktraj tdir dmom momvar).1 MomBasis.Direction.phidir_
      = dmom MomBasis.Direction.phidir_ ∧
    (materialEffects K ⟨l, t⟩ pktraj tdir dmom momvar).2 MomBasis.Direction.momdir_
      = momvar MomBasis.Direction.momdir_
        + (l.map fun a => a.dmat_.energyLossVar (K.momentum pktraj t) a.plen_ (K.mass pktraj)
            * dmFdE (K.momentum pktraj t) (K.mass pktraj) tdir
            * dmFdE (K.momentum pktraj t) (K.mass pktraj) tdir).sum ∧
    (materialEffects K ⟨l, t⟩ pktraj tdir dmom momvar).2 MomBasis.Direction.perpdir_
      = momvar MomBasis.Direction.perpdir_
        + (l.map fun a =>
            a.dmat_.scatterAngleVar (K.momentum pktraj t) a.plen_ (K.mass pktraj)).sum ∧
    (materialEffects K ⟨l, t⟩ pktraj tdir dmom momvar).2 MomBasis.Direction.phidir_
      = momvar MomBasis.Direction.phidir_
        + (l.map fun a =>
            a.dmat_.scatterAngleVar (K.momentum pktraj t) a.plen_ (K.mass pktraj)).sum := by
  induction l generalizing dmom momvar with
  | nil => simp [materialEffects_nil]
  | cons a l ih =>
    rw [materialEffects_cons]
    obtain ⟨h1, h2, h3, h4, h5, h6⟩ := ih _ _
    rw [h1, h2, h3, h4, h5, h6]
    simp only [List.map_cons, List.sum_cons, Function.update_same, ne_eq, not_false_eq_true,
      Function.update_noteq, reduceCtorEq]
    refine ⟨by ring, trivial, trivial, by ring, by ring, by ring⟩

end ElementXing

end KinKal

namespace KinKal

namespace ElementXing

theorem dmFdE_backwards (p m : ℝ) :
    dmFdE p m TimeDir.backwards = -dmFdE p m TimeDir.forwards := by
  simp [dmFdE]

end ElementXing

namespace Material

variable {KT : Type}

/-- The effect computed by `updateCache` for an active crossing, entry by entry. -/
theorem updateCache_active (K : KTrajOps KT) (m : Material KT) (hact : m.exing_.active = true) :
    (∀ i, (updateCache K m).mateff_.parameters i
      = momVector K m MomBasis.Direction.momdir_ i
          * (m.exing_.materialEffects K m.ref_ TimeDir.forwards (fun _ => 0) (fun _ => 0)).1
              MomBasis.Direction.momdir_
        + momVector K m MomBasis.Direction.perpdir_ i
          * (m.exing_.materialEffects K m.ref_ TimeDir.forwards (fun _ => 0) (fun _ => 0)).1
              MomBasis.Direction.perpdir_
        + momVector K m MomBasis.Direction.phidir_ i
          * (m.exing_.materialEffects K m.ref_ TimeDir.forwards (fun _ => 0) (fun _ => 0)).1
              MomBasis.Direction.phidir_) ∧
    (∀ i j, (updateCache K m).mateff_.covariance i j
      = momVector K m MomBasis.Direction.momdir_ i
          * ((m.exing_.materialEffects K m.ref_ TimeDir.forwards (fun _ => 0) (fun _ => 0)).2
              MomBasis.Direction.momdir_ * m.vscale_)
          * momVector K m MomBasis.Direction.momdir_ j
        + momVector K m MomBasis.Direction.perpdir_ i
          * ((m.exing_.materialEffects K m.ref_ TimeDir.forwards (fun _ => 0) (fun _ => 0)).2
              MomBasis.Direction.perpdir_ * m.vscale_)
          * momVector K m MomBasis.Direction.perpdir_ j
        + momVector K m MomBasis.Direction.phidir_ i
          * ((m.exing_.materialEffects K m.ref_ TimeDir.forwards (fun _ => 0) (fun _ => 0)).2
              MomBasis.Direction.phidir_ * m.vscale_)
          * momVector K m MomBasis.Direction.phidir_ j) := by
  constructor
  · intro i
    simp only [updateCache, hact, if_true, List.foldl_cons, List.foldl_nil, Parameters.empty,
      momVector, Material.time, lit_zero, zero_add]
  · intro i j
    simp only [updateCache, hact, if_true, List.foldl_cons, List.foldl_nil, Parameters.empty,
      momVector, Material.time, lit_zero, zero_add]

end Material

end KinKal

namespace KinKal

namespace ParticleTrajectory

variable {KT : Type}

/-- In a trajectory of one piece the back piece is the front piece. -/
theorem back_of_length_one (fit : ParticleTrajectory KT) (h : fit.pieces.length = 1) :
    fit.later = [] ∧ fit.back = fit.first := by
  have hl : fit.later = [] := by
    simpa [pieces] using h
  refine ⟨hl, ?_⟩
  simp [back, hl]

theorem back_setFront_of_length_one (fit : ParticleTrajectory KT) (k : KT)
    (h : fit.pieces.length = 1) : (fit.setFront k).back = k := by
  have hl := (back_of_length_one fit h).1
  simp [back, setFront, hl]

end ParticleTrajectory

namespace Material

variable {KT : Type}

theorem tbuff_pos : 0 < tbuff_ := by
  unfold tbuff_; norm_num

theorem tbuff_eq : tbuff_ = 1 / 1000000 := by
  unfold tbuff_; norm_num

/-- The call made by `append` when the effect time is not earlier than the
begin of the back piece. -/
theorem appendCall_in_order (T : KTrajRangeOps KT) (toParameters : Weights → Parameters)
    (m : Material KT) (fit : ParticleTrajectory KT) (hact : m.exing_.active = true)
    (ht : (T.range fit.back).low ≤ m.time) :
    appendCall T toParameters m fit = some (fit,
      T.setRange (T.setParams m.ref_ (toParameters m.cache_))
        ⟨m.time, max (m.time + tbuff_) (fit.range T).high⟩) := by
  simp [appendCall, hact, not_lt.mpr ht]

/-- The call made by `append` when the effect time is earlier than the begin
of the only piece. -/
theorem appendCall_one_piece (T : KTrajRangeOps KT) (toParameters : Weights → Parameters)
    (m : Material KT) (fit : ParticleTrajectory KT) (hact : m.exing_.active = true)
    (ht : m.time < (T.range fit.back).low) (h1 : fit.pieces.length = 1) :
    appendCall T toParameters m fit = some
      (fit.setFront (T.setRange fit.front ⟨m.time - tbuff_, (fit.range T).high⟩),
        T.setRange (T.setParams m.ref_ (toParameters m.cache_))
          ⟨m.time, max (m.time + tbuff_) (fit.range T).high⟩) := by
  simp [appendCall, hact, ht, h1, T.range_setRange]

/-- The call made by `append` when the effect time is earlier than the begin
of the back piece and there are several pieces. -/
theorem appendCall_several_pieces (T : KTrajRangeOps KT) (toParameters : Weights → Parameters)
    (m : Material KT) (fit : ParticleTrajectory KT) (hact : m.exing_.active = true)
    (ht : m.time < (T.range fit.back).low) (h1 : fit.pieces.length ≠ 1) :
    appendCall T toParameters m fit = some (fit,
      T.setRange (T.setRange (T.setParams m.ref_ (toParameters m.cache_))
          ⟨m.time, max (m.time + tbuff_) (fit.range T).high⟩)
        ⟨(T.range fit.back).low + tbuff_, (fit.range T).high⟩) := by
  simp [appendCall, hact, ht, h1]

/-- The piece handed to `fit.append` begins no earlier than the back piece of
the trajectory it is appended to, and later unless the effect time is exactly
the begin of the back piece. -/
theorem appendCall_begin (T : KTrajRangeOps KT) (toParameters : Weights → Parameters)
    (m : Material KT) (fit fit1 : ParticleTrajectory KT) (newpiece : KT)
    (hact : m.exing_.active = true)
    (hc : appendCall T toParameters m fit = some (fit1, newpiece)) :
    (T.range fit1.back).low ≤ (T.range newpiece).low ∧
    (m.time ≠ (T.range fit.back).low → (T.range fit1.back).low < (T.range newpiece).low) ∧
    (m.time = (T.range fit.back).low →
      fit1 = fit ∧ (T.range newpiece).low = (T.range fit.back).low) := by
  have hb := tbuff_pos
  rcases lt_or_le m.time (T.range fit.back).low with ht | ht
  · by_cases h1 : fit.pieces.length = 1
    · rw [appendCall_one_piece T toParameters m fit hact ht h1] at hc
      simp only [Option.some.injEq, Prod.mk.injEq] at hc
      obtain ⟨hf, hn⟩ := hc
      subst hf hn
      rw [ParticleTrajectory.back_setFront_of_length_one _ _ h1]
      simp only [T.range_setRange]
      refine ⟨by linarith, fun _ => by linarith, fun he => ?_⟩
      exact absurd he ht.ne
    · rw [appendCall_several_pieces T toParameters m fit hact ht h1] at hc
      simp only [Option.some.injEq, Prod.mk.injEq] at hc
      obtain ⟨hf, hn⟩ := hc
      subst hf hn
      simp only [T.range_setRange]
      refine ⟨by linarith, fun _ => by linarith, fun he => ?_⟩
      exact absurd he ht.ne
  · rw [appendCall_in_order T toParameters m fit hact ht] at hc
    simp only [Option.some.injEq, Prod.mk.injEq] at hc
    obtain ⟨hf, hn⟩ := hc
    subst hf hn
    simp only [T.range_setRange]
    refine ⟨ht, fun hne => lt_of_le_of_ne ht (Ne.symm hne), fun he => ⟨trivial, he⟩⟩

end Material

end KinKal

namespace KinKal

theorem rint_abs_sub_le (x : ℝ) : |x - (rint x : ℝ)| ≤ 1 / 2 := by
  have h0 := Int.floor_le x
  have h1 := Int.lt_floor_add_one x
  unfold rint
  split_ifs with ha hb hc
  · rw [abs_le]; constructor <;> linarith
  · push_cast; rw [abs_le]; constructor <;> linarith
  · rw [abs_le]; constructor <;> linarith
  · push_cast; rw [abs_le]; constructor <;> linarith

theorem rint_nearest (x : ℝ) (k : ℤ) : |x - (rint x : ℝ)| ≤ |x - (k : ℝ)| := by
  have h := rint_abs_sub_le x
  by_cases hk : k = rint x
  · rw [hk]
  · have h1 : (1 : ℝ) ≤ |((rint x : ℝ)) - (k : ℝ)| := by
      have : (1 : ℤ) ≤ |rint x - k| := Int.one_le_abs (sub_ne_zero.mpr (Ne.symm hk))
      exact_mod_cast this
    have h2 : |((rint x : ℝ)) - (k : ℝ)| ≤ |x - (k : ℝ)| + |x - (rint x : ℝ)| := by
      have := abs_sub_le (rint x : ℝ) x (k : ℝ)
      rw [abs_sub_comm (rint x : ℝ) x] at this
      linarith
    linarith

namespace LHelix

theorem kinematicHelix_phi0 (pos : Vec4) (mom : Mom4) (charge : ℤ) (bNom : ℝ) (range : TRange)
    (hpt : mom.Pt ≠ 0) (hpz : mom.Pz ≠ 0) (hq : charge ≠ 0) (hb : bNom ≠ 0) :
    let h := kinematicHelix pos mom charge bNom range
    h.phi0 = mom.Phi - pos.Z / h.lam
      + 2 * Real.pi * (rint ((pos.Z / h.lam - mom.Phi) / (2 * Real.pi)) : ℝ) := by
  intro h
  obtain ⟨hom, hlam0, hdphi, -⟩ := kinematicHelix_facts pos mom charge bNom range hpt hpz hq hb
  have hphi0 : h.phi0 = mom.Phi - h.omega * (pos.T - h.t0)
      + 2 * M_PI * (rint ((pos.Z / h.lam - mom.Phi) / (2 * M_PI)) : ℝ) := rfl
  have hd : h.omega * (pos.T - h.t0) = pos.Z / h.lam := hdphi
  rw [hphi0, hd]
  rfl

end LHelix

namespace Vec3

theorem Dot_comm (a b : Vec3) : a.Dot b = b.Dot a := by
  simp only [Dot]; ring

theorem Dot_add_left (a b c : Vec3) : (add a b).Dot c = a.Dot c + b.Dot c := by
  simp only [Dot, add]; ring

theorem Dot_sub_left (a b c : Vec3) : (sub a b).Dot c = a.Dot c - b.Dot c := by
  simp only [Dot, sub]; ring

theorem Dot_scale_left (k : ℝ) (a b : Vec3) : (scale k a).Dot b = k * a.Dot b := by
  simp only [Dot, scale]; ring

theorem Dot_add_right (a b c : Vec3) : a.Dot (add b c) = a.Dot b + a.Dot c := by
  simp only [Dot, add]; ring

theorem Dot_sub_right (a b c : Vec3) : a.Dot (sub b c) = a.Dot b - a.Dot c := by
  simp only [Dot, sub]; ring

theorem Dot_scale_right (k : ℝ) (a b : Vec3) : a.Dot (scale k b) = k * a.Dot b := by
  simp only [Dot, scale]; ring

theorem Dot_segment (p1 p2 u1 u2 v : Vec3) (s1 s2 : ℝ) :
    (sub (add p1 (scale s1 u1)) (add p2 (scale s2 u2))).Dot v
      = (sub p1 p2).Dot v + s1 * u1.Dot v - s2 * u2.Dot v := by
  simp only [Dot, add, sub, scale]; ring

theorem Dot_self_nonneg (a : Vec3) : 0 ≤ a.Dot a := by
  simp only [Dot]
  have := mul_self_nonneg a.X
  have := mul_self_nonneg a.Y
  have := mul_self_nonneg a.Z
  linarith

theorem R_eq_sqrt_Dot (a : Vec3) : a.R = Real.sqrt (a.Dot a) := rfl

/-- A vector whose square is `g²` has length `|g|`. -/
theorem R_of_Dot_self (a : Vec3) (g : ℝ) (h : a.Dot a = g * g) : a.R = |g| := by
  rw [R_eq_sqrt_Dot, h, Real.sqrt_mul_self_eq_abs]

/-- A normalised vector has unit square, unless it is the null vector. -/
theorem Unit_cases (a : Vec3) : a.Unit.Dot a.Unit = 1 ∨ a.Unit = ⟨0, 0, 0⟩ := by
  by_cases h : a.R = 0
  · right
    have hs : a.Dot a = 0 := by
      have := (Real.sqrt_eq_zero (Dot_self_nonneg a)).mp h
      exact this
    have hX := mul_self_nonneg a.X
    have hY := mul_self_nonneg a.Y
    have hZ := mul_self_nonneg a.Z
    simp only [Dot] at hs
    have h1 : a.X = 0 := mul_self_eq_zero.mp (by linarith)
    have h2 : a.Y = 0 := mul_self_eq_zero.mp (by linarith)
    have h3 : a.Z = 0 := mul_self_eq_zero.mp (by linarith)
    simp only [Unit, if_pos h]
    ext <;> assumption
  · left
    have hR : a.R * a.R = a.Dot a := Real.mul_self_sqrt (Dot_self_nonneg a)
    simp only [Unit, if_neg h, Dot] at hR ⊢
    field_simp
    linarith

theorem Unit_of_unit (a : Vec3) (h : a.Dot a = 1) : a.Unit = a := by
  have hR : a.R = 1 := by rw [R_eq_sqrt_Dot, h, Real.sqrt_one]
  simp only [Unit, hR]
  norm_num

/-- Normalising a vector keeps it perpendicular to what it was perpendicular to. -/
theorem Dot_Unit_eq_zero (a b : Vec3) (h : b.Dot a = 0) : b.Dot a.Unit = 0 := by
  by_cases hR : a.R = 0
  · simp only [Unit, if_pos hR]; exact h
  · simp only [Unit, if_neg hR, Dot] at h ⊢
    field_simp
    linarith

end Vec3

namespace POCAUtil

theorem ofLines_parallel (p1 t1 p2 t2 : Vec3) (cut : ℝ)
    (h : 1 - t1.Unit.Dot t2.Unit * t1.Unit.Dot t2.Unit < cut) :
    ofLines p1 t1 p2 t2 cut =
      { _p1 := p1, _t1 := t1.Unit, _p2 := p2, _t2 := t2.Unit, _s1 := 0, _s2 := 0,
        _closeToParallel := true, _pca1 := p1, _pca2 := p2,
        _dca := (Vec3.sub p1 p2).R, _dca2d := Real.sqrt (Vec3.sub p1 p2).Perp2 } := by
  unfold ofLines
  simp only [lit_one, lit_zero]
  rw [if_pos h]
  rfl

theorem ofLines_skew (p1 t1 p2 t2 : Vec3) (cut : ℝ)
    (h : ¬ 1 - t1.Unit.Dot t2.Unit * t1.Unit.Dot t2.Unit < cut) :
    ofLines p1 t1 p2 t2 cut =
      { _p1 := p1, _t1 := t1.Unit, _p2 := p2, _t2 := t2.Unit,
        _s1 := ((Vec3.sub p1 p2).Dot t2.Unit * t1.Unit.Dot t2.Unit - (Vec3.sub p1 p2).Dot t1.Unit)
          / (1 - t1.Unit.Dot t2.Unit * t1.Unit.Dot t2.Unit),
        _s2 := -((Vec3.sub p1 p2).Dot t1.Unit * t1.Unit.Dot t2.Unit - (Vec3.sub p1 p2).Dot t2.Unit)
          / (1 - t1.Unit.Dot t2.Unit * t1.Unit.Dot t2.Unit),
        _closeToParallel := false,
        _pca1 := Vec3.add p1 (Vec3.scale
          (((Vec3.sub p1 p2).Dot t2.Unit * t1.Unit.Dot t2.Unit - (Vec3.sub p1 p2).Dot t1.Unit)
            / (1 - t1.Unit.Dot t2.Unit * t1.Unit.Dot t2.Unit)) t1.Unit),
        _pca2 := Vec3.add p2 (Vec3.scale
          (-((Vec3.sub p1 p2).Dot t1.Unit * t1.Unit.Dot t2.Unit - (Vec3.sub p1 p2).Dot t2.Unit)
            / (1 - t1.Unit.Dot t2.Unit * t1.Unit.Dot t2.Unit)) t2.Unit),
        _dca := (Vec3.sub
          (Vec3.add p1 (Vec3.scale
            (((Vec3.sub p1 p2).Dot t2.Unit * t1.Unit.Dot t2.Unit - (Vec3.sub p1 p2).Dot t1.Unit)
              / (1 - t1.Unit.Dot t2.Unit * t1.Unit.Dot t2.Unit)) t1.Unit))
          (Vec3.add p2 (Vec3.scale
            (-((Vec3.sub p1 p2).Dot t1.Unit * t1.Unit.Dot t2.Unit - (Vec3.sub p1 p2).Dot t2.Unit)
              / (1 - t1.Unit.Dot t2.Unit * t1.Unit.Dot t2.Unit)) t2.Unit))).R,
        _dca2d := Real.sqrt (Vec3.sub
          (Vec3.add p1 (Vec3.scale
            (((Vec3.sub p1 p2).Dot t2.Unit * t1.Unit.Dot t2.Unit - (Vec3.sub p1 p2).Dot t1.Unit)
              / (1 - t1.Unit.Dot t2.Unit * t1.Unit.Dot t2.Unit)) t1.Unit))
          (Vec3.add p2 (Vec3.scale
            (-((Vec3.sub p1 p2).Dot t1.Unit * t1.Unit.Dot t2.Unit - (Vec3.sub p1 p2).Dot t2.Unit)
              / (1 - t1.Unit.Dot t2.Unit * t1.Unit.Dot t2.Unit)) t2.Unit))).Perp2 } := by
  unfold ofLines
  simp only [lit_one]
  rw [if_neg h]
  rfl

/-- In both branches the stored points are the given points moved along the
normalised directions by the stored path lengths. -/
theorem ofLines_pca (p1 t1 p2 t2 : Vec3) (cut : ℝ) :
    (ofLines p1 t1 p2 t2 cut)._pca1
        = Vec3.add p1 (Vec3.scale (ofLines p1 t1 p2 t2 cut)._s1 t1.Unit) ∧
      (ofLines p1 t1 p2 t2 cut)._pca2
        = Vec3.add p2 (Vec3.scale (ofLines p1 t1 p2 t2 cut)._s2 t2.Unit) ∧
      (ofLines p1 t1 p2 t2 cut)._t1 = t1.Unit ∧ (ofLines p1 t1 p2 t2 cut)._t2 = t2.Unit ∧
      (ofLines p1 t1 p2 t2 cut)._dca
        = (Vec3.sub (ofLines p1 t1 p2 t2 cut)._pca1 (ofLines p1 t1 p2 t2 cut)._pca2).R := by
  by_cases h : 1 - t1.Unit.Dot t2.Unit * t1.Unit.Dot t2.Unit < cut
  · rw [ofLines_parallel p1 t1 p2 t2 cut h]
    refine ⟨?_, ?_, rfl, rfl, rfl⟩ <;>
    · simp only [Vec3.add, Vec3.scale]
      ext <;> simp
  · rw [ofLines_skew p1 t1 p2 t2 cut h]
    exact ⟨rfl, rfl, rfl, rfl, rfl⟩

/-- The two orthogonality equations solved by the path lengths. -/
theorem skew_scalar (d1 d2 c n1 n2 : ℝ) (hs : 1 - c * c ≠ 0)
    (h1 : n1 = 1 ∨ (n1 = 0 ∧ d1 = 0 ∧ c = 0)) (h2 : n2 = 1 ∨ (n2 = 0 ∧ d2 = 0 ∧ c = 0)) :
    d1 + (d2 * c - d1) / (1 - c * c) * n1 - -(d1 * c - d2) / (1 - c * c) * c = 0 ∧
      d2 + (d2 * c - d1) / (1 - c * c) * c - -(d1 * c - d2) / (1 - c * c) * n2 = 0 := by
  constructor
  · rcases h1 with h | ⟨h, hd, hc⟩
    · rw [h]; field_simp; ring
    · rw [h, hd, hc]; simp
  · rcases h2 with h | ⟨h, hd, hc⟩
    · rw [h]; field_simp; ring
    · rw [h, hd, hc]; simp

/-- For lines that are not close to parallel the segment between the two
stored points is perpendicular to both normalised directions. -/
theorem ofLines_perp (p1 t1 p2 t2 : Vec3) (cut : ℝ) (hcut : 0 < cut)
    (h : cut ≤ 1 - t1.Unit.Dot t2.Unit * t1.Unit.Dot t2.Unit) :
    (Vec3.sub (ofLines p1 t1 p2 t2 cut)._pca1 (ofLines p1 t1 p2 t2 cut)._pca2).Dot t1.Unit = 0 ∧
      (Vec3.sub (ofLines p1 t1 p2 t2 cut)._pca1 (ofLines p1 t1 p2 t2 cut)._pca2).Dot t2.Unit
        = 0 := by
  have hs : 1 - t1.Unit.Dot t2.Unit * t1.Unit.Dot t2.Unit ≠ 0 := (lt_of_lt_of_le hcut h).ne'
  rw [ofLines_skew p1 t1 p2 t2 cut (not_lt.mpr h)]
  simp only [Vec3.Dot_segment]
  have hz : ∀ v : Vec3, (Vec3.mk 0 0 0).Dot v = 0 ∧ v.Dot (Vec3.mk 0 0 0) = 0 := by
    intro v; simp [Vec3.Dot]
  have h1 : t1.Unit.Dot t1.Unit = 1 ∨ (t1.Unit.Dot t1.Unit = 0 ∧
      (Vec3.sub p1 p2).Dot t1.Unit = 0 ∧ t1.Unit.Dot t2.Unit = 0) := by
    rcases Vec3.Unit_cases t1 with e | e
    · exact Or.inl e
    · right; rw [e]; exact ⟨(hz _).1, (hz _).2, (hz _).1⟩
  have h2 : t2.Unit.Dot t2.Unit = 1 ∨ (t2.Unit.Dot t2.Unit = 0 ∧
      (Vec3.sub p1 p2).Dot t2.Unit = 0 ∧ t1.Unit.Dot t2.Unit = 0) := by
    rcases Vec3.Unit_cases t2 with e | e
    · exact Or.inl e
    · right; rw [e]; exact ⟨(hz _).1, (hz _).2, (hz _).2⟩
  obtain ⟨k1, k2⟩ := skew_scalar ((Vec3.sub p1 p2).Dot t1.Unit) ((Vec3.sub p1 p2).Dot t2.Unit)
    (t1.Unit.Dot t2.Unit) (t1.Unit.Dot t1.Unit) (t2.Unit.Dot t2.Unit) hs h1 h2
  rw [Vec3.Dot_comm t2.Unit t1.Unit]
  constructor
  · linear_combination k1
  · linear_combination k2

end POCAUtil

namespace LHelix

/-- The polar and azimuthal directions are unit vectors, perpendicular to each
other and to the direction of the momentum. -/
theorem perp_directions (h : LHelix) (t : ℝ) (hp : 0 < h.rad * h.rad + h.lam * h.lam) :
    ∃ P F : Vec3, h.dirVector trajdir.theta1 t = Except.ok P ∧
      h.dirVector trajdir.theta2 t = Except.ok F ∧
      P.Dot P = 1 ∧ F.Dot F = 1 ∧ P.Dot F = 0 ∧
      P.Dot (h.direction t) = 0 ∧ F.Dot (h.direction t) = 0 := by
  refine ⟨_, _, dirVector_theta1 h t hp, dirVector_theta2 h t, ?_⟩
  have hpb := (pbar_pos h hp).ne'
  have hsq := pbar_sq h
  have hs := bendSign_sq h
  have hsc := Real.sin_sq_add_cos_sq (h.phi t)
  refine ⟨?_, ?_, ?_, ?_, ?_⟩
  · simp only [Vec3.Dot]
    field_simp
    linear_combination (h.lam * h.lam * h.bendSign * h.bendSign) * hsc
      + (h.rad * h.rad + h.lam * h.lam) * hs - hsq
  · simp only [Vec3.Dot]
    linear_combination hsc
  · simp only [Vec3.Dot]
    field_simp
    ring
  · apply Vec3.Dot_Unit_eq_zero
    simp only [Vec3.Dot, momentum, Mom4.Vect]
    linear_combination (h.bendSign * h.lam / h.pbar * (h.mass_ / h.mbar_) * h.rad) * hsc
  · apply Vec3.Dot_Unit_eq_zero
    simp only [Vec3.Dot, momentum, Mom4.Vect]
    ring

end LHelix

end KinKal

namespace KinKal

/-- The quadratic form of a combination of three outer products. -/
theorem quadForm_outer (C : DMat) (x : DVec) (w1 w2 w3 : ℝ) (v1 v2 v3 : DVec)
    (hC : ∀ i j, C i j = w1 * (v1 i * v1 j) + w2 * (v2 i * v2 j) + w3 * (v3 i * v3 j)) :
    quadForm C x = w1 * (paramDot x v1 * paramDot x v1) + w2 * (paramDot x v2 * paramDot x v2)
      + w3 * (paramDot x v3 * paramDot x v3) := by
  simp only [quadForm, paramDot, paramIndex.all, List.map, List.sum_cons, List.sum_nil, hC]
  ring

namespace ScintHit

variable {CAD HB KT : Type}

/-- What `update` leaves when the closest approach is usable. -/
theorem update_of_usable (E : ScintHitEnv CAD HB KT) (h : ScintHit CAD HB) (ktraj : KT)
    (hu : (E.closestApproach ktraj h.saxis_ ⟨h.saxis_.t0, h.saxis_.t0⟩ h.precision_).usable
      = true) :
    update E h ktraj =
      ({ h with
          tpdata_ :=
            (E.closestApproach ktraj h.saxis_ ⟨h.saxis_.t0, h.saxis_.t0⟩ h.precision_).tpData,
          rresid_ :=
            ⟨(E.closestApproach ktraj h.saxis_ ⟨h.saxis_.t0, h.saxis_.t0⟩ h.precision_).deltaT,
              h.tvar_ + h.wvar_
                * ((E.closestApproach ktraj h.saxis_ ⟨h.saxis_.t0, h.saxis_.t0⟩
                    h.precision_).dirDot
                  * (E.closestApproach ktraj h.saxis_ ⟨h.saxis_.t0, h.saxis_.t0⟩
                    h.precision_).dirDot)
                / (h.saxis_.speed * h.saxis_.speed * (1 -
                  (E.closestApproach ktraj h.saxis_ ⟨h.saxis_.t0, h.saxis_.t0⟩
                      h.precision_).dirDot
                    * (E.closestApproach ktraj h.saxis_ ⟨h.saxis_.t0, h.saxis_.t0⟩
                      h.precision_).dirDot)),
              fun i => -(E.closestApproach ktraj h.saxis_ ⟨h.saxis_.t0, h.saxis_.t0⟩
                h.precision_).dTdP i⟩,
          base := E.hitUpdate h.base ktraj }, Except.ok ()) := by
  simp only [update, hu, if_true, lit_one]

/-- What `update` leaves when the closest approach is not usable. -/
theorem update_of_unusable (E : ScintHitEnv CAD HB KT) (h : ScintHit CAD HB) (ktraj : KT)
    (hu : (E.closestApproach ktraj h.saxis_ ⟨h.saxis_.t0, h.saxis_.t0⟩ h.precision_).usable
      = false) :
    update E h ktraj = (h, Except.error (Exn.runtime_error "PCA failure")) := by
  simp [update, hu]

/-- The increase of `d²/(1 − d²)` with `|d|` below 1. -/
theorem ratio_mono (d1 d2 : ℝ) (h1 : |d1| < 1) (h2 : |d2| < 1) (h : |d1| ≤ |d2|) :
    d1 * d1 / (1 - d1 * d1) ≤ d2 * d2 / (1 - d2 * d2) := by
  have e1 : d1 * d1 = |d1| * |d1| := (abs_mul_abs_self d1).symm
  have e2 : d2 * d2 = |d2| * |d2| := (abs_mul_abs_self d2).symm
  have n1 := abs_nonneg d1
  have n2 := abs_nonneg d2
  have p1 : 0 < 1 - d1 * d1 := by rw [e1]; nlinarith
  have p2 : 0 < 1 - d2 * d2 := by rw [e2]; nlinarith
  rw [div_le_div_iff p1 p2]
  have hsq : d1 * d1 ≤ d2 * d2 := by rw [e1, e2]; exact mul_le_mul h h n1 n2
  nlinarith

end ScintHit

namespace CentralHelix

end CentralHelix

end KinKal

namespace KinKal

namespace LHelix

open paramIndex

theorem momentumWith_omega (h : LHelix) (t : ℝ) : momentumWith omega h t = h.momentum t := rfl

theorem directionWith_omega (h : LHelix) (t : ℝ) : directionWith omega h t = h.direction t := rfl

theorem dirVectorWith_omega (h : LHelix) (dir : trajdir) (t : ℝ) :
    dirVectorWith omega h dir t = h.dirVector dir t := rfl

theorem momDerivWith_omega (h : LHelix) (dir : trajdir) (t : ℝ) :
    momDerivWith omega h dir t = h.momDeriv dir t := rfl

/-- The azimuth of the shifted helix is differentiable in `ε` once the angular
frequency is. -/
theorem hasDerivAt_phiWith (om : LHelix → ℝ) (h : LHelix) (v : DVec) (t dom : ℝ)
    (hom : HasDerivAt (fun ε : ℝ => om (h.shift v ε)) dom 0) :
    HasDerivAt (fun ε : ℝ => om (h.shift v ε) * (t - (h.shift v ε).t0) + (h.shift v ε).phi0)
      (dom * (t - h.t0) - om h * v t0_ + v phi0_) 0 := by
  have ht0 := (hasDerivAt_param h v t0_).const_sub t
  have := (hom.mul ht0).add (hasDerivAt_param h v phi0_)
  convert this using 1
  simp only [shift_zero]
  change _ = dom * (t - h.t0) + om h * -v t0_ + v phi0_
  ring

/-- The position of the shifted helix is differentiable in `ε` once the
angular frequency is. -/
theorem hasParamDeriv_positionWith (om : LHelix → ℝ) (h : LHelix) (v : DVec) (t dom : ℝ)
    (hom : HasDerivAt (fun ε : ℝ => om (h.shift v ε)) dom 0) :
    HasParamDeriv (fun ε => positionWith om (h.shift v ε) t)
      ⟨v cx_ + v rad_ * Real.sin (om h * (t - h.t0) + h.phi0)
          + h.rad * Real.cos (om h * (t - h.t0) + h.phi0)
            * (dom * (t - h.t0) - om h * v t0_ + v phi0_),
       v cy_ - v rad_ * Real.cos (om h * (t - h.t0) + h.phi0)
          + h.rad * Real.sin (om h * (t - h.t0) + h.phi0)
            * (dom * (t - h.t0) - om h * v t0_ + v phi0_),
       (dom * (t - h.t0) - om h * v t0_) * h.lam + om h * (t - h.t0) * v lam_⟩ := by
  have hphi := hasDerivAt_phiWith om h v t dom hom
  have hdf := hom.mul ((hasDerivAt_param h v t0_).const_sub t)
  refine ⟨?_, ?_, ?_⟩
  · have := (hasDerivAt_param h v cx_).add ((hasDerivAt_param h v rad_).mul hphi.sin)
    convert this using 1
    simp only [shift_zero]
    change _ = v cx_ + (v rad_ * Real.sin (om h * (t - h.t0) + h.phi0)
      + h.rad * (Real.cos (om h * (t - h.t0) + h.phi0)
        * (dom * (t - h.t0) - om h * v t0_ + v phi0_)))
    ring
  · have := (hasDerivAt_param h v cy_).sub ((hasDerivAt_param h v rad_).mul hphi.cos)
    convert this using 1
    simp only [shift_zero]
    change _ = v cy_ - (v rad_ * Real.cos (om h * (t - h.t0) + h.phi0)
      + h.rad * (-Real.sin (om h * (t - h.t0) + h.phi0)
        * (dom * (t - h.t0) - om h * v t0_ + v phi0_)))
    ring
  · have := hdf.mul (hasDerivAt_param h v lam_)
    convert this using 1
    simp only [shift_zero]
    change _ = (dom * (t - h.t0) + om h * -v t0_) * h.lam + om h * (t - h.t0) * v lam_
    ring

end LHelix

end KinKal

namespace KinKal

namespace CentralHelix

end CentralHelix

end KinKal

/-! ## 6. The loop helix: settled properties -/

namespace KinKal
namespace LHelix
open paramIndex

/-- C1. Kinematic round trip: for a position 4-vector and a momentum 4-vector
with mass > 0, nonzero transverse momentum and nonzero z momentum, nonzero
charge and nonzero nominal field, the kinematic constructor returns a helix
whose position at `pos.T` is `(pos.X, pos.Y, pos.Z)` and whose momentum at
`pos.T` is `mom` (same px, py, pz and mass). -/
theorem kinematic_round_trip (pos : Vec4) (mom : Mom4) (charge : ℤ) (bNom : ℝ) (range : TRange)
    (hm : 0 < mom.M) (hpt : mom.Pt ≠ 0) (hpz : mom.Pz ≠ 0) (hq : charge ≠ 0) (hb : bNom ≠ 0) :
    ∃ h : LHelix, ofKinematics pos mom charge bNom range = Except.ok h ∧
      h.position pos.T = ⟨pos.X, pos.Y, pos.Z⟩ ∧ h.momentum pos.T = mom := by
  refine ⟨kinematicHelix pos mom charge bNom range, rfl, ?_, ?_⟩
  all_goals
    obtain ⟨hom, hlam0, hdphi, n, hphi⟩ :=
      kinematicHelix_facts pos mom charge bNom range hpt hpz hq hb
    have hk : (1000.0 : ℝ) / ((charge : ℝ) * bNom * c_) ≠ 0 := by
      have hc := c_pos.ne'
      have hq' : (charge : ℝ) ≠ 0 := by exact_mod_cast hq
      apply div_ne_zero (by norm_num)
      exact mul_ne_zero (mul_ne_zero hq' hb) hc
    have hsin : Real.sin ((kinematicHelix pos mom charge bNom range).phi pos.T)
        = mom.Py / mom.Pt := by
      rw [hphi, Real.sin_add_int_mul_two_pi, Mom4.sin_Phi]
    have hcos : Real.cos ((kinematicHelix pos mom charge bNom range).phi pos.T)
        = mom.Px / mom.Pt := by
      rw [hphi, Real.cos_add_int_mul_two_pi, Mom4.cos_Phi mom hpt]
  · have hrad : (kinematicHelix pos mom charge bNom range).rad
        = -mom.Pt * ((1000.0 : ℝ) / ((charge : ℝ) * bNom * c_)) := rfl
    have hcx : (kinematicHelix pos mom charge bNom range).cx
        = pos.X + mom.Py * ((1000.0 : ℝ) / ((charge : ℝ) * bNom * c_)) := rfl
    have hcy : (kinematicHelix pos mom charge bNom range).cy
        = pos.Y - mom.Px * ((1000.0 : ℝ) / ((charge : ℝ) * bNom * c_)) := rfl
    unfold position
    simp only []
    have hph : (kinematicHelix pos mom charge bNom range).dphi pos.T
        + (kinematicHelix pos mom charge bNom range).phi0
        = (kinematicHelix pos mom charge bNom range).phi pos.T := rfl
    rw [hph, hsin, hcos, hdphi, hrad, hcx, hcy]
    generalize (1000.0 : ℝ) / ((charge : ℝ) * bNom * c_) = K at hk
    ext
    · simp only []; field_simp; try ring
    · simp only []; field_simp; try ring
    · simp only []; field_simp; try ring
  · have hrad : (kinematicHelix pos mom charge bNom range).rad
        = -mom.Pt * ((1000.0 : ℝ) / ((charge : ℝ) * bNom * c_)) := rfl
    have hlam : (kinematicHelix pos mom charge bNom range).lam
        = -mom.Pz * ((1000.0 : ℝ) / ((charge : ℝ) * bNom * c_)) := rfl
    have hmass : (kinematicHelix pos mom charge bNom range).mass_ = mom.M := rfl
    have hmbar : (kinematicHelix pos mom charge bNom range).mbar_
        = -mom.M * ((1000.0 : ℝ) / ((charge : ℝ) * bNom * c_)) := rfl
    unfold momentum
    simp only []
    rw [hsin, hcos, hrad, hlam, hmass, hmbar]
    have hM := hm.ne'
    generalize (1000.0 : ℝ) / ((charge : ℝ) * bNom * c_) = K at hk
    ext
    · simp only []; field_simp; try ring
    · simp only []; field_simp; try ring
    · simp only []; field_simp; try ring
    · rfl

/-- C1 (witness). The round trip at the origin for the momentum (3, 4, 12) of
mass 1, charge -1, unit field. -/
theorem kinematic_round_trip_witness :
    ∃ h : LHelix, ofKinematics ⟨0, 0, 0, 0⟩ ⟨3, 4, 12, 1⟩ (-1) 1 ⟨1, -1⟩ = Except.ok h ∧
      h.position 0 = ⟨0, 0, 0⟩ ∧ h.momentum 0 = ⟨3, 4, 12, 1⟩ :=
  kinematic_round_trip ⟨0, 0, 0, 0⟩ ⟨3, 4, 12, 1⟩ (-1) 1 ⟨1, -1⟩ (by norm_num)
    (by simp only [Mom4.Pt]; norm_num) (by norm_num) (by decide) (by norm_num)

/-- C2 (amended). Basis orthonormality: for every LHelix with mass > 0, reduced
mass mbar ≠ 0 (nonzero charge and nominal field) and rad² + lam² > 0 and every
time t, the three vectors dirVector(theta1, t), dirVector(theta2, t) and
dirVector(momdir, t) each have unit length and are pairwise orthogonal. -/
theorem basis_orthonormal (h : LHelix) (t : ℝ) (hm : 0 < h.mass_) (hmb : h.mbar_ ≠ 0)
    (hp : 0 < h.rad * h.rad + h.lam * h.lam) :
    ∃ u1 u2 u3 : Vec3,
      h.dirVector trajdir.theta1 t = Except.ok u1 ∧
      h.dirVector trajdir.theta2 t = Except.ok u2 ∧
      h.dirVector trajdir.momdir t = Except.ok u3 ∧
      u1.R = 1 ∧ u2.R = 1 ∧ u3.R = 1 ∧
      u1.Dot u2 = 0 ∧ u1.Dot u3 = 0 ∧ u2.Dot u3 = 0 := by
  refine ⟨_, _, _, dirVector_theta1 h t hp, dirVector_theta2 h t,
    dirVector_momdir h t hm hmb hp, ?_⟩
  have hpb := (pbar_pos h hp).ne'
  have hsq := pbar_sq h
  have hs := bendSign_sq h
  have hsc := Real.sin_sq_add_cos_sq (h.phi t)
  have hR : ∀ x y z : ℝ, x * x + y * y + z * z = 1 → Vec3.R ⟨x, y, z⟩ = 1 := by
    intro x y z hxyz
    simp only [Vec3.R, hxyz, Real.sqrt_one]
  refine ⟨hR _ _ _ ?_, hR _ _ _ ?_, hR _ _ _ ?_, ?_, ?_, ?_⟩
  · field_simp
    linear_combination (h.lam ^ 2 * h.bendSign ^ 2) * hsc
      + (h.rad ^ 2 + h.lam ^ 2) * hs - hsq
  · linear_combination hsc
  · field_simp
    linear_combination (h.rad ^ 2 * h.bendSign ^ 2) * hsc
      + (h.rad ^ 2 + h.lam ^ 2) * hs - hsq
  · simp only [Vec3.Dot]; field_simp; ring
  · simp only [Vec3.Dot]; field_simp
    linear_combination (h.bendSign ^ 2 * h.lam * h.rad) * hsc
  · simp only [Vec3.Dot]; field_simp; ring

/-- C2 (witness). The sample helix has an orthonormal basis at t = 0. -/
theorem basis_orthonormal_witness :
    ∃ u1 u2 u3 : Vec3,
      helix345.dirVector trajdir.theta1 0 = Except.ok u1 ∧
      helix345.dirVector trajdir.theta2 0 = Except.ok u2 ∧
      helix345.dirVector trajdir.momdir 0 = Except.ok u3 ∧
      u1.R = 1 ∧ u2.R = 1 ∧ u3.R = 1 ∧
      u1.Dot u2 = 0 ∧ u1.Dot u3 = 0 ∧ u2.Dot u3 = 0 :=
  basis_orthonormal helix345 0 (by rw [helix345_mass]; norm_num) helix345_mbar_pos.ne'
    helix345_sq_pos

/-- C2 (counterexample). The helix built by the parametric constructor with
rad = 3, lam = 4, mass 1 and charge 0 has mass > 0 and rad² + lam² > 0, yet
dirVector(momdir, 0) is the null vector, of length 0: the factor mass/mbar
vanishes (in double arithmetic momToRad = 1000/0 is infinite, mbar is infinite
and mass/mbar is zero), the momentum is null and `Unit` returns the null vector
unchanged. -/
theorem basis_orthonormal_counterexample :
    0 < neutral345.mass_ ∧
    0 < neutral345.rad * neutral345.rad + neutral345.lam * neutral345.lam ∧
    ∃ u3 : Vec3, neutral345.dirVector trajdir.momdir 0 = Except.ok u3 ∧
      u3 = ⟨0, 0, 0⟩ ∧ u3.R ≠ 1 := by
  have hmb : neutral345.mbar_ = 0 := by simp [neutral345, ofParameters]
  have hmom : (neutral345.momentum 0).Vect = ⟨0, 0, 0⟩ := by
    simp [momentum, Mom4.Vect, hmb]
  have hR : (⟨0, 0, 0⟩ : Vec3).R = 0 := by simp [Vec3.R]
  have hdir : neutral345.direction 0 = ⟨0, 0, 0⟩ := by
    rw [direction, hmom, Vec3.Unit, if_pos hR]
  refine ⟨?_, ?_, _, rfl, hdir, ?_⟩
  · change (0 : ℝ) < 1
    norm_num
  · change (0 : ℝ) < 3 * 3 + 4 * 4
    norm_num
  · rw [hdir, hR]; norm_num

/-- C3 (amended). Handedness of the local basis: for every LHelix with
mass > 0, reduced mass mbar ≠ 0 (nonzero charge and field) and rad² + lam² > 0
and every time t, the perpdir vector dirVector(theta1, t) equals phidir × momdir,
that is dirVector(theta2, t) × dirVector(momdir, t), and
dirVector(theta1, t) × dirVector(theta2, t) = dirVector(momdir, t): the frame
(theta1, theta2, momdir) is right-handed in this order. -/
theorem basis_handedness (h : LHelix) (t : ℝ) (hm : 0 < h.mass_) (hmb : h.mbar_ ≠ 0)
    (hp : 0 < h.rad * h.rad + h.lam * h.lam) :
    ∃ u1 u2 u3 : Vec3,
      h.dirVector trajdir.theta1 t = Except.ok u1 ∧
      h.dirVector trajdir.theta2 t = Except.ok u2 ∧
      h.dirVector trajdir.momdir t = Except.ok u3 ∧
      u1 = Vec3.Cross u2 u3 ∧ Vec3.Cross u1 u2 = u3 := by
  refine ⟨_, _, _, dirVector_theta1 h t hp, dirVector_theta2 h t,
    dirVector_momdir h t hm hmb hp, ?_, ?_⟩
  · have hpb := (pbar_pos h hp).ne'
    have hsc := Real.sin_sq_add_cos_sq (h.phi t)
    simp only [Vec3.Cross]
    ext <;> simp only [] <;> field_simp <;>
      first
        | ring1
        | linear_combination (h.bendSign * h.rad * h.pbar ^ 2) * hsc
  · have hpb := (pbar_pos h hp).ne'
    have hsc := Real.sin_sq_add_cos_sq (h.phi t)
    simp only [Vec3.Cross]
    ext <;> simp only [] <;> field_simp <;>
      first
        | ring1
        | linear_combination (h.bendSign * h.lam) * hsc

/-- C3 (witness). The sample helix at t = 0. -/
theorem basis_handedness_witness :
    ∃ u1 u2 u3 : Vec3,
      helix345.dirVector trajdir.theta1 0 = Except.ok u1 ∧
      helix345.dirVector trajdir.theta2 0 = Except.ok u2 ∧
      helix345.dirVector trajdir.momdir 0 = Except.ok u3 ∧
      u1 = Vec3.Cross u2 u3 ∧ Vec3.Cross u1 u2 = u3 :=
  basis_handedness helix345 0 (by rw [helix345_mass]; norm_num) helix345_mbar_pos.ne'
    helix345_sq_pos

/-- C3 (counterexample). For the helix with rad = 3, lam = 4, mass 1, charge -1
in a unit field, at t = 0 the perpdir vector is (4/5, 0, -3/5) while
momdir × phidir is (-4/5, 0, 3/5): dirVector(theta1) is not
dirVector(momdir) × dirVector(theta2). -/
theorem basis_handedness_counterexample :
    0 < helix345.mass_ ∧ 0 < helix345.rad * helix345.rad + helix345.lam * helix345.lam ∧
    ∃ u1 u2 u3 : Vec3,
      helix345.dirVector trajdir.theta1 0 = Except.ok u1 ∧
      helix345.dirVector trajdir.theta2 0 = Except.ok u2 ∧
      helix345.dirVector trajdir.momdir 0 = Except.ok u3 ∧
      u1 = ⟨4 / 5, 0, -3 / 5⟩ ∧ Vec3.Cross u3 u2 = ⟨-4 / 5, 0, 3 / 5⟩ ∧
      u1 ≠ Vec3.Cross u3 u2 := by
  have hm : 0 < helix345.mass_ := by rw [helix345_mass]; norm_num
  have hp := helix345_sq_pos
  have e1 : (⟨helix345.bendSign * helix345.lam * Real.cos (helix345.phi 0) / helix345.pbar,
      helix345.bendSign * helix345.lam * Real.sin (helix345.phi 0) / helix345.pbar,
      -(helix345.bendSign * helix345.rad) / helix345.pbar⟩ : Vec3) = ⟨4 / 5, 0, -3 / 5⟩ := by
    rw [helix345_phi, helix345_bendSign, helix345_pbar, helix345_rad, helix345_lam]
    ext <;> simp
  have e3 : Vec3.Cross
      (⟨helix345.bendSign * helix345.rad * Real.cos (helix345.phi 0) / helix345.pbar,
        helix345.bendSign * helix345.rad * Real.sin (helix345.phi 0) / helix345.pbar,
        helix345.bendSign * helix345.lam / helix345.pbar⟩ : Vec3)
      ⟨-Real.sin (helix345.phi 0), Real.cos (helix345.phi 0), 0⟩ = ⟨-4 / 5, 0, 3 / 5⟩ := by
    rw [helix345_phi, helix345_bendSign, helix345_pbar, helix345_rad, helix345_lam]
    simp only [Vec3.Cross]
    ext <;> simp <;> norm_num
  refine ⟨hm, hp, _, _, _, dirVector_theta1 _ 0 hp, dirVector_theta2 _ 0,
    dirVector_momdir _ 0 hm helix345_mbar_pos.ne' hp, e1, e3, ?_⟩
  rw [e1, e3]
  intro hEq
  have := congrArg Vec3.X hEq
  norm_num at this

/-- With the angular frequency as the specification words it,
`copysign(c, mbar)/sqrt(rad² + lam²)`, the `momdir` column does not hold the
position fixed: for the helix with rad = 3, lam = 4, mass 1, charge -1 in a
unit field, the Jacobian of position(1) applied to momDeriv(momdir, 1) is not
the zero vector. -/
theorem spec_omega_moves_position :
    helix345.rad ≠ 0 ∧ helix345.lam ≠ 0 ∧
    ∃ v, helix345.momDeriv trajdir.momdir 1 = Except.ok v ∧
      ¬ HasParamDeriv (fun ε => (helix345.shift v ε).position 1) ⟨0, 0, 0⟩ := by
  refine ⟨by rw [helix345_rad]; norm_num, by rw [helix345_lam]; norm_num,
    _, momDeriv_momdir helix345 1, ?_⟩
  intro H
  have D := hasParamDeriv_positionWith omega helix345 (momDerivMomdir helix345 1) 1
    (dOmega helix345 (momDerivMomdir helix345 1)) (hasDerivAt_omega helix345 _ helix345_sq_pos)
  have hz : (dOmega helix345 (momDerivMomdir helix345 1) * (1 - helix345.t0)
      - helix345.omega * ((1 - helix345.t0) * (1 - helix345.beta * helix345.beta)))
        * helix345.lam + helix345.omega * (1 - helix345.t0) * helix345.lam = 0 :=
    D.2.2.unique H.2.2
  rw [dOmega_momdir _ _ helix345_sq_pos, helix345_lam] at hz
  apply helix345_drift_ne_zero
  linarith

/-- C6. momDeriv returns the closed forms of the specification: for every
LHelix and time t, with phi = omega·(t − t0) + phi0, the components written for
(rad, lam, t0, phi0, cx, cy) are
(lam, −rad, −(t−t0)·rad/lam, −omega·(t−t0)·rad/lam, −lam·sin phi, lam·cos phi) for theta1,
(0, 0, 0, sign(omega)·pbar/rad, −sign(omega)·pbar·cos phi, −sign(omega)·pbar·sin phi)
for theta2, and
(rad, lam, (t−t0)·(1−beta²), omega·(t−t0), −rad·sin phi, rad·cos phi) for momdir. -/
theorem momDeriv_closed_forms (h : LHelix) (t : ℝ) :
    (∃ v, h.momDeriv trajdir.theta1 t = Except.ok v ∧
      v rad_ = h.lam ∧ v lam_ = -h.rad ∧
      v t0_ = -(t - h.t0) * h.rad / h.lam ∧
      v phi0_ = -h.omega * (t - h.t0) * h.rad / h.lam ∧
      v cx_ = -h.lam * Real.sin (h.omega * (t - h.t0) + h.phi0) ∧
      v cy_ = h.lam * Real.cos (h.omega * (t - h.t0) + h.phi0)) ∧
    (∃ v, h.momDeriv trajdir.theta2 t = Except.ok v ∧
      v rad_ = 0 ∧ v lam_ = 0 ∧ v t0_ = 0 ∧
      v phi0_ = Real.sign h.omega * h.pbar / h.rad ∧
      v cx_ = -Real.sign h.omega * h.pbar * Real.cos (h.omega * (t - h.t0) + h.phi0) ∧
      v cy_ = -Real.sign h.omega * h.pbar * Real.sin (h.omega * (t - h.t0) + h.phi0)) ∧
    (∃ v, h.momDeriv trajdir.momdir t = Except.ok v ∧
      v rad_ = h.rad ∧ v lam_ = h.lam ∧
      v t0_ = (t - h.t0) * (1 - h.beta ^ 2) ∧
      v phi0_ = h.omega * (t - h.t0) ∧
      v cx_ = -h.rad * Real.sin (h.omega * (t - h.t0) + h.phi0) ∧
      v cy_ = h.rad * Real.cos (h.omega * (t - h.t0) + h.phi0)) := by
  have hs := copysign_one_mul_pbar h
  have hs' : -copysign 1 h.omega * h.pbar = -Real.sign h.omega * h.pbar := by
    rw [neg_mul, neg_mul, hs]
  refine ⟨⟨_, momDeriv_theta1 h t, rfl, rfl, rfl, rfl, rfl, rfl⟩,
    ⟨_, momDeriv_theta2 h t, rfl, rfl, rfl, ?_, ?_, ?_⟩,
    ⟨_, momDeriv_momdir h t, rfl, rfl, ?_, rfl, rfl, rfl⟩⟩
  · exact congrArg (fun x => x / h.rad) hs
  · exact congrArg (fun x => x * Real.cos (h.phi t)) hs'
  · exact congrArg (fun x => x * Real.sin (h.phi t)) hs'
  · show (t - h.t0) * (1 - h.beta * h.beta) = (t - h.t0) * (1 - h.beta ^ 2)
    rw [sq]

/-- C7. Invalid basis is rejected: dirVector and momDeriv raise the
invalid-argument error exactly when the direction is none of theta1, theta2,
momdir, and return a value for each of those three. -/
theorem invalid_direction_rejected (h : LHelix) (dir : trajdir) (t : ℝ) :
    (h.dirVector dir t = Except.error (Exn.invalid_argument "Invalid direction") ↔
      (dir ≠ trajdir.theta1 ∧ dir ≠ trajdir.theta2 ∧ dir ≠ trajdir.momdir)) ∧
    (h.momDeriv dir t = Except.error (Exn.invalid_argument "Invalid direction") ↔
      (dir ≠ trajdir.theta1 ∧ dir ≠ trajdir.theta2 ∧ dir ≠ trajdir.momdir)) ∧
    ((dir = trajdir.theta1 ∨ dir = trajdir.theta2 ∨ dir = trajdir.momdir) →
      (∃ u, h.dirVector dir t = Except.ok u) ∧ ∃ v, h.momDeriv dir t = Except.ok v) ∧
    ((∃ u, h.dirVector dir t = Except.ok u) ∨
      h.dirVector dir t = Except.error (Exn.invalid_argument "Invalid direction")) ∧
    ((∃ v, h.momDeriv dir t = Except.ok v) ∨
      h.momDeriv dir t = Except.error (Exn.invalid_argument "Invalid direction")) := by
  have ok1 : ∀ d, d = trajdir.theta1 ∨ d = trajdir.theta2 ∨ d = trajdir.momdir →
      ∃ u, h.dirVector d t = Except.ok u := by
    rintro d (rfl | rfl | rfl) <;> exact ⟨_, rfl⟩
  have ok2 : ∀ d, d = trajdir.theta1 ∨ d = trajdir.theta2 ∨ d = trajdir.momdir →
      ∃ v, h.momDeriv d t = Except.ok v := by
    rintro d (rfl | rfl | rfl) <;> exact ⟨_, rfl⟩
  have er1 : ∀ raw, h.dirVector (trajdir.other raw) t
      = Except.error (Exn.invalid_argument "Invalid direction") := fun _ => rfl
  have er2 : ∀ raw, h.momDeriv (trajdir.other raw) t
      = Except.error (Exn.invalid_argument "Invalid direction") := fun _ => rfl
  cases dir with
  | theta1 =>
    obtain ⟨u, hu⟩ := ok1 _ (Or.inl rfl)
    obtain ⟨v, hv⟩ := ok2 _ (Or.inl rfl)
    simp [hu, hv]
  | theta2 =>
    obtain ⟨u, hu⟩ := ok1 _ (Or.inr (Or.inl rfl))
    obtain ⟨v, hv⟩ := ok2 _ (Or.inr (Or.inl rfl))
    simp [hu, hv]
  | momdir =>
    obtain ⟨u, hu⟩ := ok1 _ (Or.inr (Or.inr rfl))
    obtain ⟨v, hv⟩ := ok2 _ (Or.inr (Or.inr rfl))
    simp [hu, hv]
  | other raw => simp [er1, er2]

/-- C8 (amended). The kinematic constructor performs no validation: for every
input it returns a helix, with rad = −pt·momToRad and lam = −pz·momToRad where
momToRad = 1000/(charge·bNom·c), so that rad = 0 when the transverse momentum is
zero and lam = 0 when the z momentum is zero; t0 is always computed as
pos.T − pos.Z/(omega·lam). -/
theorem degenerate_helix_constructed (pos : Vec4) (mom : Mom4) (charge : ℤ) (bNom : ℝ)
    (range : TRange) :
    ∃ h : LHelix, ofKinematics pos mom charge bNom range = Except.ok h ∧
      h.rad = -mom.Pt * (1000 / ((charge : ℝ) * bNom * c_)) ∧
      h.lam = -mom.Pz * (1000 / ((charge : ℝ) * bNom * c_)) ∧
      (mom.Pt = 0 → h.rad = 0) ∧ (mom.Pz = 0 → h.lam = 0) ∧
      h.t0 = pos.T - pos.Z / (h.omega * h.lam) := by
  have hlit : (1000.0 : ℝ) = 1000 := by norm_num
  have hrad : (kinematicHelix pos mom charge bNom range).rad
      = -mom.Pt * (1000 / ((charge : ℝ) * bNom * c_)) := by
    rw [← hlit]; rfl
  have hlam : (kinematicHelix pos mom charge bNom range).lam
      = -mom.Pz * (1000 / ((charge : ℝ) * bNom * c_)) := by
    rw [← hlit]; rfl
  refine ⟨kinematicHelix pos mom charge bNom range, rfl, hrad, hlam, ?_, ?_, rfl⟩
  · intro h0; rw [hrad, h0]; simp
  · intro h0; rw [hlam, h0]; simp

/-- C8 (counterexample). The kinematic constructor is given momenta with zero
z component, (3, 0, 0), and with zero transverse component, (0, 0, 4), both of
mass 1 with charge -1 in a unit field: it returns a helix in both cases, with
lam = 0 in the first and rad = 0 in the second. -/
theorem degenerate_helix_constructed_counterexample :
    (∃ h : LHelix, ofKinematics ⟨0, 0, 0, 0⟩ ⟨3, 0, 0, 1⟩ (-1) 1 ⟨1, -1⟩ = Except.ok h ∧
      (⟨3, 0, 0, 1⟩ : Mom4).Pz = 0 ∧ h.lam = 0) ∧
    (∃ h : LHelix, ofKinematics ⟨0, 0, 0, 0⟩ ⟨0, 0, 4, 1⟩ (-1) 1 ⟨1, -1⟩ = Except.ok h ∧
      (⟨0, 0, 4, 1⟩ : Mom4).Pt = 0 ∧ h.rad = 0) := by
  refine ⟨⟨_, rfl, rfl, ?_⟩, ⟨_, rfl, ?_, ?_⟩⟩
  · change -(0 : ℝ) * _ = 0
    simp
  · simp [Mom4.Pt]
  · change -(Mom4.Pt ⟨0, 0, 4, 1⟩) * _ = 0
    simp [Mom4.Pt]

end LHelix

/-! ## 7. The material effect: settled properties -/

namespace Material

variable {KT PK FS : Type}

/-- C9. Material processing order: for an active crossing, a fit state S and a
cache C, process(S, forwards) yields the state S' = S.append(effect, forwards)
and the cache C + weights(S'), while process(S, backwards) yields the cache
C + weights(S) and the state S.append(effect, backwards); in both directions
the effect is marked processed for that direction. -/
theorem process_order (F : FitStateOps FS) (m : Material KT) (S : FS)
    (hact : m.active = true) :
    (process F m S TimeDir.forwards).2 = F.append S m.mateff_ TimeDir.forwards ∧
    (process F m S TimeDir.forwards).1.cache_
      = m.cache_ + F.wData (F.append S m.mateff_ TimeDir.forwards) ∧
    (process F m S TimeDir.backwards).1.cache_ = m.cache_ + F.wData S ∧
    (process F m S TimeDir.backwards).2 = F.append S m.mateff_ TimeDir.backwards ∧
    (process F m S TimeDir.forwards).1.state.isProcessed TimeDir.forwards = true ∧
    (process F m S TimeDir.backwards).1.state.isProcessed TimeDir.backwards = true := by
  rw [process_forwards_active F m S hact, process_backwards_active F m S hact]
  exact ⟨rfl, rfl, rfl, rfl, setProcessed_isProcessed _ _, setProcessed_isProcessed _ _⟩

/-- C9 (witness). The sample effect on the empty fit state. -/
theorem process_order_witness :
    (process sampleFitState sampleMaterial Weights.empty TimeDir.forwards).2
      = sampleFitState.append Weights.empty sampleMaterial.mateff_ TimeDir.forwards ∧
    (process sampleFitState sampleMaterial Weights.empty TimeDir.backwards).1.cache_
      = sampleMaterial.cache_ + sampleFitState.wData Weights.empty :=
  ⟨(process_order sampleFitState sampleMaterial Weights.empty rfl).1,
    (process_order sampleFitState sampleMaterial Weights.empty rfl).2.2.1⟩

/-- C10. The cache counts the effect's own noise once: when the Material is
active after update(ref), which resets the cache to the empty Weights, one
forward process on the state Sf followed by one backward process on the state
Sb leaves the cache equal to weights(Sf.append(effect, forwards)) + weights(Sb),
the effect being the one computed by update. -/
theorem cache_counts_effect_once (E : MaterialEnv PK KT) (F : FitStateOps FS) (m : Material KT)
    (ref : PK) (Sf Sb : FS) (hact : (update E m ref).active = true) :
    (process F (process F (update E m ref) Sf TimeDir.forwards).1 Sb TimeDir.backwards).1.cache_
      = F.wData (F.append Sf (update E m ref).mateff_ TimeDir.forwards) + F.wData Sb := by
  have ha : (update E m ref).exing_.active = true := hact
  rw [process_forwards_active F _ Sf ha]
  rw [process_backwards_active F _ Sb (by exact ha)]
  simp only [update_cache, Weights.empty_add]

/-- C10 (witness). The sample effect updated in the sample environment, then
processed forwards and backwards on the empty fit state. -/
theorem cache_counts_effect_once_witness :
    (process sampleFitState
        (process sampleFitState (update sampleEnv sampleMaterial ()) Weights.empty
          TimeDir.forwards).1 Weights.empty TimeDir.backwards).1.cache_
      = sampleFitState.wData (sampleFitState.append Weights.empty
          (update sampleEnv sampleMaterial ()).mateff_ TimeDir.forwards)
        + sampleFitState.wData Weights.empty :=
  cache_counts_effect_once sampleEnv sampleFitState sampleMaterial () Weights.empty
    Weights.empty rfl

end Material
end KinKal

/-! ## 8. Measurement, scintillator hit and time range: settled properties -/

namespace KinKal

namespace Measurement

variable {H FS : Type}

/-- C11. Measurement processing is direction-independent: for every fit state
S, process(S, forwards) and process(S, backwards) produce the same state,
namely S.append(weight()) when the hit is active and S unchanged when the hit
is inactive. -/
theorem process_direction_independent (O : HitOps H) (appendWeights : FS → Weights → FS)
    (m : Measurement H) (S : FS) :
    process O appendWeights m S TimeDir.forwards
      = process O appendWeights m S TimeDir.backwards ∧
    (m.active O = true → ∀ tdir,
      process O appendWeights m S tdir = appendWeights S (m.weight O)) ∧
    (m.active O = false → ∀ tdir, process O appendWeights m S tdir = S) := by
  refine ⟨rfl, ?_, ?_⟩
  · intro ha tdir
    simp [process, ha]
  · intro ha tdir
    simp [process, ha]

end Measurement

namespace ScintHit

variable {CAD HB KT : Type}

/-- C12. ScintHit residual: whenever update(ktraj) finds a usable closest
approach, the call returns normally and the stored residual has value = the
CA's deltaT, variance = tvar + wvar·d²/(speed²·(1 − d²)) with d the CA's dirDot
and speed the sensor-axis speed, and derivative vector dRdP = −dTdP of the CA;
the stored closest-approach data is the new CA's data. -/
theorem update_residual (E : ScintHitEnv CAD HB KT) (h : ScintHit CAD HB) (ktraj : KT)
    (hu : (E.closestApproach ktraj h.saxis_ ⟨h.saxis_.t0, h.saxis_.t0⟩ h.precision_).usable
      = true) :
    (update E h ktraj).2 = Except.ok () ∧
    (update E h ktraj).1.rresid_.value
      = (E.closestApproach ktraj h.saxis_ ⟨h.saxis_.t0, h.saxis_.t0⟩ h.precision_).deltaT ∧
    (update E h ktraj).1.rresid_.variance
      = h.tvar_ + h.wvar_
          * (E.closestApproach ktraj h.saxis_ ⟨h.saxis_.t0, h.saxis_.t0⟩ h.precision_).dirDot ^ 2
          / (h.saxis_.speed ^ 2 * (1 -
            (E.closestApproach ktraj h.saxis_ ⟨h.saxis_.t0, h.saxis_.t0⟩
              h.precision_).dirDot ^ 2)) ∧
    (∀ i, (update E h ktraj).1.rresid_.dRdP i
      = -(E.closestApproach ktraj h.saxis_ ⟨h.saxis_.t0, h.saxis_.t0⟩ h.precision_).dTdP i) ∧
    (update E h ktraj).1.tpdata_
      = (E.closestApproach ktraj h.saxis_ ⟨h.saxis_.t0, h.saxis_.t0⟩ h.precision_).tpData := by
  simp only [update, hu, if_true, lit_one, sq]
  exact ⟨trivial, trivial, trivial, fun _ => trivial, trivial⟩

/-- C12 (witness). The sample hit updated with the sample computation: the
residual is (3, 1 + 3·(1/4)/(4·(3/4)), −1). -/
theorem update_residual_witness :
    (update sampleScintEnv sampleHit ()).2 = Except.ok () ∧
    (update sampleScintEnv sampleHit ()).1.rresid_.value = 3 ∧
    (update sampleScintEnv sampleHit ()).1.rresid_.variance = 5 / 4 ∧
    (∀ i, (update sampleScintEnv sampleHit ()).1.rresid_.dRdP i = -1) ∧
    (update sampleScintEnv sampleHit ()).1.tpdata_ = 2 := by
  have h := update_residual sampleScintEnv sampleHit () rfl
  refine ⟨h.1, h.2.1, ?_, h.2.2.2.1, h.2.2.2.2⟩
  rw [h.2.2.1]
  simp only [sampleScintEnv, sampleHit]
  norm_num

/-- C13. ScintHit update failure is reported and atomic: update(ktraj) raises
the PCA-failure error if and only if the closest-approach computation is not
usable, it returns normally otherwise, and when it raises, the hit (so its
stored closest-approach data and residual) is exactly what it was before the
call. -/
theorem update_failure_atomic (E : ScintHitEnv CAD HB KT) (h : ScintHit CAD HB) (ktraj : KT) :
    ((update E h ktraj).2 = Except.error (Exn.runtime_error "PCA failure") ↔
      (E.closestApproach ktraj h.saxis_ ⟨h.saxis_.t0, h.saxis_.t0⟩ h.precision_).usable
        = false) ∧
    ((update E h ktraj).2 = Except.ok () ↔
      (E.closestApproach ktraj h.saxis_ ⟨h.saxis_.t0, h.saxis_.t0⟩ h.precision_).usable
        = true) ∧
    ((update E h ktraj).2 = Except.error (Exn.runtime_error "PCA failure") →
      (update E h ktraj).1 = h ∧
      (update E h ktraj).1.tpdata_ = h.tpdata_ ∧
      (update E h ktraj).1.rresid_ = h.rresid_) := by
  cases hu : (E.closestApproach ktraj h.saxis_ ⟨h.saxis_.t0, h.saxis_.t0⟩ h.precision_).usable
  · simp [update, hu]
  · simp [update, hu]

end ScintHit

namespace TRange

/-- C20 (amended). TRange is half-open: inRange(t) holds if and only if
low > high or (low ≤ t and t < high); hence for a range with low < high the
lower bound is included, for a range with low ≤ high the upper bound is
excluded, a range with low = high contains no time, and the
default-constructed range (1, −1) contains every time. -/
theorem inRange_half_open (r : TRange) (t : ℝ) :
    (r.inRange t = true ↔ (r.low > r.high ∨ (r.low ≤ t ∧ t < r.high))) ∧
    (r.low < r.high → r.inRange r.low = true) ∧
    (r.low ≤ r.high → r.inRange r.high = false) ∧
    (r.low = r.high → r.inRange t = false) ∧
    TRange.default.low = 1 ∧ TRange.default.high = -1 ∧
    TRange.default.inRange t = true := by
  refine ⟨?_, ?_, ?_, ?_, ?_, ?_, ?_⟩
  · simp [inRange]
  · intro h
    simp [inRange, h]
  · intro h
    simp [inRange, not_lt.mpr h]
  · intro h
    simp only [inRange, h, gt_iff_lt, lt_irrefl, decide_False, Bool.false_or,
      Bool.and_eq_false_iff, decide_eq_false_iff_not, not_le, not_lt, ge_iff_le]
    exact lt_or_le t r.high
  · simp only [TRange.default]; norm_num
  · simp only [TRange.default]; norm_num
  · simp [inRange, TRange.default]
    norm_num

/-- C20 (counterexample). The range (0, 0) has low ≤ high, yet its lower
bound 0 is not in range. -/
theorem inRange_half_open_counterexample :
    (⟨0, 0⟩ : TRange).low ≤ (⟨0, 0⟩ : TRange).high ∧
    TRange.inRange ⟨0, 0⟩ (⟨0, 0⟩ : TRange).low = false := by
  simp [inRange]

end TRange

end KinKal

/-! ## 9. Material effects of a crossing: settled properties -/

namespace KinKal

namespace ElementXing

variable {KT : Type}

/-- C14. materialEffects accumulation: for a trajectory with momentum p ≠ 0 and
mass m at the crossing time, with f = sqrt(p² + m²)/p² (negated when the time
direction is backwards), materialEffects adds Σ energyLoss(p, plen_i, m)·f to
dmom[momdir], Σ energyLossVar(p, plen_i, m)·f² to momvar[momdir], and
Σ scatterAngleVar(p, plen_i, m) to each of momvar[perpdir] and momvar[phidir],
summed over the material crossings; dmom[perpdir] and dmom[phidir] are left
exactly as passed in. -/
theorem materialEffects_accumulation (K : KTrajOps KT) (x : ElementXing) (pktraj : KT)
    (tdir : TimeDir) (dmom momvar : MomBasis.Direction → ℝ)
    (_hp : K.momentum pktraj x.time ≠ 0) :
    (x.materialEffects K pktraj tdir dmom momvar).1 MomBasis.Direction.momdir_
      = dmom MomBasis.Direction.momdir_
        + x.sumOver (fun a =>
            a.dmat_.energyLoss (K.momentum pktraj x.time) a.plen_ (K.mass pktraj)
              * dmFdE (K.momentum pktraj x.time) (K.mass pktraj) tdir) ∧
    (x.materialEffects K pktraj tdir dmom momvar).2 MomBasis.Direction.momdir_
      = momvar MomBasis.Direction.momdir_
        + x.sumOver (fun a =>
            a.dmat_.energyLossVar (K.momentum pktraj x.time) a.plen_ (K.mass pktraj)
              * dmFdE (K.momentum pktraj x.time) (K.mass pktraj) tdir ^ 2) ∧
    (x.materialEffects K pktraj tdir dmom momvar).2 MomBasis.Direction.perpdir_
      = momvar MomBasis.Direction.perpdir_
        + x.sumOver (fun a =>
            a.dmat_.scatterAngleVar (K.momentum pktraj x.time) a.plen_ (K.mass pktraj)) ∧
    (x.materialEffects K pktraj tdir dmom momvar).2 MomBasis.Direction.phidir_
      = momvar MomBasis.Direction.phidir_
        + x.sumOver (fun a =>
            a.dmat_.scatterAngleVar (K.momentum pktraj x.time) a.plen_ (K.mass pktraj)) ∧
    (x.materialEffects K pktraj tdir dmom momvar).1 MomBasis.Direction.perpdir_
      = dmom MomBasis.Direction.perpdir_ ∧
    (x.materialEffects K pktraj tdir dmom momvar).1 MomBasis.Direction.phidir_
      = dmom MomBasis.Direction.phidir_ := by
  obtain ⟨l, t⟩ := x
  obtain ⟨h1, h2, h3, h4, h5, h6⟩ := materialEffects_entries K l t pktraj tdir dmom momvar
  refine ⟨h1, ?_, h5, h6, h2, h3⟩
  rw [h4]
  simp only [sumOver, sq, mul_assoc]

/-- C14 (witness). Two crossings of a material whose functions are constant 1,
momentum 3 and mass 4, forwards from null arrays: f = 5/9, so dmom[momdir] is
10/9, momvar[momdir] is 50/81 and the two scattering entries are 2. -/
theorem materialEffects_accumulation_witness :
    (sampleXing.materialEffects sampleTraj () TimeDir.forwards (fun _ => 0) (fun _ => 0)).1
        MomBasis.Direction.momdir_ = 10 / 9 ∧
    (sampleXing.materialEffects sampleTraj () TimeDir.forwards (fun _ => 0) (fun _ => 0)).2
        MomBasis.Direction.momdir_ = 50 / 81 ∧
    (sampleXing.materialEffects sampleTraj () TimeDir.forwards (fun _ => 0) (fun _ => 0)).2
        MomBasis.Direction.perpdir_ = 2 ∧
    (sampleXing.materialEffects sampleTraj () TimeDir.forwards (fun _ => 0) (fun _ => 0)).1
        MomBasis.Direction.perpdir_ = 0 := by
  have h := materialEffects_accumulation sampleTraj sampleXing () TimeDir.forwards
    (fun _ => 0) (fun _ => 0) (by simp [sampleTraj])
  have hs : Real.sqrt (3 * 3 + 4 * 4) = 5 := by
    rw [show (3 * 3 + 4 * 4 : ℝ) = 5 * 5 by norm_num, Real.sqrt_mul_self (by norm_num)]
  have hf : dmFdE 3 4 TimeDir.forwards = 5 / 9 := by
    rw [dmFdE, if_neg (by decide), hs]
    norm_num
  refine ⟨?_, ?_, ?_, h.2.2.2.2.1⟩
  · rw [h.1]
    simp only [sumOver, sampleXing, sampleTraj, hf]
    norm_num
  · rw [h.2.1]
    simp only [sumOver, sampleXing, sampleTraj, hf]
    norm_num
  · rw [h.2.2.1]
    simp only [sumOver, sampleXing, sampleTraj]
    norm_num

/-- C15. Time reversal of material effects: for the same crossing, trajectory
and initial arrays, the increment that materialEffects adds to dmom[momdir]
with direction backwards is the exact negative of the increment added with
direction forwards, while the increments added to all three momvar entries are
identical in the two directions. -/
theorem materialEffects_time_reversal (K : KTrajOps KT) (x : ElementXing) (pktraj : KT)
    (dmom momvar : MomBasis.Direction → ℝ) :
    (x.materialEffects K pktraj TimeDir.backwards dmom momvar).1 MomBasis.Direction.momdir_
        - dmom MomBasis.Direction.momdir_
      = -((x.materialEffects K pktraj TimeDir.forwards dmom momvar).1 MomBasis.Direction.momdir_
        - dmom MomBasis.Direction.momdir_) ∧
    ∀ d, (x.materialEffects K pktraj TimeDir.backwards dmom momvar).2 d - momvar d
      = (x.materialEffects K pktraj TimeDir.forwards dmom momvar).2 d - momvar d := by
  obtain ⟨l, t⟩ := x
  obtain ⟨b1, -, -, b4, b5, b6⟩ :=
    materialEffects_entries K l t pktraj TimeDir.backwards dmom momvar
  obtain ⟨f1, -, -, f4, f5, f6⟩ :=
    materialEffects_entries K l t pktraj TimeDir.forwards dmom momvar
  constructor
  · rw [b1, f1, dmFdE_backwards]
    simp only [List.sum_map_mul_right]
    ring
  · intro d
    cases d
    · rw [b4, f4, dmFdE_backwards]
      simp only [mul_neg, neg_mul, neg_neg]
    · rw [b5, f5]
    · rw [b6, f6]

end ElementXing

namespace Material

variable {KT : Type}

/-- C16. Material effect in parameter space: for an active crossing, after
updateCache the effect's parameter vector equals Σ_i v_i·dmom[i] and its
covariance equals Σ_i (momvar[i]·vscale)·v_i·v_iᵀ, where i runs over the three
momentum-basis directions, v_i = |p|·dPdM·direction(i) at the effect time, and
dmom, momvar are the forward-time materialEffects started from zero; the
parameter shift does not depend on the annealing scale vscale and the
covariance is linear in it. -/
theorem updateCache_parameter_space (K : KTrajOps KT) (m : Material KT)
    (hact : m.active = true) :
    (∀ i, (updateCache K m).mateff_.parameters i
      = momVector K m MomBasis.Direction.momdir_ i
          * (m.exing_.materialEffects K m.ref_ TimeDir.forwards (fun _ => 0) (fun _ => 0)).1
              MomBasis.Direction.momdir_
        + momVector K m MomBasis.Direction.perpdir_ i
          * (m.exing_.materialEffects K m.ref_ TimeDir.forwards (fun _ => 0) (fun _ => 0)).1
              MomBasis.Direction.perpdir_
        + momVector K m MomBasis.Direction.phidir_ i
          * (m.exing_.materialEffects K m.ref_ TimeDir.forwards (fun _ => 0) (fun _ => 0)).1
              MomBasis.Direction.phidir_) ∧
    (∀ i j, (updateCache K m).mateff_.covariance i j
      = ((m.exing_.materialEffects K m.ref_ TimeDir.forwards (fun _ => 0) (fun _ => 0)).2
              MomBasis.Direction.momdir_ * m.vscale_)
          * (momVector K m MomBasis.Direction.momdir_ i
            * momVector K m MomBasis.Direction.momdir_ j)
        + ((m.exing_.materialEffects K m.ref_ TimeDir.forwards (fun _ => 0) (fun _ => 0)).2
              MomBasis.Direction.perpdir_ * m.vscale_)
          * (momVector K m MomBasis.Direction.perpdir_ i
            * momVector K m MomBasis.Direction.perpdir_ j)
        + ((m.exing_.materialEffects K m.ref_ TimeDir.forwards (fun _ => 0) (fun _ => 0)).2
              MomBasis.Direction.phidir_ * m.vscale_)
          * (momVector K m MomBasis.Direction.phidir_ i
            * momVector K m MomBasis.Direction.phidir_ j)) ∧
    (∀ s, (updateCache K (m.withScale s)).mateff_.parameters
      = (updateCache K m).mateff_.parameters) ∧
    (∀ s i j, (updateCache K (m.withScale s)).mateff_.covariance i j
      = s * (updateCache K (m.withScale 1)).mateff_.covariance i j) := by
  have ha : m.exing_.active = true := hact
  obtain ⟨hp, hc⟩ := updateCache_active K m ha
  refine ⟨hp, ?_, ?_, ?_⟩
  · intro i j
    rw [hc]
    ring
  · intro s
    funext i
    rw [hp, (updateCache_active K (m.withScale s) ha).1]
    rfl
  · intro s i j
    rw [(updateCache_active K (m.withScale s) ha).2, (updateCache_active K (m.withScale 1) ha).2]
    simp only [withScale, momVector, Material.time]
    ring

/-- C16 (witness). The sample effect: one crossing, unit momentum, mass and
derivatives. -/
theorem updateCache_parameter_space_witness :
    (∀ s, (updateCache sampleEnv.ktraj (sampleMaterial.withScale s)).mateff_.parameters
      = (updateCache sampleEnv.ktraj sampleMaterial).mateff_.parameters) ∧
    (∀ s i j, (updateCache sampleEnv.ktraj (sampleMaterial.withScale s)).mateff_.covariance i j
      = s * (updateCache sampleEnv.ktraj (sampleMaterial.withScale 1)).mateff_.covariance i j) :=
  (updateCache_parameter_space sampleEnv.ktraj sampleMaterial rfl).2.2

end Material

end KinKal

/-! ## 10. Appending a material effect: settled properties -/

namespace KinKal

namespace Material

variable {KT : Type}

/-- C17. Range of the appended piece: for an active Material whose effect time
is not earlier than the begin of the trajectory's back piece, append hands the
piecewise trajectory, unchanged, a piece with parameters converted from the
cached Weights and range exactly [time, max(time + TBUFF, fit.range().end())),
so the piece's range has length at least TBUFF = 1e-6. -/
theorem append_piece_range (T : KTrajRangeOps KT) (toParameters : Weights → Parameters)
    (pkAppend : ParticleTrajectory KT → KT → ParticleTrajectory KT)
    (m : Material KT) (fit : ParticleTrajectory KT) (hact : m.active = true)
    (ht : (T.range fit.back).low ≤ m.time) :
    ∃ newpiece : KT,
      appendCall T toParameters m fit = some (fit, newpiece) ∧
      append T toParameters pkAppend m fit = pkAppend fit newpiece ∧
      T.params newpiece = toParameters m.cache_ ∧
      T.range newpiece = ⟨m.time, max (m.time + tbuff_) (fit.range T).high⟩ ∧
      tbuff_ ≤ (T.range newpiece).high - (T.range newpiece).low ∧
      tbuff_ = 1 / 1000000 := by
  have hc := appendCall_in_order T toParameters m fit hact ht
  refine ⟨_, hc, ?_, ?_, ?_, ?_, tbuff_eq⟩
  · simp only [append, hc]
  · rw [T.params_setRange, T.params_setParams]
  · rw [T.range_setRange]
  · rw [T.range_setRange]
    have := le_max_left (m.time + tbuff_) (fit.range T).high
    simp only
    linarith

/-- C17 (witness). The sample effect, of time 1 + TBUFF, appended to the
one-piece trajectory over (0, 10): the new piece has range (1 + TBUFF, 10). -/
theorem append_piece_range_witness :
    ∃ newpiece : SamplePiece,
      appendCall sampleRangeOps sampleToParameters pieceMaterial fitEarly
        = some (fitEarly, newpiece) ∧
      newpiece.range.low = 1 + tbuff_ ∧ newpiece.range.high = 10 := by
  obtain ⟨np, hc, -, -, hr, -, -⟩ :=
    append_piece_range sampleRangeOps sampleToParameters (fun f _ => f) pieceMaterial fitEarly
      rfl (by
        have := tbuff_pos
        simp only [sampleRangeOps, fitEarly, ParticleTrajectory.back, List.getLast_singleton,
          Material.time, pieceMaterial]
        linarith)
  refine ⟨np, hc, ?_, ?_⟩
  · have := congrArg TRange.low hr
    simpa [sampleRangeOps, Material.time, pieceMaterial] using this
  · have := congrArg TRange.high hr
    have hb : 1 + tbuff_ + tbuff_ ≤ 10 := by rw [tbuff_eq]; norm_num
    simpa [sampleRangeOps, Material.time, pieceMaterial, ParticleTrajectory.range,
      ParticleTrajectory.back, fitEarly, hb] using this

/-- C18. Clamping on out-of-order append: for an active Material whose effect
time is earlier than the begin of the trajectory's back piece, if the
trajectory has exactly one piece then that piece's range is reset to
[time − TBUFF, fit.range().end()) and the new piece keeps begin = time;
otherwise the new piece's range is reset to
[back.begin + TBUFF, fit.range().end()); in every case (clamped or not) the
piece passed to fit.append begins no earlier than the begin of the piece that
is then at the back. -/
theorem append_clamping (T : KTrajRangeOps KT) (toParameters : Weights → Parameters)
    (m : Material KT) (fit : ParticleTrajectory KT) (hact : m.active = true) :
    (m.time < (T.range fit.back).low → fit.pieces.length = 1 →
      ∃ fit1 newpiece, appendCall T toParameters m fit = some (fit1, newpiece) ∧
        fit1.later = fit.later ∧
        T.range fit1.front = ⟨m.time - tbuff_, (fit.range T).high⟩ ∧
        T.params fit1.front = T.params fit.front ∧
        (T.range newpiece).low = m.time) ∧
    (m.time < (T.range fit.back).low → fit.pieces.length ≠ 1 →
      ∃ newpiece, appendCall T toParameters m fit = some (fit, newpiece) ∧
        T.range newpiece = ⟨(T.range fit.back).low + tbuff_, (fit.range T).high⟩) ∧
    (∀ fit1 newpiece, appendCall T toParameters m fit = some (fit1, newpiece) →
      (T.range fit1.back).low ≤ (T.range newpiece).low) := by
  have ha : m.exing_.active = true := hact
  refine ⟨?_, ?_, ?_⟩
  · intro ht h1
    refine ⟨_, _, appendCall_one_piece T toParameters m fit ha ht h1, rfl, ?_, ?_, ?_⟩
    · simp only [ParticleTrajectory.front, ParticleTrajectory.setFront, T.range_setRange]
    · simp only [ParticleTrajectory.front, ParticleTrajectory.setFront, T.params_setRange]
    · simp only [T.range_setRange]
  · intro ht h1
    refine ⟨_, appendCall_several_pieces T toParameters m fit ha ht h1, ?_⟩
    simp only [T.range_setRange]
  · intro fit1 newpiece hc
    exact (appendCall_begin T toParameters m fit fit1 newpiece ha hc).1

/-- C18 (witness). The sample effect, of time 1 + TBUFF, appended to the
one-piece trajectory over (5, 10): the piece of the trajectory is reset to
begin at 1, the new piece begins at 1 + TBUFF. -/
theorem append_clamping_witness :
    ∃ fit1 newpiece, appendCall sampleRangeOps sampleToParameters pieceMaterial fitLate
        = some (fit1, newpiece) ∧
      fit1.front.range.low = 1 ∧ newpiece.range.low = 1 + tbuff_ := by
  have ht : pieceMaterial.time < (sampleRangeOps.range fitLate.back).low := by
    have : tbuff_ < 1 := by rw [tbuff_eq]; norm_num
    simp only [sampleRangeOps, fitLate, ParticleTrajectory.back, List.getLast_singleton,
      Material.time, pieceMaterial]
    linarith
  obtain ⟨fit1, np, hc, -, hr, -, hn⟩ :=
    (append_clamping sampleRangeOps sampleToParameters pieceMaterial fitLate rfl).1 ht rfl
  refine ⟨fit1, np, hc, ?_, ?_⟩
  · have := congrArg TRange.low hr
    simpa [sampleRangeOps, Material.time, pieceMaterial] using this
  · simpa [sampleRangeOps, Material.time, pieceMaterial] using hn

/-- C19 (amended). Ordering of pieces: for every active Material and every
non-empty piecewise trajectory, the piece that Material::append passes to
fit.append has a begin time not earlier than the begin time of the back piece
of the trajectory it is passed with, and strictly later whenever the effect
time differs from the begin of the back piece; when the effect time equals the
begin of the back piece the trajectory is passed unchanged and the two begin
times are equal. -/
theorem append_piece_order (T : KTrajRangeOps KT) (toParameters : Weights → Parameters)
    (m : Material KT) (fit : ParticleTrajectory KT) (hact : m.active = true) :
    ∃ fit1 newpiece, appendCall T toParameters m fit = some (fit1, newpiece) ∧
      (T.range fit1.back).low ≤ (T.range newpiece).low ∧
      (m.time ≠ (T.range fit.back).low → (T.range fit1.back).low < (T.range newpiece).low) ∧
      (m.time = (T.range fit.back).low →
        fit1 = fit ∧ (T.range newpiece).low = (T.range fit.back).low) := by
  have ha : m.exing_.active = true := hact
  have hsome : ∃ r, appendCall T toParameters m fit = some r := by
    rcases lt_or_le m.time (T.range fit.back).low with ht | ht
    · by_cases h1 : fit.pieces.length = 1
      · exact ⟨_, appendCall_one_piece T toParameters m fit ha ht h1⟩
      · exact ⟨_, appendCall_several_pieces T toParameters m fit ha ht h1⟩
    · exact ⟨_, appendCall_in_order T toParameters m fit ha ht⟩
  obtain ⟨⟨fit1, newpiece⟩, hc⟩ := hsome
  exact ⟨fit1, newpiece, hc, appendCall_begin T toParameters m fit fit1 newpiece ha hc⟩

/-- C19 (witness). The sample effect appended to the one-piece trajectory over
(5, 10): the new piece begins strictly later than the piece it is passed with. -/
theorem append_piece_order_witness :
    ∃ fit1 newpiece, appendCall sampleRangeOps sampleToParameters pieceMaterial fitLate
        = some (fit1, newpiece) ∧
      (sampleRangeOps.range fit1.back).low ≤ (sampleRangeOps.range newpiece).low := by
  obtain ⟨fit1, np, hc, hle, -, -⟩ :=
    append_piece_order sampleRangeOps sampleToParameters pieceMaterial fitLate rfl
  exact ⟨fit1, np, hc, hle⟩

/-- C19 (counterexample). The sample effect, active and of time 1 + TBUFF, is
appended to the one-piece trajectory whose piece begins at 1 + TBUFF: the
piece passed to fit.append begins at 1 + TBUFF too, not strictly later than
the back piece. -/
theorem append_piece_order_counterexample :
    pieceMaterial.active = true ∧
    ∃ newpiece, appendCall sampleRangeOps sampleToParameters pieceMaterial fitEqual
        = some (fitEqual, newpiece) ∧
      (sampleRangeOps.range newpiece).low = 1 + tbuff_ ∧
      (sampleRangeOps.range fitEqual.back).low = 1 + tbuff_ ∧
      ¬ (sampleRangeOps.range fitEqual.back).low < (sampleRangeOps.range newpiece).low := by
  have hb : (sampleRangeOps.range fitEqual.back).low = 1 + tbuff_ := rfl
  have ht : (sampleRangeOps.range fitEqual.back).low ≤ pieceMaterial.time := by
    rw [hb]
    exact le_of_eq rfl
  have hc := appendCall_in_order sampleRangeOps sampleToParameters pieceMaterial fitEqual rfl ht
  refine ⟨rfl, _, hc, rfl, hb, ?_⟩
  rw [hb]
  exact lt_irrefl _

end Material

end KinKal

/-! ## 11. Time range, helix period and constructors: settled properties -/

namespace KinKal

namespace TRange

/-- C21 (the code at the failing input). The ranges [0, 1) and [2, 3) share no
time, and `overlaps` answers true for them: the second operand of its
disjunction, 0 < 3, holds. -/
theorem overlaps_true_on_disjoint :
    ((0 : ℝ) < 1 ∧ (2 : ℝ) < 3) ∧
      (¬ ∃ t : ℝ, (TRange.mk 0 1).inRange t = true ∧ (TRange.mk 2 3).inRange t = true) ∧
      (TRange.mk 0 1).overlaps (TRange.mk 2 3) = true := by
  refine ⟨⟨by norm_num, by norm_num⟩, ?_, ?_⟩
  · rintro ⟨t, h1, h2⟩
    simp only [inRange, Bool.or_eq_true, Bool.and_eq_true, decide_eq_true_eq] at h1 h2
    rcases h1 with h1 | ⟨-, h1⟩
    · norm_num at h1
    · rcases h2 with h2 | ⟨h2, -⟩
      · norm_num at h2
      · linarith
  · simp only [overlaps, Bool.or_eq_true, decide_eq_true_eq]
    right; norm_num

/-- C22 (counterexample). For the range [0, 1) the time 2 is forced to 1, the
excluded upper end, which is not in range. -/
theorem forceRange_counterexample :
    (0 : ℝ) < 1 ∧ (TRange.mk 0 1).forceRange 2 = 1 ∧
      (TRange.mk 0 1).inRange ((TRange.mk 0 1).forceRange 2) = false := by
  have h : (TRange.mk 0 1).forceRange 2 = 1 := by
    simp only [forceRange]; norm_num
  refine ⟨by norm_num, h, ?_⟩
  rw [h]
  simp [inRange]

/-- C22 (amended). forceRange moves a time into the closed interval: for every
range with low < high and every time t the forced time lies in [low, high], and
it satisfies inRange exactly when t < high; a time t ≥ high is forced to high
itself, the excluded upper end. -/
theorem forceRange_closed_interval (r : TRange) (t : ℝ) (h : r.low < r.high) :
    r.low ≤ r.forceRange t ∧ r.forceRange t ≤ r.high ∧
      (r.inRange (r.forceRange t) = true ↔ t < r.high) ∧
      (r.high ≤ t → r.forceRange t = r.high) := by
  have e : r.forceRange t = min (max t r.low) r.high := rfl
  refine ⟨?_, ?_, ?_, ?_⟩
  · rw [e]; exact le_min (le_max_right _ _) h.le
  · rw [e]; exact min_le_right _ _
  · simp only [inRange, Bool.or_eq_true, Bool.and_eq_true, decide_eq_true_eq, e]
    constructor
    · rintro (h1 | ⟨-, h2⟩)
      · exact absurd h1 (not_lt.mpr h.le)
      · by_contra hc
        push_neg at hc
        have : r.high ≤ max t r.low := le_trans hc (le_max_left _ _)
        rw [min_eq_right this] at h2
        exact lt_irrefl _ h2
    · intro ht
      right
      have hm : max t r.low < r.high := max_lt ht h
      rw [min_eq_left hm.le]
      exact ⟨le_max_right _ _, hm⟩
  · intro ht
    rw [e]
    exact min_eq_right (le_trans ht (le_max_left _ _))

/-- C22 (witness). The range [0, 1) and the time 2. -/
theorem forceRange_closed_interval_witness :
    (TRange.mk 0 1).low ≤ (TRange.mk 0 1).forceRange 2 ∧
      (TRange.mk 0 1).forceRange 2 ≤ (TRange.mk 0 1).high ∧
      ((TRange.mk 0 1).inRange ((TRange.mk 0 1).forceRange 2) = true ↔
        (2 : ℝ) < (TRange.mk 0 1).high) ∧
      ((TRange.mk 0 1).high ≤ 2 → (TRange.mk 0 1).forceRange 2 = (TRange.mk 0 1).high) :=
  forceRange_closed_interval ⟨0, 1⟩ 2 (by norm_num)

end TRange

namespace LHelix

/-- C27. Helix period: for every LHelix with omega ≠ 0 and every time t,
position(t + 2π/omega) = position(t) + (0, 0, 2π·lam). -/
theorem position_period (h : LHelix) (t : ℝ) (hom : h.omega ≠ 0) :
    h.position (t + 2 * M_PI / h.omega) = Vec3.add (h.position t) ⟨0, 0, 2 * M_PI * h.lam⟩ := by
  have hd : h.dphi (t + 2 * Real.pi / h.omega) = h.dphi t + 2 * Real.pi := by
    simp only [dphi]
    field_simp
    ring
  simp only [M_PI, position, Vec3.add, hd]
  have e : h.dphi t + 2 * Real.pi + h.phi0 = (h.dphi t + h.phi0) + 2 * Real.pi := by ring
  rw [e, Real.sin_add_two_pi, Real.cos_add_two_pi]
  ext <;> simp only [] <;> ring

/-- C27 (witness). The helix with rad = 3, lam = 4 at time 1. -/
theorem position_period_witness :
    helix345.position (1 + 2 * M_PI / helix345.omega) =
      Vec3.add (helix345.position 1) ⟨0, 0, 2 * M_PI * helix345.lam⟩ :=
  position_period helix345 1 (omega_ne_zero _ helix345_sq_pos)

/-- C28. The parametric constructor inverts the kinematic one: for the helix H
built by the kinematic constructor from (pos, mom, charge, field, range), the
parametric constructor applied to the parameter vector and covariance of H with
mass mom.M and the same charge, field and range gives a helix with the same
parameters and the same reduced mass mbar = −m·1000/(q·B·c), hence the same
position(t) and momentum(t) at every t. -/
theorem parametric_inverts_kinematic (pos : Vec4) (mom : Mom4) (charge : ℤ) (bNom : ℝ)
    (range : TRange) :
    ∃ H : LHelix, ofKinematics pos mom charge bNom range = Except.ok H ∧
      (ofParameters H.pvec H.pcov mom.M charge bNom range).pvec = H.pvec ∧
      (ofParameters H.pvec H.pcov mom.M charge bNom range).mbar_ = H.mbar_ ∧
      H.mbar_ = -(mom.M * 1000) / ((charge : ℝ) * bNom * c_) ∧
      ∀ t : ℝ,
        (ofParameters H.pvec H.pcov mom.M charge bNom range).position t = H.position t ∧
        (ofParameters H.pvec H.pcov mom.M charge bNom range).momentum t = H.momentum t := by
  refine ⟨kinematicHelix pos mom charge bNom range, rfl, rfl, rfl, ?_, fun t => ⟨rfl, rfl⟩⟩
  have e : (kinematicHelix pos mom charge bNom range).mbar_
      = -mom.M * ((1000.0 : ℝ) / ((charge : ℝ) * bNom * c_)) := rfl
  rw [e]
  have : (1000.0 : ℝ) = 1000 := by norm_num
  rw [this]
  ring

/-- C30. The winding choice bounds phi0: for nonzero transverse and longitudinal
momentum, nonzero charge and field and mass > 0, the phi0 of the kinematic
constructor is phibar − pos.Z/lam + 2π·n, where n is the integer to which
(pos.Z/lam − phibar)/(2π) is rounded (`rint`: no integer is nearer), and
therefore lies in the closed interval [−π, π]. -/
theorem phi0_winding (pos : Vec4) (mom : Mom4) (charge : ℤ) (bNom : ℝ) (range : TRange)
    (_hm : 0 < mom.M) (hpt : mom.Pt ≠ 0) (hpz : mom.Pz ≠ 0) (hq : charge ≠ 0) (hb : bNom ≠ 0) :
    ∃ h : LHelix, ofKinematics pos mom charge bNom range = Except.ok h ∧
      ∃ n : ℤ, n = rint ((pos.Z / h.lam - mom.Phi) / (2 * Real.pi)) ∧
        (∀ k : ℤ, |(pos.Z / h.lam - mom.Phi) / (2 * Real.pi) - (n : ℝ)|
          ≤ |(pos.Z / h.lam - mom.Phi) / (2 * Real.pi) - (k : ℝ)|) ∧
        h.phi0 = mom.Phi - pos.Z / h.lam + 2 * Real.pi * (n : ℝ) ∧
        -Real.pi ≤ h.phi0 ∧ h.phi0 ≤ Real.pi := by
  refine ⟨kinematicHelix pos mom charge bNom range, rfl, _, rfl, fun k => rint_nearest _ k,
    kinematicHelix_phi0 pos mom charge bNom range hpt hpz hq hb, ?_⟩
  have hphi := kinematicHelix_phi0 pos mom charge bNom range hpt hpz hq hb
  simp only [] at hphi
  have hr := rint_abs_sub_le
    ((pos.Z / (kinematicHelix pos mom charge bNom range).lam - mom.Phi) / (2 * Real.pi))
  rw [abs_le] at hr
  have hpi := Real.pi_pos
  set x := (pos.Z / (kinematicHelix pos mom charge bNom range).lam - mom.Phi) / (2 * Real.pi)
    with hx
  have hx2 : pos.Z / (kinematicHelix pos mom charge bNom range).lam - mom.Phi
      = x * (2 * Real.pi) := by
    rw [hx]; field_simp
  have e : (kinematicHelix pos mom charge bNom range).phi0
      = -(2 * Real.pi) * (x - (rint x : ℝ)) := by
    rw [hphi]
    linear_combination -hx2
  rw [e]
  constructor <;> nlinarith [hr.1, hr.2]

/-- C30 (witness). The momentum (3, 4, 12) of mass 1 at the origin, charge -1,
unit field. -/
theorem phi0_winding_witness :
    ∃ h : LHelix, ofKinematics ⟨0, 0, 0, 0⟩ ⟨3, 4, 12, 1⟩ (-1) 1 ⟨1, -1⟩ = Except.ok h ∧
      ∃ n : ℤ, n = rint (((0 : ℝ) / h.lam - (Mom4.mk 3 4 12 1).Phi) / (2 * Real.pi)) ∧
        (∀ k : ℤ, |((0 : ℝ) / h.lam - (Mom4.mk 3 4 12 1).Phi) / (2 * Real.pi) - (n : ℝ)|
          ≤ |((0 : ℝ) / h.lam - (Mom4.mk 3 4 12 1).Phi) / (2 * Real.pi) - (k : ℝ)|) ∧
        h.phi0 = (Mom4.mk 3 4 12 1).Phi - (0 : ℝ) / h.lam + 2 * Real.pi * (n : ℝ) ∧
        -Real.pi ≤ h.phi0 ∧ h.phi0 ≤ Real.pi :=
  phi0_winding ⟨0, 0, 0, 0⟩ ⟨3, 4, 12, 1⟩ (-1) 1 ⟨1, -1⟩ (by norm_num)
    (by simp only [Mom4.Pt]; norm_num) (by norm_num) (by decide) (by norm_num)

end LHelix

namespace CentralHelix

/-- C29. invertCT leaves the geometry and kinematics unchanged: for every
CentralHelix with omega ≠ 0 and mbar ≠ 0, after invertCT() the values of
center(), bendRadius(), momentum() and energy() equal their values before,
while charge, mbar, omega, tanDip, d0 and t0 are negated and phi0 is increased
by π. -/
theorem invertCT_geometry (h : CentralHelix) (_hom : h.omega ≠ 0) (_hmb : h.mbar ≠ 0) :
    h.invertCT.center = h.center ∧ h.invertCT.bendRadius = h.bendRadius ∧
      h.invertCT.momentum = h.momentum ∧ h.invertCT.energy = h.energy ∧
      h.invertCT.charge = -h.charge ∧ h.invertCT.mbar = -h.mbar ∧
      h.invertCT.omega = -h.omega ∧ h.invertCT.tanDip = -h.tanDip ∧
      h.invertCT.d0 = -h.d0 ∧ h.invertCT.t0 = -h.t0 ∧
      h.invertCT.phi0 = h.phi0 + Real.pi := by
  have hmb : h.invertCT.mbar_ = -h.mbar_ := by simp [invertCT, lit_one, lit_one]
  have hch : h.invertCT.charge_ = -h.charge_ := by simp [invertCT, lit_one, lit_one]
  have hma : h.invertCT.mass_ = h.mass_ := rfl
  have ho : h.invertCT.omega = -h.omega := by simp [invertCT, lit_one, omega, paramVal]
  have ht : h.invertCT.tanDip = -h.tanDip := by simp [invertCT, lit_one, tanDip, paramVal]
  have hd : h.invertCT.d0 = -h.d0 := by simp [invertCT, lit_one, d0, paramVal]
  have ht0 : h.invertCT.t0 = -h.t0 := by simp [invertCT, lit_one, t0, paramVal]
  have hp : h.invertCT.phi0 = h.phi0 + Real.pi := by simp [invertCT, lit_one, phi0, paramVal, M_PI]
  have hcd : h.invertCT.cosDip = h.cosDip := by
    simp only [cosDip, ht]; congr 2; ring
  have hpb : h.invertCT.pbar = -h.pbar := by
    simp only [pbar, ho, hcd, lit_one]
    rw [neg_mul, div_neg]
  have heb : h.invertCT.ebar = h.ebar := by
    simp only [ebar, hpb, hmb]; congr 1; ring
  refine ⟨?_, ?_, ?_, ?_, hch, hmb, ho, ht, hd, ht0, hp⟩
  · have hrc : h.invertCT.rc = -h.rc := by
      simp only [rc, ho, hd, lit_one]
      rw [div_neg]; ring
    simp only [center, hrc, hp, Real.sin_add_pi, Real.cos_add_pi]
    ext <;> simp only [] <;> ring
  · simp only [bendRadius, ho, div_neg, abs_neg]
  · simp only [momentum, hpb, hmb, hma]
    rw [mul_neg, neg_div_neg_eq]
  · simp only [energy, heb, hmb, hma]
    rw [div_neg, abs_neg]

/-- C29 (witness). The sample central helix, with omega = 2 and mbar = 1. -/
theorem invertCT_geometry_witness :
    sampleHelix.invertCT.center = sampleHelix.center ∧
      sampleHelix.invertCT.bendRadius = sampleHelix.bendRadius ∧
      sampleHelix.invertCT.momentum = sampleHelix.momentum ∧
      sampleHelix.invertCT.energy = sampleHelix.energy ∧
      sampleHelix.invertCT.charge = -sampleHelix.charge ∧
      sampleHelix.invertCT.mbar = -sampleHelix.mbar ∧
      sampleHelix.invertCT.omega = -sampleHelix.omega ∧
      sampleHelix.invertCT.tanDip = -sampleHelix.tanDip ∧
      sampleHelix.invertCT.d0 = -sampleHelix.d0 ∧ sampleHelix.invertCT.t0 = -sampleHelix.t0 ∧
      sampleHelix.invertCT.phi0 = sampleHelix.phi0 + Real.pi :=
  invertCT_geometry sampleHelix
    (by simp [omega, paramVal, sampleHelix]) (by simp [mbar, sampleHelix])

end CentralHelix

end KinKal

/-! ## 12. Two-line closest approach: settled properties -/

namespace KinKal

namespace POCAUtil

/-- C23. The POCA segment is perpendicular to both lines: for every pair of
lines whose normalised directions t1, t2 satisfy 1 − (t1·t2)² ≥ cut > 0, the
points pca1 = p1 + s1·t1 and pca2 = p2 + s2·t2 stored by POCAUtil give a
difference pca1 − pca2 whose scalar products with t1 and with t2 are zero. -/
theorem pca_segment_perpendicular (p1 t1 p2 t2 : Vec3) (cut : ℝ) (hcut : 0 < cut)
    (h : cut ≤ 1 - t1.Unit.Dot t2.Unit * t1.Unit.Dot t2.Unit) :
    (ofLines p1 t1 p2 t2 cut)._t1 = t1.Unit ∧ (ofLines p1 t1 p2 t2 cut)._t2 = t2.Unit ∧
      (ofLines p1 t1 p2 t2 cut)._pca1 = Vec3.add p1
        (Vec3.scale (ofLines p1 t1 p2 t2 cut)._s1 (ofLines p1 t1 p2 t2 cut)._t1) ∧
      (ofLines p1 t1 p2 t2 cut)._pca2 = Vec3.add p2
        (Vec3.scale (ofLines p1 t1 p2 t2 cut)._s2 (ofLines p1 t1 p2 t2 cut)._t2) ∧
      (Vec3.sub (ofLines p1 t1 p2 t2 cut)._pca1 (ofLines p1 t1 p2 t2 cut)._pca2).Dot
        (ofLines p1 t1 p2 t2 cut)._t1 = 0 ∧
      (Vec3.sub (ofLines p1 t1 p2 t2 cut)._pca1 (ofLines p1 t1 p2 t2 cut)._pca2).Dot
        (ofLines p1 t1 p2 t2 cut)._t2 = 0 := by
  obtain ⟨e1, e2, u1, u2, -⟩ := ofLines_pca p1 t1 p2 t2 cut
  obtain ⟨k1, k2⟩ := ofLines_perp p1 t1 p2 t2 cut hcut h
  rw [u1, u2]
  exact ⟨rfl, rfl, e1, e2, k1, k2⟩

/-- C23 (witness). The x axis and the line through (0, 0, 1) along y, with
cut = 1/100. -/
theorem pca_segment_perpendicular_witness :
    (ofLines ⟨0, 0, 0⟩ ⟨1, 0, 0⟩ ⟨0, 0, 1⟩ ⟨0, 1, 0⟩ (1 / 100))._t1 = (Vec3.mk 1 0 0).Unit ∧
      (ofLines ⟨0, 0, 0⟩ ⟨1, 0, 0⟩ ⟨0, 0, 1⟩ ⟨0, 1, 0⟩ (1 / 100))._t2 = (Vec3.mk 0 1 0).Unit ∧
      (ofLines ⟨0, 0, 0⟩ ⟨1, 0, 0⟩ ⟨0, 0, 1⟩ ⟨0, 1, 0⟩ (1 / 100))._pca1 = Vec3.add ⟨0, 0, 0⟩
        (Vec3.scale (ofLines ⟨0, 0, 0⟩ ⟨1, 0, 0⟩ ⟨0, 0, 1⟩ ⟨0, 1, 0⟩ (1 / 100))._s1
          (ofLines ⟨0, 0, 0⟩ ⟨1, 0, 0⟩ ⟨0, 0, 1⟩ ⟨0, 1, 0⟩ (1 / 100))._t1) ∧
      (ofLines ⟨0, 0, 0⟩ ⟨1, 0, 0⟩ ⟨0, 0, 1⟩ ⟨0, 1, 0⟩ (1 / 100))._pca2 = Vec3.add ⟨0, 0, 1⟩
        (Vec3.scale (ofLines ⟨0, 0, 0⟩ ⟨1, 0, 0⟩ ⟨0, 0, 1⟩ ⟨0, 1, 0⟩ (1 / 100))._s2
          (ofLines ⟨0, 0, 0⟩ ⟨1, 0, 0⟩ ⟨0, 0, 1⟩ ⟨0, 1, 0⟩ (1 / 100))._t2) ∧
      (Vec3.sub (ofLines ⟨0, 0, 0⟩ ⟨1, 0, 0⟩ ⟨0, 0, 1⟩ ⟨0, 1, 0⟩ (1 / 100))._pca1
          (ofLines ⟨0, 0, 0⟩ ⟨1, 0, 0⟩ ⟨0, 0, 1⟩ ⟨0, 1, 0⟩ (1 / 100))._pca2).Dot
        (ofLines ⟨0, 0, 0⟩ ⟨1, 0, 0⟩ ⟨0, 0, 1⟩ ⟨0, 1, 0⟩ (1 / 100))._t1 = 0 ∧
      (Vec3.sub (ofLines ⟨0, 0, 0⟩ ⟨1, 0, 0⟩ ⟨0, 0, 1⟩ ⟨0, 1, 0⟩ (1 / 100))._pca1
          (ofLines ⟨0, 0, 0⟩ ⟨1, 0, 0⟩ ⟨0, 0, 1⟩ ⟨0, 1, 0⟩ (1 / 100))._pca2).Dot
        (ofLines ⟨0, 0, 0⟩ ⟨1, 0, 0⟩ ⟨0, 0, 1⟩ ⟨0, 1, 0⟩ (1 / 100))._t2 = 0 :=
  pca_segment_perpendicular ⟨0, 0, 0⟩ ⟨1, 0, 0⟩ ⟨0, 0, 1⟩ ⟨0, 1, 0⟩ (1 / 100) (by norm_num)
    (by
      rw [Vec3.Unit_of_unit ⟨1, 0, 0⟩ (by norm_num [Vec3.Dot]),
        Vec3.Unit_of_unit ⟨0, 1, 0⟩ (by norm_num [Vec3.Dot])]
      norm_num [Vec3.Dot])

/-- C25 (counterexample). The x axis and the parallel line through (1, 1, 0),
with cut = 1/100: POCAUtil declares them close to parallel, the distance along
the common perpendicular |Δ − (Δ·t)·t| is 1, and the dca stored is not 1 (it is
|Δ| = √2). -/
theorem parallel_fallback_counterexample :
    (ofLines ⟨0, 0, 0⟩ ⟨1, 0, 0⟩ ⟨1, 1, 0⟩ ⟨1, 0, 0⟩ (1 / 100))._closeToParallel = true ∧
      (Vec3.sub (Vec3.sub ⟨0, 0, 0⟩ ⟨1, 1, 0⟩)
        (Vec3.scale ((Vec3.sub ⟨0, 0, 0⟩ ⟨1, 1, 0⟩).Dot ⟨1, 0, 0⟩) ⟨1, 0, 0⟩)).R = 1 ∧
      (ofLines ⟨0, 0, 0⟩ ⟨1, 0, 0⟩ ⟨1, 1, 0⟩ ⟨1, 0, 0⟩ (1 / 100))._dca = Real.sqrt 2 ∧
      (ofLines ⟨0, 0, 0⟩ ⟨1, 0, 0⟩ ⟨1, 1, 0⟩ ⟨1, 0, 0⟩ (1 / 100))._dca ≠ 1 := by
  have hpar : 1 - (Vec3.mk 1 0 0).Unit.Dot (Vec3.mk 1 0 0).Unit
      * (Vec3.mk 1 0 0).Unit.Dot (Vec3.mk 1 0 0).Unit < (1 / 100 : ℝ) := by
    rw [Vec3.Unit_of_unit ⟨1, 0, 0⟩ (by norm_num [Vec3.Dot])]
    norm_num [Vec3.Dot]
  have hd : (ofLines ⟨0, 0, 0⟩ ⟨1, 0, 0⟩ ⟨1, 1, 0⟩ ⟨1, 0, 0⟩ (1 / 100))._dca = Real.sqrt 2 := by
    rw [ofLines_parallel _ _ _ _ _ hpar]
    simp only [Vec3.R, Vec3.sub]
    norm_num
  refine ⟨?_, ?_, hd, ?_⟩
  · rw [ofLines_parallel _ _ _ _ _ hpar]
  · simp only [Vec3.R, Vec3.sub, Vec3.scale, Vec3.Dot]
    norm_num
  · rw [hd]
    intro h1
    have := (Real.sqrt_eq_one).mp h1
    norm_num at this

/-- C25 (amended). Parallel fallback: when POCAUtil declares the lines close to
parallel, the dca it stores is the distance |Δ| between the two given points,
Δ = p1 − p2; for a unit direction t this satisfies
dca² = |Δ − (Δ·t)·t|² + (Δ·t)², so dca is at least the distance along the common
perpendicular of two lines of direction t and equals it exactly when Δ·t = 0. -/
theorem parallel_fallback (p1 t1 p2 t2 t : Vec3) (cut : ℝ)
    (hpar : 1 - t1.Unit.Dot t2.Unit * t1.Unit.Dot t2.Unit < cut) (ht : t.Dot t = 1) :
    (ofLines p1 t1 p2 t2 cut)._closeToParallel = true ∧
      (ofLines p1 t1 p2 t2 cut)._dca = (Vec3.sub p1 p2).R ∧
      (ofLines p1 t1 p2 t2 cut)._dca * (ofLines p1 t1 p2 t2 cut)._dca
        = (Vec3.sub (Vec3.sub p1 p2) (Vec3.scale ((Vec3.sub p1 p2).Dot t) t)).R
            * (Vec3.sub (Vec3.sub p1 p2) (Vec3.scale ((Vec3.sub p1 p2).Dot t) t)).R
          + (Vec3.sub p1 p2).Dot t * (Vec3.sub p1 p2).Dot t ∧
      (Vec3.sub (Vec3.sub p1 p2) (Vec3.scale ((Vec3.sub p1 p2).Dot t) t)).R
        ≤ (ofLines p1 t1 p2 t2 cut)._dca ∧
      ((ofLines p1 t1 p2 t2 cut)._dca
          = (Vec3.sub (Vec3.sub p1 p2) (Vec3.scale ((Vec3.sub p1 p2).Dot t) t)).R
        ↔ (Vec3.sub p1 p2).Dot t = 0) := by
  rw [ofLines_parallel p1 t1 p2 t2 cut hpar]
  simp only []
  generalize Vec3.sub p1 p2 = d
  have hdd : d.R * d.R = d.Dot d := Real.mul_self_sqrt (Vec3.Dot_self_nonneg d)
  have hpp : (Vec3.sub d (Vec3.scale (d.Dot t) t)).R * (Vec3.sub d (Vec3.scale (d.Dot t) t)).R
      = d.Dot d - d.Dot t * d.Dot t := by
    rw [Vec3.R_eq_sqrt_Dot, Real.mul_self_sqrt (Vec3.Dot_self_nonneg _)]
    simp only [Vec3.Dot_sub_left, Vec3.Dot_sub_right, Vec3.Dot_scale_left, Vec3.Dot_scale_right,
      ht, Vec3.Dot_comm t d]
    ring
  have hle : (Vec3.sub d (Vec3.scale (d.Dot t) t)).R ≤ d.R := by
    rw [Vec3.R_eq_sqrt_Dot, Vec3.R_eq_sqrt_Dot d]
    apply Real.sqrt_le_sqrt
    have e : (Vec3.sub d (Vec3.scale (d.Dot t) t)).Dot (Vec3.sub d (Vec3.scale (d.Dot t) t))
        = d.Dot d - d.Dot t * d.Dot t := by
      simp only [Vec3.Dot_sub_left, Vec3.Dot_sub_right, Vec3.Dot_scale_left,
        Vec3.Dot_scale_right, ht, Vec3.Dot_comm t d]
      ring
    rw [e]
    have := mul_self_nonneg (d.Dot t)
    linarith
  refine ⟨trivial, trivial, by rw [hdd, hpp]; ring, hle, ?_⟩
  constructor
  · intro he
    have h2 : d.Dot t * d.Dot t = 0 := by
      have := hpp
      rw [← he, hdd] at this
      linarith
    exact mul_self_eq_zero.mp h2
  · intro h0
    rw [Vec3.R_eq_sqrt_Dot, Vec3.R_eq_sqrt_Dot]
    congr 1
    simp only [Vec3.Dot_sub_left, Vec3.Dot_sub_right, Vec3.Dot_scale_left,
      Vec3.Dot_scale_right, ht, Vec3.Dot_comm t d, h0]
    ring

/-- C25 (witness). The x axis and the parallel line through (1, 1, 0), with
cut = 1/100 and t the x direction. -/
theorem parallel_fallback_witness :
    (ofLines ⟨0, 0, 0⟩ ⟨1, 0, 0⟩ ⟨1, 1, 0⟩ ⟨1, 0, 0⟩ (1 / 100))._closeToParallel = true ∧
      (ofLines ⟨0, 0, 0⟩ ⟨1, 0, 0⟩ ⟨1, 1, 0⟩ ⟨1, 0, 0⟩ (1 / 100))._dca
        = (Vec3.sub ⟨0, 0, 0⟩ ⟨1, 1, 0⟩).R ∧
      (ofLines ⟨0, 0, 0⟩ ⟨1, 0, 0⟩ ⟨1, 1, 0⟩ ⟨1, 0, 0⟩ (1 / 100))._dca
          * (ofLines ⟨0, 0, 0⟩ ⟨1, 0, 0⟩ ⟨1, 1, 0⟩ ⟨1, 0, 0⟩ (1 / 100))._dca
        = (Vec3.sub (Vec3.sub ⟨0, 0, 0⟩ ⟨1, 1, 0⟩)
              (Vec3.scale ((Vec3.sub ⟨0, 0, 0⟩ ⟨1, 1, 0⟩).Dot ⟨1, 0, 0⟩) ⟨1, 0, 0⟩)).R
            * (Vec3.sub (Vec3.sub ⟨0, 0, 0⟩ ⟨1, 1, 0⟩)
              (Vec3.scale ((Vec3.sub ⟨0, 0, 0⟩ ⟨1, 1, 0⟩).Dot ⟨1, 0, 0⟩) ⟨1, 0, 0⟩)).R
          + (Vec3.sub ⟨0, 0, 0⟩ ⟨1, 1, 0⟩).Dot ⟨1, 0, 0⟩
            * (Vec3.sub ⟨0, 0, 0⟩ ⟨1, 1, 0⟩).Dot ⟨1, 0, 0⟩ ∧
      (Vec3.sub (Vec3.sub ⟨0, 0, 0⟩ ⟨1, 1, 0⟩)
          (Vec3.scale ((Vec3.sub ⟨0, 0, 0⟩ ⟨1, 1, 0⟩).Dot ⟨1, 0, 0⟩) ⟨1, 0, 0⟩)).R
        ≤ (ofLines ⟨0, 0, 0⟩ ⟨1, 0, 0⟩ ⟨1, 1, 0⟩ ⟨1, 0, 0⟩ (1 / 100))._dca ∧
      ((ofLines ⟨0, 0, 0⟩ ⟨1, 0, 0⟩ ⟨1, 1, 0⟩ ⟨1, 0, 0⟩ (1 / 100))._dca
          = (Vec3.sub (Vec3.sub ⟨0, 0, 0⟩ ⟨1, 1, 0⟩)
              (Vec3.scale ((Vec3.sub ⟨0, 0, 0⟩ ⟨1, 1, 0⟩).Dot ⟨1, 0, 0⟩) ⟨1, 0, 0⟩)).R
        ↔ (Vec3.sub ⟨0, 0, 0⟩ ⟨1, 1, 0⟩).Dot ⟨1, 0, 0⟩ = 0) :=
  parallel_fallback ⟨0, 0, 0⟩ ⟨1, 0, 0⟩ ⟨1, 1, 0⟩ ⟨1, 0, 0⟩ ⟨1, 0, 0⟩ (1 / 100)
    (by
      rw [Vec3.Unit_of_unit ⟨1, 0, 0⟩ (by norm_num [Vec3.Dot])]
      norm_num [Vec3.Dot])
    (by norm_num [Vec3.Dot])

end POCAUtil

namespace LHelix

/-- C26. The test's line sits at distance gap from the helix: for every LHelix
(mass > 0, rad² + lam² > 0), time t, angle eta and gap, with
docadir = cos(eta)·perpdir + sin(eta)·phidir and
pdir = sin(eta)·perpdir − cos(eta)·phidir taken at t, the separation between
position(t) and position(t) + gap·docadir is perpendicular to both the helix
direction at t and pdir and has length |gap|; and POCAUtil, with any cut, of the
helix tangent through position(t) and the line through position(t) + gap·docadir
along pdir gives s1 = s2 = 0 and dca = |gap|. -/
theorem test_line_at_gap (h : LHelix) (t eta gap cut : ℝ) (_hm : 0 < h.mass_)
    (hp : 0 < h.rad * h.rad + h.lam * h.lam) :
    ∃ perpdir phidir : Vec3,
      h.dirVector trajdir.theta1 t = Except.ok perpdir ∧
      h.dirVector trajdir.theta2 t = Except.ok phidir ∧
      (Vec3.sub (ppos (h.position t) gap (docadir eta perpdir phidir)) (h.position t)).Dot
        (h.direction t) = 0 ∧
      (Vec3.sub (ppos (h.position t) gap (docadir eta perpdir phidir)) (h.position t)).Dot
        (pdir eta perpdir phidir) = 0 ∧
      (Vec3.sub (ppos (h.position t) gap (docadir eta perpdir phidir)) (h.position t)).R
        = |gap| ∧
      (POCAUtil.ofLines (h.position t) (h.direction t)
        (ppos (h.position t) gap (docadir eta perpdir phidir))
        (pdir eta perpdir phidir) cut)._s1 = 0 ∧
      (POCAUtil.ofLines (h.position t) (h.direction t)
        (ppos (h.position t) gap (docadir eta perpdir phidir))
        (pdir eta perpdir phidir) cut)._s2 = 0 ∧
      (POCAUtil.ofLines (h.position t) (h.direction t)
        (ppos (h.position t) gap (docadir eta perpdir phidir))
        (pdir eta perpdir phidir) cut)._dca = |gap| := by
  obtain ⟨P, F, hP, hF, hPP, hFF, hPF, hPd, hFd⟩ := perp_directions h t hp
  refine ⟨P, F, hP, hF, ?_⟩
  have hFP : F.Dot P = 0 := by rw [Vec3.Dot_comm]; exact hPF
  have hsc := Real.sin_sq_add_cos_sq eta
  generalize h.position t = pos
  generalize h.direction t = dir at hPd hFd
  have hdd : (docadir eta P F).Dot (docadir eta P F) = 1 := by
    simp only [docadir, Vec3.Dot_add_left, Vec3.Dot_add_right, Vec3.Dot_scale_left,
      Vec3.Dot_scale_right, hPP, hFF, hPF, hFP]
    linear_combination hsc
  have hdp : (docadir eta P F).Dot (pdir eta P F) = 0 := by
    simp only [docadir, pdir, Vec3.Dot_add_left, Vec3.Dot_sub_right, Vec3.Dot_scale_left,
      Vec3.Dot_scale_right, hPP, hFF, hPF, hFP]
    ring
  have hdir : (docadir eta P F).Dot dir = 0 := by
    simp only [docadir, Vec3.Dot_add_left, Vec3.Dot_scale_left, hPd, hFd]
    ring
  generalize docadir eta P F = dd at hdd hdp hdir
  generalize pdir eta P F = pd at hdp
  have hsep : Vec3.sub (ppos pos gap dd) pos = Vec3.scale gap dd := by
    ext <;> simp [ppos, Vec3.add, Vec3.sub, Vec3.scale]
  have hneg : Vec3.sub pos (ppos pos gap dd) = Vec3.scale (-gap) dd := by
    ext <;> simp [ppos, Vec3.add, Vec3.sub, Vec3.scale]
  have hR : (Vec3.scale (-gap) dd).R = |gap| := by
    rw [Vec3.R_of_Dot_self _ (-gap), abs_neg]
    rw [Vec3.Dot_scale_left, Vec3.Dot_scale_right, hdd]; ring
  have e0 : ∀ p u : Vec3, Vec3.add p (Vec3.scale 0 u) = p := by
    intro p u; ext <;> simp [Vec3.add, Vec3.scale]
  refine ⟨?_, ?_, ?_, ?_⟩
  · rw [hsep, Vec3.Dot_scale_left, hdir, mul_zero]
  · rw [hsep, Vec3.Dot_scale_left, hdp, mul_zero]
  · rw [hsep]
    apply Vec3.R_of_Dot_self
    rw [Vec3.Dot_scale_left, Vec3.Dot_scale_right, hdd]; ring
  · by_cases hb : 1 - dir.Unit.Dot pd.Unit * dir.Unit.Dot pd.Unit < cut
    · rw [POCAUtil.ofLines_parallel _ _ _ _ _ hb]
      refine ⟨rfl, rfl, ?_⟩
      simp only []
      rw [hneg, hR]
    · have hd1 : (Vec3.sub pos (ppos pos gap dd)).Dot dir.Unit = 0 := by
        apply Vec3.Dot_Unit_eq_zero
        rw [hneg, Vec3.Dot_scale_left, hdir, mul_zero]
      have hd2 : (Vec3.sub pos (ppos pos gap dd)).Dot pd.Unit = 0 := by
        apply Vec3.Dot_Unit_eq_zero
        rw [hneg, Vec3.Dot_scale_left, hdp, mul_zero]
      rw [POCAUtil.ofLines_skew _ _ _ _ _ hb]
      simp only [hd1, hd2, zero_mul, sub_zero, zero_div, neg_zero, e0]
      refine ⟨trivial, trivial, ?_⟩
      rw [hneg, hR]

/-- C26 (witness). The helix with rad = 3, lam = 4 at t = 0, eta = 0, gap = 2
and cut = 1e-8. -/
theorem test_line_at_gap_witness :
    ∃ perpdir phidir : Vec3,
      helix345.dirVector trajdir.theta1 0 = Except.ok perpdir ∧
      helix345.dirVector trajdir.theta2 0 = Except.ok phidir ∧
      (Vec3.sub (ppos (helix345.position 0) 2 (docadir 0 perpdir phidir))
        (helix345.position 0)).Dot (helix345.direction 0) = 0 ∧
      (Vec3.sub (ppos (helix345.position 0) 2 (docadir 0 perpdir phidir))
        (helix345.position 0)).Dot (pdir 0 perpdir phidir) = 0 ∧
      (Vec3.sub (ppos (helix345.position 0) 2 (docadir 0 perpdir phidir))
        (helix345.position 0)).R = |(2 : ℝ)| ∧
      (POCAUtil.ofLines (helix345.position 0) (helix345.direction 0)
        (ppos (helix345.position 0) 2 (docadir 0 perpdir phidir))
        (pdir 0 perpdir phidir) (1 / 100000000))._s1 = 0 ∧
      (POCAUtil.ofLines (helix345.position 0) (helix345.direction 0)
        (ppos (helix345.position 0) 2 (docadir 0 perpdir phidir))
        (pdir 0 perpdir phidir) (1 / 100000000))._s2 = 0 ∧
      (POCAUtil.ofLines (helix345.position 0) (helix345.direction 0)
        (ppos (helix345.position 0) 2 (docadir 0 perpdir phidir))
        (pdir 0 perpdir phidir) (1 / 100000000))._dca = |(2 : ℝ)| :=
  test_line_at_gap helix345 0 0 2 (1 / 100000000) (by rw [helix345_mass]; norm_num)
    helix345_sq_pos

end LHelix

end KinKal

/-! ## 13. Time range, closest-approach flag and central helix: settled properties -/

namespace KinKal

namespace TRange

/-- C31 (the code at the failing input). For a range with low ≤ high a time in
range is left where it is, and forceRange applied twice gives what it gives
once, for every range; but in the default-constructed range (1, −1), which
holds every time, the time 0 is in range and forceRange moves it to −1. -/
theorem forceRange_moves_in_default :
    (∀ (r : TRange) (t : ℝ), r.low ≤ r.high → r.inRange t = true → r.forceRange t = t) ∧
      (∀ (r : TRange) (t : ℝ), r.forceRange (r.forceRange t) = r.forceRange t) ∧
      TRange.default.inRange 0 = true ∧ TRange.default.forceRange 0 = -1 ∧
      TRange.default.forceRange 0 ≠ 0 := by
  have hd : TRange.default.forceRange 0 = -1 := by
    simp only [forceRange, TRange.default]; norm_num
  refine ⟨?_, ?_, ?_, hd, ?_⟩
  · intro r t hle hin
    simp only [inRange, Bool.or_eq_true, Bool.and_eq_true, decide_eq_true_eq] at hin
    rcases hin with hin | ⟨h1, h2⟩
    · exact absurd hin (not_lt.mpr hle)
    · simp only [forceRange]
      rw [max_eq_left h1, min_eq_left h2.le]
  · intro r t
    simp only [forceRange]
    rcases le_total r.low r.high with hle | hle
    · have h1 : r.low ≤ min (max t r.low) r.high := le_min (le_max_right _ _) hle
      rw [max_eq_left h1, min_eq_left (min_le_right _ _)]
    · have h1 : min (max t r.low) r.high = r.high :=
        min_eq_right (le_trans hle (le_max_right _ _))
      rw [h1, max_eq_right hle, min_eq_right hle]
  · simp only [inRange, TRange.default, Bool.or_eq_true, decide_eq_true_eq]
    left; norm_num
  · rw [hd]; norm_num

/-- C32. As written with a logical OR, overlaps cannot report non-overlap of
proper ranges: for every two ranges a and b with a.low < a.high and
b.low < b.high, a.overlaps(b) returns true. -/
theorem overlaps_always_true (a b : TRange) (ha : a.low < a.high) (hb : b.low < b.high) :
    a.overlaps b = true := by
  simp only [overlaps, Bool.or_eq_true, decide_eq_true_eq]
  by_contra hc
  push_neg at hc
  linarith [hc.1, hc.2]

/-- C32 (witness). The disjoint ranges [0, 1) and [2, 3). -/
theorem overlaps_always_true_witness : (TRange.mk 0 1).overlaps (TRange.mk 2 3) = true :=
  overlaps_always_true ⟨0, 1⟩ ⟨2, 3⟩ (by norm_num) (by norm_num)

end TRange

namespace POCAUtil

/-- C36. Parallel detection in POCAUtil: closeToParallel is set if and only if
1 − (t1·t2)² < cut for the normalised directions t1, t2; in that case pca1 = p1,
pca2 = p2, s1 = s2 = 0 and dca = |p1 − p2|, and otherwise the flag is false and
s1 = ((Δ·t2)(t1·t2) − Δ·t1)/(1 − (t1·t2)²), s2 = −((Δ·t1)(t1·t2) − Δ·t2)/(1 − (t1·t2)²)
with Δ = p1 − p2, the solved path lengths. -/
theorem parallel_detection (p1 t1 p2 t2 : Vec3) (cut : ℝ) :
    (ofLines p1 t1 p2 t2 cut)._t1 = t1.Unit ∧ (ofLines p1 t1 p2 t2 cut)._t2 = t2.Unit ∧
      ((ofLines p1 t1 p2 t2 cut)._closeToParallel = true ↔
        1 - t1.Unit.Dot t2.Unit * t1.Unit.Dot t2.Unit < cut) ∧
      (1 - t1.Unit.Dot t2.Unit * t1.Unit.Dot t2.Unit < cut →
        (ofLines p1 t1 p2 t2 cut)._pca1 = p1 ∧ (ofLines p1 t1 p2 t2 cut)._pca2 = p2 ∧
        (ofLines p1 t1 p2 t2 cut)._s1 = 0 ∧ (ofLines p1 t1 p2 t2 cut)._s2 = 0 ∧
        (ofLines p1 t1 p2 t2 cut)._dca = (Vec3.sub p1 p2).R) ∧
      (¬ 1 - t1.Unit.Dot t2.Unit * t1.Unit.Dot t2.Unit < cut →
        (ofLines p1 t1 p2 t2 cut)._closeToParallel = false ∧
        (ofLines p1 t1 p2 t2 cut)._s1 =
          ((Vec3.sub p1 p2).Dot t2.Unit * t1.Unit.Dot t2.Unit - (Vec3.sub p1 p2).Dot t1.Unit)
            / (1 - t1.Unit.Dot t2.Unit * t1.Unit.Dot t2.Unit) ∧
        (ofLines p1 t1 p2 t2 cut)._s2 =
          -((Vec3.sub p1 p2).Dot t1.Unit * t1.Unit.Dot t2.Unit - (Vec3.sub p1 p2).Dot t2.Unit)
            / (1 - t1.Unit.Dot t2.Unit * t1.Unit.Dot t2.Unit) ∧
        (ofLines p1 t1 p2 t2 cut)._pca1
          = Vec3.add p1 (Vec3.scale (ofLines p1 t1 p2 t2 cut)._s1 t1.Unit) ∧
        (ofLines p1 t1 p2 t2 cut)._pca2
          = Vec3.add p2 (Vec3.scale (ofLines p1 t1 p2 t2 cut)._s2 t2.Unit)) := by
  by_cases h : 1 - t1.Unit.Dot t2.Unit * t1.Unit.Dot t2.Unit < cut
  · rw [ofLines_parallel p1 t1 p2 t2 cut h]
    refine ⟨rfl, rfl, ⟨fun _ => h, fun _ => rfl⟩, fun _ => ⟨rfl, rfl, rfl, rfl, rfl⟩, ?_⟩
    intro hn; exact absurd h hn
  · rw [ofLines_skew p1 t1 p2 t2 cut h]
    refine ⟨rfl, rfl, ⟨?_, fun hp => absurd hp h⟩, fun hp => absurd hp h,
      fun _ => ⟨rfl, rfl, rfl, rfl, rfl⟩⟩
    intro hf
    simp at hf

end POCAUtil

namespace CentralHelix

end CentralHelix

end KinKal

/-! ## 14. Inactive crossing, hit update and material covariance: settled properties -/

namespace KinKal

namespace Material

variable {KT FS : Type}

/-- C33. A crossing without material is a no-op: for a Material whose element
crossing has no material crossings (active() is false), process leaves the fit
state and the cache unchanged in both directions and only marks the effect
processed, updateCache yields the zero effect (zero parameter shift and zero
covariance), and append leaves the piecewise trajectory unchanged. -/
theorem inactive_crossing_noop (F : FitStateOps FS) (K : KTrajOps KT) (T : KTrajRangeOps KT)
    (toParameters : Weights → Parameters)
    (pkAppend : ParticleTrajectory KT → KT → ParticleTrajectory KT)
    (m : Material KT) (kkdata : FS) (fit : ParticleTrajectory KT) (hin : m.active = false) :
    m.exing_.mxings_ = [] ∧
      (∀ tdir : TimeDir, (process F m kkdata tdir).2 = kkdata ∧
        (process F m kkdata tdir).1.cache_ = m.cache_ ∧
        (process F m kkdata tdir).1 = { m with state := m.state.setProcessed tdir } ∧
        (process F m kkdata tdir).1.state.isProcessed tdir = true) ∧
      (updateCache K m).mateff_ = Parameters.empty ∧
      (∀ i, (updateCache K m).mateff_.parameters i = 0) ∧
      (∀ i j, (updateCache K m).mateff_.covariance i j = 0) ∧
      updateCache K m = { m with mateff_ := Parameters.empty } ∧
      append T toParameters pkAppend m fit = fit := by
  have ha : m.exing_.active = false := hin
  have hnil : m.exing_.mxings_ = [] := by
    have h := ha
    simp only [ElementXing.active, decide_eq_false_iff_not, not_lt, Nat.le_zero,
      List.length_eq_zero] at h
    exact h
  have hu : updateCache K m = { m with mateff_ := Parameters.empty } := by
    simp [updateCache, ha]
  refine ⟨hnil, ?_, ?_, ?_, ?_, hu, ?_⟩
  · intro tdir
    have hp : process F m kkdata tdir = ({ m with state := m.state.setProcessed tdir }, kkdata) := by
      simp [process, ha]
    rw [hp]
    exact ⟨rfl, rfl, rfl, setProcessed_isProcessed _ _⟩
  · rw [hu]
  · intro i; rw [hu]; rfl
  · intro i j; rw [hu]; rfl
  · simp [append, appendCall, ha]

/-- C33 (witness). The inactive sample effect, holding a non-null effect and
cache, with the one-piece trajectory over (0, 10). -/
theorem inactive_crossing_noop_witness :
    inactiveMaterial.exing_.mxings_ = [] ∧
      (∀ tdir : TimeDir,
        (process sampleFitState inactiveMaterial Weights.empty tdir).2 = Weights.empty ∧
        (process sampleFitState inactiveMaterial Weights.empty tdir).1.cache_
          = inactiveMaterial.cache_ ∧
        (process sampleFitState inactiveMaterial Weights.empty tdir).1
          = { inactiveMaterial with state := inactiveMaterial.state.setProcessed tdir } ∧
        (process sampleFitState inactiveMaterial Weights.empty tdir).1.state.isProcessed tdir
          = true) ∧
      (updateCache samplePieceTraj inactiveMaterial).mateff_ = Parameters.empty ∧
      (∀ i, (updateCache samplePieceTraj inactiveMaterial).mateff_.parameters i = 0) ∧
      (∀ i j, (updateCache samplePieceTraj inactiveMaterial).mateff_.covariance i j = 0) ∧
      updateCache samplePieceTraj inactiveMaterial
        = { inactiveMaterial with mateff_ := Parameters.empty } ∧
      append sampleRangeOps sampleToParameters samplePkAppend inactiveMaterial fitEarly
        = fitEarly :=
  inactive_crossing_noop sampleFitState samplePieceTraj sampleRangeOps sampleToParameters
    samplePkAppend inactiveMaterial Weights.empty fitEarly (by decide)

/-- C37. The material covariance is a valid noise term: for an active crossing
with momvar[i] ≥ 0 in all three directions and annealing scale vscale ≥ 0, the
covariance of the effect computed by updateCache is symmetric and positive
semi-definite (xᵀ·C·x ≥ 0 for every 6-vector x), being the combination, with the
non-negative coefficients momvar[i]·vscale, of the three outer products
v_i·v_iᵀ, v_i = |p|·dPdM·direction(i). -/
theorem covariance_positive_semidefinite (K : KTrajOps KT) (m : Material KT)
    (hact : m.active = true)
    (hmv : ∀ d, 0 ≤ (m.exing_.materialEffects K m.ref_ TimeDir.forwards
      (fun _ => 0) (fun _ => 0)).2 d)
    (hvs : 0 ≤ m.vscale_) :
    (∀ i j, (updateCache K m).mateff_.covariance i j
      = (updateCache K m).mateff_.covariance j i) ∧
    (∀ x : DVec, 0 ≤ quadForm (updateCache K m).mateff_.covariance x) ∧
    (∀ d, 0 ≤ (m.exing_.materialEffects K m.ref_ TimeDir.forwards
      (fun _ => 0) (fun _ => 0)).2 d * m.vscale_) ∧
    (∀ i j, (updateCache K m).mateff_.covariance i j
      = ((m.exing_.materialEffects K m.ref_ TimeDir.forwards (fun _ => 0) (fun _ => 0)).2
              MomBasis.Direction.momdir_ * m.vscale_)
          * (momVector K m MomBasis.Direction.momdir_ i
            * momVector K m MomBasis.Direction.momdir_ j)
        + ((m.exing_.materialEffects K m.ref_ TimeDir.forwards (fun _ => 0) (fun _ => 0)).2
              MomBasis.Direction.perpdir_ * m.vscale_)
          * (momVector K m MomBasis.Direction.perpdir_ i
            * momVector K m MomBasis.Direction.perpdir_ j)
        + ((m.exing_.materialEffects K m.ref_ TimeDir.forwards (fun _ => 0) (fun _ => 0)).2
              MomBasis.Direction.phidir_ * m.vscale_)
          * (momVector K m MomBasis.Direction.phidir_ i
            * momVector K m MomBasis.Direction.phidir_ j)) := by
  have ha : m.exing_.active = true := hact
  obtain ⟨-, hc⟩ := updateCache_active K m ha
  have hw : ∀ d, 0 ≤ (m.exing_.materialEffects K m.ref_ TimeDir.forwards
      (fun _ => 0) (fun _ => 0)).2 d * m.vscale_ := fun d => mul_nonneg (hmv d) hvs
  have hC : ∀ i j, (updateCache K m).mateff_.covariance i j
      = ((m.exing_.materialEffects K m.ref_ TimeDir.forwards (fun _ => 0) (fun _ => 0)).2
              MomBasis.Direction.momdir_ * m.vscale_)
          * (momVector K m MomBasis.Direction.momdir_ i
            * momVector K m MomBasis.Direction.momdir_ j)
        + ((m.exing_.materialEffects K m.ref_ TimeDir.forwards (fun _ => 0) (fun _ => 0)).2
              MomBasis.Direction.perpdir_ * m.vscale_)
          * (momVector K m MomBasis.Direction.perpdir_ i
            * momVector K m MomBasis.Direction.perpdir_ j)
        + ((m.exing_.materialEffects K m.ref_ TimeDir.forwards (fun _ => 0) (fun _ => 0)).2
              MomBasis.Direction.phidir_ * m.vscale_)
          * (momVector K m MomBasis.Direction.phidir_ i
            * momVector K m MomBasis.Direction.phidir_ j) := by
    intro i j; rw [hc i j]; ring
  refine ⟨?_, ?_, hw, hC⟩
  · intro i j
    rw [hC i j, hC j i]; ring
  · intro x
    rw [quadForm_outer _ x _ _ _ _ _ _ hC]
    have h1 := mul_nonneg (hw MomBasis.Direction.momdir_)
      (mul_self_nonneg (paramDot x (momVector K m MomBasis.Direction.momdir_)))
    have h2 := mul_nonneg (hw MomBasis.Direction.perpdir_)
      (mul_self_nonneg (paramDot x (momVector K m MomBasis.Direction.perpdir_)))
    have h3 := mul_nonneg (hw MomBasis.Direction.phidir_)
      (mul_self_nonneg (paramDot x (momVector K m MomBasis.Direction.phidir_)))
    linarith

/-- C37 (witness). The active sample effect: one crossing of the unit material,
unit momentum and mass, annealing scale 1. -/
theorem covariance_positive_semidefinite_witness :
    (∀ i j, (updateCache sampleEnv.ktraj sampleMaterial).mateff_.covariance i j
      = (updateCache sampleEnv.ktraj sampleMaterial).mateff_.covariance j i) ∧
    (∀ x : DVec, 0 ≤ quadForm (updateCache sampleEnv.ktraj sampleMaterial).mateff_.covariance x) ∧
    (∀ d, 0 ≤ (sampleMaterial.exing_.materialEffects sampleEnv.ktraj sampleMaterial.ref_
      TimeDir.forwards (fun _ => 0) (fun _ => 0)).2 d * sampleMaterial.vscale_) ∧
    (∀ i j, (updateCache sampleEnv.ktraj sampleMaterial).mateff_.covariance i j
      = ((sampleMaterial.exing_.materialEffects sampleEnv.ktraj sampleMaterial.ref_
              TimeDir.forwards (fun _ => 0) (fun _ => 0)).2
              MomBasis.Direction.momdir_ * sampleMaterial.vscale_)
          * (momVector sampleEnv.ktraj sampleMaterial MomBasis.Direction.momdir_ i
            * momVector sampleEnv.ktraj sampleMaterial MomBasis.Direction.momdir_ j)
        + ((sampleMaterial.exing_.materialEffects sampleEnv.ktraj sampleMaterial.ref_
              TimeDir.forwards (fun _ => 0) (fun _ => 0)).2
              MomBasis.Direction.perpdir_ * sampleMaterial.vscale_)
          * (momVector sampleEnv.ktraj sampleMaterial MomBasis.Direction.perpdir_ i
            * momVector sampleEnv.ktraj sampleMaterial MomBasis.Direction.perpdir_ j)
        + ((sampleMaterial.exing_.materialEffects sampleEnv.ktraj sampleMaterial.ref_
              TimeDir.forwards (fun _ => 0) (fun _ => 0)).2
              MomBasis.Direction.phidir_ * sampleMaterial.vscale_)
          * (momVector sampleEnv.ktraj sampleMaterial MomBasis.Direction.phidir_ i
            * momVector sampleEnv.ktraj sampleMaterial MomBasis.Direction.phidir_ j)) :=
  covariance_positive_semidefinite sampleEnv.ktraj sampleMaterial (by decide)
    (by
      intro d
      obtain ⟨-, -, -, h1, h2, h3⟩ := ElementXing.materialEffects_entries sampleEnv.ktraj
        [⟨unitMaterial, 1⟩] 0 () TimeDir.forwards (fun _ => 0) (fun _ => 0)
      have e : sampleMaterial.exing_ = ⟨[⟨unitMaterial, 1⟩], 0⟩ := rfl
      rw [e]
      cases d
      · rw [h1]
        simp only [unitMaterial, List.map, List.sum_cons, List.sum_nil]
        have := mul_self_nonneg
          (ElementXing.dmFdE (sampleEnv.ktraj.momentum () 0) (sampleEnv.ktraj.mass ())
            TimeDir.forwards)
        linarith
      · rw [h2]
        simp [unitMaterial]
      · rw [h3]
        simp [unitMaterial])
    (by simp [sampleMaterial])

end Material

namespace ScintHit

variable {CAD HB KT : Type}

/-- C34 (counterexample). With a closest approach that is not usable, update
throws for the sample hit and for the hit that differs from it only in the
stored closest-approach data (5 in place of 0); both keep what they stored, so
they do not end in the same state. -/
theorem update_hint_counterexample :
    sampleHitOtherData = { sampleHit with tpdata_ := 5 } ∧
      (update failingScintEnv sampleHit ()).2
        = Except.error (Exn.runtime_error "PCA failure") ∧
      (update failingScintEnv sampleHitOtherData ()).2
        = Except.error (Exn.runtime_error "PCA failure") ∧
      (update failingScintEnv sampleHit ()).1.tpdata_ = 0 ∧
      (update failingScintEnv sampleHitOtherData ()).1.tpdata_ = 5 ∧
      (update failingScintEnv sampleHit ()).1
        ≠ (update failingScintEnv sampleHitOtherData ()).1 := by
  have h1 : update failingScintEnv sampleHit ()
      = (sampleHit, Except.error (Exn.runtime_error "PCA failure")) :=
    update_of_unusable _ _ _ rfl
  have h2 : update failingScintEnv sampleHitOtherData ()
      = (sampleHitOtherData, Except.error (Exn.runtime_error "PCA failure")) :=
    update_of_unusable _ _ _ rfl
  rw [h1, h2]
  refine ⟨rfl, rfl, rfl, rfl, rfl, ?_⟩
  intro he
  have h5 : sampleHit.tpdata_ = sampleHitOtherData.tpdata_ := congrArg ScintHit.tpdata_ he
  simp only [sampleHit, sampleHitOtherData] at h5
  norm_num at h5

/-- C34 (amended). No hint refresh: update(ktraj) always starts the
closest-approach computation from the hint (saxis.t0, saxis.t0).  Two hits with
the same sensor axis, variances and precision get the same outcome, and when
the closest approach is usable the residual and closest-approach data after
update are the same for both: they depend only on ktraj, the sensor axis, the
two variances and the precision.  When it is usable, a hit that differs only in
stored closest-approach data ends in the same state; when it is not, update
throws and the hit keeps the data it stored.  Calling update twice with the
same trajectory gives the same outcome, residual and closest-approach data as
calling it once, and the same state if the update of the base class gives the
same base state when run twice. -/
theorem update_ignores_stored_data (E : ScintHitEnv CAD HB KT) (ktraj : KT)
    (h1 h2 : ScintHit CAD HB) (hs : h1.saxis_ = h2.saxis_) (ht : h1.tvar_ = h2.tvar_)
    (hw : h1.wvar_ = h2.wvar_) (hp : h1.precision_ = h2.precision_) :
    (update E h1 ktraj).2 = (update E h2 ktraj).2 ∧
      ((update E h1 ktraj).2 = Except.ok () →
        (update E h1 ktraj).1.rresid_ = (update E h2 ktraj).1.rresid_ ∧
        (update E h1 ktraj).1.tpdata_ = (update E h2 ktraj).1.tpdata_) ∧
      (∀ d : CAD, (update E h1 ktraj).2 = Except.ok () →
        (update E { h1 with tpdata_ := d } ktraj).1 = (update E h1 ktraj).1) ∧
      (∀ d : CAD, (update E h1 ktraj).2 ≠ Except.ok () →
        (update E { h1 with tpdata_ := d } ktraj).1.tpdata_ = d) ∧
      (update E (update E h1 ktraj).1 ktraj).2 = (update E h1 ktraj).2 ∧
      (update E (update E h1 ktraj).1 ktraj).1.rresid_ = (update E h1 ktraj).1.rresid_ ∧
      (update E (update E h1 ktraj).1 ktraj).1.tpdata_ = (update E h1 ktraj).1.tpdata_ ∧
      (E.hitUpdate (E.hitUpdate h1.base ktraj) ktraj = E.hitUpdate h1.base ktraj →
        (update E (update E h1 ktraj).1 ktraj).1 = (update E h1 ktraj).1) := by
  cases hu : (E.closestApproach ktraj h1.saxis_ ⟨h1.saxis_.t0, h1.saxis_.t0⟩
      h1.precision_).usable
  · have hu2 : (E.closestApproach ktraj h2.saxis_ ⟨h2.saxis_.t0, h2.saxis_.t0⟩
        h2.precision_).usable = false := by rw [← hs, ← hp]; exact hu
    have e1 := update_of_unusable E h1 ktraj hu
    have e2 := update_of_unusable E h2 ktraj hu2
    have e3 : ∀ d : CAD, update E { h1 with tpdata_ := d } ktraj
        = ({ h1 with tpdata_ := d }, Except.error (Exn.runtime_error "PCA failure")) :=
      fun d => update_of_unusable E { h1 with tpdata_ := d } ktraj hu
    rw [e1, e2]
    refine ⟨rfl, ?_, ?_, ?_, ?_, ?_, ?_, ?_⟩
    · intro hc; cases hc
    · intro d hc; cases hc
    · intro d _; rw [e3 d]
    · simp only []; rw [e1]
    · simp only []; rw [e1]
    · simp only []; rw [e1]
    · intro _; simp only []; rw [e1]
  · have hu2 : (E.closestApproach ktraj h2.saxis_ ⟨h2.saxis_.t0, h2.saxis_.t0⟩
        h2.precision_).usable = true := by rw [← hs, ← hp]; exact hu
    have e1 := update_of_usable E h1 ktraj hu
    have e2 := update_of_usable E h2 ktraj hu2
    have e3 : ∀ d : CAD, update E { h1 with tpdata_ := d } ktraj = _ :=
      fun d => update_of_usable E { h1 with tpdata_ := d } ktraj hu
    have e4 := update_of_usable E (update E h1 ktraj).1 ktraj (by rw [e1]; exact hu)
    refine ⟨?_, ?_, ?_, ?_, ?_, ?_, ?_, ?_⟩
    · rw [e1, e2]
    · intro _
      rw [e1, e2]
      simp only [← hs, ← ht, ← hw, ← hp]
      exact ⟨trivial, trivial⟩
    · intro d _
      rw [e3 d, e1]
    · intro d hc
      rw [e1] at hc
      exact absurd rfl hc
    · rw [e4, e1]
    · rw [e4, e1]
    · rw [e4, e1]
    · intro hb
      rw [e4, e1]
      simp only [hb]

/-- C34 (witness). The sample hit and the hit with other stored data, updated
with the computation that always succeeds. -/
theorem update_ignores_stored_data_witness :
    (update sampleScintEnv sampleHit ()).2 = (update sampleScintEnv sampleHitOtherData ()).2 ∧
      ((update sampleScintEnv sampleHit ()).2 = Except.ok () →
        (update sampleScintEnv sampleHit ()).1.rresid_
          = (update sampleScintEnv sampleHitOtherData ()).1.rresid_ ∧
        (update sampleScintEnv sampleHit ()).1.tpdata_
          = (update sampleScintEnv sampleHitOtherData ()).1.tpdata_) ∧
      (∀ d : ℝ, (update sampleScintEnv sampleHit ()).2 = Except.ok () →
        (update sampleScintEnv { sampleHit with tpdata_ := d } ()).1
          = (update sampleScintEnv sampleHit ()).1) ∧
      (∀ d : ℝ, (update sampleScintEnv sampleHit ()).2 ≠ Except.ok () →
        (update sampleScintEnv { sampleHit with tpdata_ := d } ()).1.tpdata_ = d) ∧
      (update sampleScintEnv (update sampleScintEnv sampleHit ()).1 ()).2
        = (update sampleScintEnv sampleHit ()).2 ∧
      (update sampleScintEnv (update sampleScintEnv sampleHit ()).1 ()).1.rresid_
        = (update sampleScintEnv sampleHit ()).1.rresid_ ∧
      (update sampleScintEnv (update sampleScintEnv sampleHit ()).1 ()).1.tpdata_
        = (update sampleScintEnv sampleHit ()).1.tpdata_ ∧
      (sampleScintEnv.hitUpdate (sampleScintEnv.hitUpdate sampleHit.base ()) ()
          = sampleScintEnv.hitUpdate sampleHit.base () →
        (update sampleScintEnv (update sampleScintEnv sampleHit ()).1 ()).1
          = (update sampleScintEnv sampleHit ()).1) :=
  update_ignores_stored_data sampleScintEnv () sampleHit sampleHitOtherData rfl rfl rfl rfl

/-- C35. The scintillator residual variance is never below the time variance:
for tvar, wvar ≥ 0, sensor speed ≠ 0 and a usable closest approach with
|dirDot| < 1, the variance stored by update is
tvar + wvar·d²/(speed²·(1 − d²)) with d = dirDot, it is ≥ tvar, it equals tvar
exactly when wvar = 0 or dirDot = 0, and it is non-decreasing in |dirDot|: of
two trajectories with usable closest approaches, the one with the larger
|dirDot| < 1 gives the larger or equal variance. -/
theorem variance_at_least_tvar (E : ScintHitEnv CAD HB KT) (h : ScintHit CAD HB)
    (ktraj ktraj2 : KT) (_htv : 0 ≤ h.tvar_) (hwv : 0 ≤ h.wvar_) (hsp : h.saxis_.speed ≠ 0)
    (hu : (E.closestApproach ktraj h.saxis_ ⟨h.saxis_.t0, h.saxis_.t0⟩ h.precision_).usable
      = true)
    (hd : |(E.closestApproach ktraj h.saxis_ ⟨h.saxis_.t0, h.saxis_.t0⟩ h.precision_).dirDot|
      < 1)
    (hu2 : (E.closestApproach ktraj2 h.saxis_ ⟨h.saxis_.t0, h.saxis_.t0⟩ h.precision_).usable
      = true)
    (hd2 : |(E.closestApproach ktraj2 h.saxis_ ⟨h.saxis_.t0, h.saxis_.t0⟩ h.precision_).dirDot|
      < 1) :
    (update E h ktraj).1.rresid_.variance
        = h.tvar_ + h.wvar_
          * (E.closestApproach ktraj h.saxis_ ⟨h.saxis_.t0, h.saxis_.t0⟩ h.precision_).dirDot ^ 2
          / (h.saxis_.speed ^ 2 * (1 -
            (E.closestApproach ktraj h.saxis_ ⟨h.saxis_.t0, h.saxis_.t0⟩
              h.precision_).dirDot ^ 2)) ∧
      h.tvar_ ≤ (update E h ktraj).1.rresid_.variance ∧
      ((update E h ktraj).1.rresid_.variance = h.tvar_ ↔
        (h.wvar_ = 0 ∨
          (E.closestApproach ktraj h.saxis_ ⟨h.saxis_.t0, h.saxis_.t0⟩ h.precision_).dirDot
            = 0)) ∧
      (|(E.closestApproach ktraj h.saxis_ ⟨h.saxis_.t0, h.saxis_.t0⟩ h.precision_).dirDot|
          ≤ |(E.closestApproach ktraj2 h.saxis_ ⟨h.saxis_.t0, h.saxis_.t0⟩
            h.precision_).dirDot| →
        (update E h ktraj).1.rresid_.variance ≤ (update E h ktraj2).1.rresid_.variance) := by
  rw [update_of_usable E h ktraj hu, update_of_usable E h ktraj2 hu2]
  simp only []
  generalize (E.closestApproach ktraj h.saxis_ ⟨h.saxis_.t0, h.saxis_.t0⟩ h.precision_).dirDot
    = d at hd
  generalize (E.closestApproach ktraj2 h.saxis_ ⟨h.saxis_.t0, h.saxis_.t0⟩ h.precision_).dirDot
    = d2 at hd2
  have hs2 : 0 < h.saxis_.speed * h.saxis_.speed := mul_self_pos.mpr hsp
  have hdd : d * d = |d| * |d| := (abs_mul_abs_self d).symm
  have hdd2 : d2 * d2 = |d2| * |d2| := (abs_mul_abs_self d2).symm
  have n1 := abs_nonneg d
  have n2 := abs_nonneg d2
  have p1 : 0 < 1 - d * d := by rw [hdd]; nlinarith
  have p2 : 0 < 1 - d2 * d2 := by rw [hdd2]; nlinarith
  have q1 : 0 < h.saxis_.speed * h.saxis_.speed * (1 - d * d) := mul_pos hs2 p1
  have q2 : 0 < h.saxis_.speed * h.saxis_.speed * (1 - d2 * d2) := mul_pos hs2 p2
  have hnn : 0 ≤ h.wvar_ * (d * d) / (h.saxis_.speed * h.saxis_.speed * (1 - d * d)) :=
    div_nonneg (mul_nonneg hwv (mul_self_nonneg d)) q1.le
  refine ⟨by rw [sq, sq], by linarith, ?_, ?_⟩
  · constructor
    · intro he
      have h0 : h.wvar_ * (d * d) / (h.saxis_.speed * h.saxis_.speed * (1 - d * d)) = 0 := by
        linarith
      rcases (div_eq_zero_iff.mp h0) with h1 | h1
      · rcases mul_eq_zero.mp h1 with h2 | h2
        · exact Or.inl h2
        · exact Or.inr (mul_self_eq_zero.mp h2)
      · exact absurd h1 q1.ne'
    · rintro (h0 | h0) <;> simp [h0]
  · intro hle
    have hr := ratio_mono d d2 hd hd2 hle
    have e1 : h.wvar_ * (d * d) / (h.saxis_.speed * h.saxis_.speed * (1 - d * d))
        = h.wvar_ / (h.saxis_.speed * h.saxis_.speed) * (d * d / (1 - d * d)) := by
      field_simp
    have e2 : h.wvar_ * (d2 * d2) / (h.saxis_.speed * h.saxis_.speed * (1 - d2 * d2))
        = h.wvar_ / (h.saxis_.speed * h.saxis_.speed) * (d2 * d2 / (1 - d2 * d2)) := by
      field_simp
    rw [e1, e2]
    have hc : 0 ≤ h.wvar_ / (h.saxis_.speed * h.saxis_.speed) := div_nonneg hwv hs2.le
    have := mul_le_mul_of_nonneg_left hr hc
    linarith

/-- C35 (witness). The sample hit (tvar = 1, wvar = 3, speed 2) with the sample
computation (dirDot = 1/2). -/
theorem variance_at_least_tvar_witness :
    (update sampleScintEnv sampleHit ()).1.rresid_.variance
        = sampleHit.tvar_ + sampleHit.wvar_
          * (sampleScintEnv.closestApproach () sampleHit.saxis_
              ⟨sampleHit.saxis_.t0, sampleHit.saxis_.t0⟩ sampleHit.precision_).dirDot ^ 2
          / (sampleHit.saxis_.speed ^ 2 * (1 -
            (sampleScintEnv.closestApproach () sampleHit.saxis_
              ⟨sampleHit.saxis_.t0, sampleHit.saxis_.t0⟩ sampleHit.precision_).dirDot ^ 2)) ∧
      sampleHit.tvar_ ≤ (update sampleScintEnv sampleHit ()).1.rresid_.variance ∧
      ((update sampleScintEnv sampleHit ()).1.rresid_.variance = sampleHit.tvar_ ↔
        (sampleHit.wvar_ = 0 ∨
          (sampleScintEnv.closestApproach () sampleHit.saxis_
            ⟨sampleHit.saxis_.t0, sampleHit.saxis_.t0⟩ sampleHit.precision_).dirDot = 0)) ∧
      (|(sampleScintEnv.closestApproach () sampleHit.saxis_
            ⟨sampleHit.saxis_.t0, sampleHit.saxis_.t0⟩ sampleHit.precision_).dirDot|
          ≤ |(sampleScintEnv.closestApproach () sampleHit.saxis_
            ⟨sampleHit.saxis_.t0, sampleHit.saxis_.t0⟩ sampleHit.precision_).dirDot| →
        (update sampleScintEnv sampleHit ()).1.rresid_.variance
          ≤ (update sampleScintEnv sampleHit ()).1.rresid_.variance) :=
  variance_at_least_tvar sampleScintEnv sampleHit () ()
    (by simp [sampleHit]) (by simp [sampleHit]) (by simp [sampleHit]) rfl
    (by simp only [sampleScintEnv]; rw [abs_of_pos] <;> norm_num) rfl
    (by simp only [sampleScintEnv]; rw [abs_of_pos] <;> norm_num)

end ScintHit

end KinKal
